import Mathlib

/-!
Verification of the core of the pika content-addressed EAV store.

The development shallowly embeds the two tree engines (Merkle Search Tree,
src/mst.rs, and Prolly Tree, src/pt.rs) and the store facade (src/db/mod.rs,
src/db/option.rs, src/db/table.rs).

Modelling conventions:
  * Machine bytes and u32 words are Nat with explicit reduction mod 2^32
    where the Rust code wraps.
  * Tree keys are a type K with a LinearOrder; the Rust code compares keys
    with K::compare over redb-serialized bytes, which redb requires to be a
    total order.  The serialized form K::as_bytes (fed to the rolling hash)
    is a separate parameter kb : K -> List Nat.
  * The 32-byte BLAKE3 node hash is modelled as an abstract type H together
    with a function hashN from nodes to H; collision-freedom of BLAKE3
    combined with injectivity of the postcard codec is modelled as
    injectivity hypotheses on hashN where a claim needs them.  The REPO
    table, which in the Rust code maps hash bytes to postcard blobs, is
    modelled as an association list from H to decoded nodes; putting and
    getting a node corresponds exactly to put_node_to_repo / the repo get
    plus postcard decode.
  * The level function calc_level (leading_zeros of the first 128 bits of
    blake3(key_bytes) / 3, src/mst.rs lines 79-87) is modelled as a
    parameter lev : K -> Nat, since BLAKE3 is an external dependency.
  * Rust recursion through the repo has no structural bound, so the
    embedded recursive operations take explicit fuel and report fuel
    exhaustion as an extra error; the real code would instead fail to
    terminate only on repos unreachable by the API.
-/

namespace Pika

/-- Bytes are modelled as naturals; real inputs satisfy b < 256. -/
abbrev Byte := Nat

/-- A blob stored in a table (Vec of bytes in the source). -/
abbrev Blob := List Nat

/- ===== Rolling hash (src/pt.rs lines 58-94) ===== -/

/-- WINDOW_SIZE constant from src/pt.rs line 61. -/
def WINDOW_SIZE : Nat := 32

/-- CHUNK_MODULUS constant from src/pt.rs line 64 (1 <<< 6). -/
def CHUNK_MODULUS : Nat := 64

/-- u32 rotate_left by 1 for x < 2^32. -/
def rotl1 (x : Nat) : Nat := 2 * x % 2 ^ 32 + x / 2 ^ 31

/-- State of the rolling hash of src/pt.rs lines 67-71: a circular window
of WINDOW_SIZE bytes, the write position, and the running u32 sum. -/
structure RollingHash where
  window : List Nat
  pos : Nat
  sum : Nat
  deriving DecidableEq, Repr

/-- RollingHash::new (src/pt.rs lines 74-80). -/
def RollingHash.new : RollingHash :=
  { window := List.replicate WINDOW_SIZE 0, pos := 0, sum := 0 }

/-- RollingHash::update (src/pt.rs lines 82-89): replace the oldest byte in
the circular window and set sum to rotate_left(1) minus the evicted byte
plus the new byte, all in wrapping u32 arithmetic. -/
def RollingHash.update (r : RollingHash) (b : Nat) : RollingHash :=
  let old := r.window.getD r.pos 0
  { window := r.window.set r.pos b
    pos := (r.pos + 1) % WINDOW_SIZE
    sum := (rotl1 r.sum + (2 ^ 32 - old % 2 ^ 32) + b) % 2 ^ 32 }

/-- RollingHash::is_boundary (src/pt.rs lines 91-93). -/
def RollingHash.is_boundary (r : RollingHash) : Bool :=
  r.sum % CHUNK_MODULUS == 0

/-- Feeding a whole byte sequence, in order, one update per byte. -/
def RollingHash.feed (r : RollingHash) (bs : List Nat) : RollingHash :=
  bs.foldl RollingHash.update r

/- ===== Content-addressed node repository (src/mst.rs 411-442, src/pt.rs 321-347) ===== -/

/-- A typed view of the REPO table restricted to one node type: an
association list from hashes to the decoded nodes their blobs encode.
The Rust table stores postcard blobs; get_node_from_repo decodes them and
put_node_to_repo encodes, so up to the (injective) codec the table is
exactly this association list. -/
abbrev NodeRepo (H α : Type) := List (H × α)

/-- The repo get plus postcard decode (get_node_from_repo): the entry with
the given hash, if any. -/
def getNode [DecidableEq H] {α : Type} (repo : NodeRepo H α) (h : H) : Option α :=
  (repo.find? fun p => decide (p.1 = h)).map Prod.snd

/-- put_node_to_repo (src/mst.rs 430-442) and PtNode::save (src/pt.rs
334-347): hash the encoded node and insert it only if the hash is not
already present; return the hash. -/
def putNode [DecidableEq H] {α : Type} (hashN : α → H) (repo : NodeRepo H α) (n : α) :
    NodeRepo H α × H :=
  let h := hashN n
  match getNode repo h with
  | some _ => (repo, h)
  | none => ((h, n) :: repo, h)

/- ===== MST engine (src/mst.rs) ===== -/

/-- MstItem (src/mst.rs lines 35-39): a payload or a reference to a child
node by hash. -/
inductive MstItem (K V H : Type) where
  | payload (k : K) (v : V)
  | ref (h : H)
  deriving DecidableEq

/-- MstNode is a list of items (src/mst.rs line 45). -/
abbrev MstNode (K V H : Type) := List (MstItem K V H)

/-- Errors of the MST engine (src/mst.rs lines 12-22).  outOfFuel models
exhaustion of the explicit recursion bound; the Rust code has no such
bound and would recurse as deep as the repo demands. -/
inductive MstError (H : Type) where
  | refNotFound (h : H)
  | outOfFuel
  deriving DecidableEq

section MstDefs

variable {K V H : Type} [LinearOrder K] [DecidableEq H]

/-- MstNode::load (src/mst.rs 60-68). -/
def MstNode.load (repo : NodeRepo H (MstNode K V H)) (h : H) :
    Except (MstError H) (MstNode K V H) :=
  match getNode repo h with
  | some n => .ok n
  | none => .error (.refNotFound h)

/-- MstNode::estimate_level (src/mst.rs 92-99): the calc_level of the first
payload, if the node has one.  calc_level itself is the parameter lev. -/
def MstNode.estimate_level (lev : K → Nat) (node : MstNode K V H) : Option Nat :=
  node.findSome? fun it =>
    match it with
    | .payload k _ => some (lev k)
    | .ref _ => none

/-- The scan of MstNode::find (src/mst.rs 109-146).  The recursion carries
the previously visited item, mirroring the Rust access to self.0[i-1] in
the Less branch; when the scan reaches the end, the carried item is the
node's last item, mirroring the self.0.last() check.  The gas argument
decreases on every step (list step or child descent) so the recursion is
structural; a sufficiently large gas reproduces the unbounded Rust
recursion. -/
def MstNode.findAux (repo : NodeRepo H (MstNode K V H)) (key : K) :
    Nat → Option (MstItem K V H) → MstNode K V H → Except (MstError H) (Option V)
  | 0, _, _ => .error .outOfFuel
  | gas + 1, prev, [] =>
    (match prev with
     | some (.ref h) =>
       match getNode repo h with
       | some child => MstNode.findAux repo key gas none child
       | none => .error (.refNotFound h)
     | _ => .ok none)
  | gas + 1, prev, .payload k v :: rest =>
    (match compare key k with
     | .eq => .ok (some v)
     | .lt =>
       match prev with
       | some (.ref h) =>
         match getNode repo h with
         | some child => MstNode.findAux repo key gas none child
         | none => .error (.refNotFound h)
       | _ => .ok none
     | .gt => MstNode.findAux repo key gas (some (.payload k v)) rest)
  | gas + 1, _, .ref h :: rest => MstNode.findAux repo key gas (some (.ref h)) rest

/-- MstNode::find (src/mst.rs 109-146). -/
def MstNode.find (fuel : Nat) (repo : NodeRepo H (MstNode K V H))
    (node : MstNode K V H) (key : K) : Except (MstError H) (Option V) :=
  MstNode.findAux repo key fuel none node

/-- Result of the scanning loop of insert_local: an equal key was found at
index i, or the loop finished with the final insert_pos and
split_target_idx. -/
inductive ScanRes where
  | found (i : Nat)
  | done (pos : Nat) (target : Option Nat)
  deriving DecidableEq, Repr

/-- The loop of MstNode::insert_local (src/mst.rs 194-234).  The arguments
i, pos, target, prevRef are the loop state: the running index, insert_pos,
split_target_idx and prev_was_ref. -/
def MstNode.scan_local (key : K) :
    Nat → Nat → Option Nat → Bool → MstNode K V H → ScanRes
  | _, pos, target, _, [] => .done pos target
  | i, _, target, prevRef, .payload k _ :: rest =>
    (match compare key k with
     | .eq => .found i
     | .lt => .done i (if 0 < i ∧ prevRef then some (i - 1) else target)
     | .gt => MstNode.scan_local key (i + 1) (i + 1) target false rest)
  | i, pos, target, _, .ref _ :: rest =>
    MstNode.scan_local key (i + 1) (if pos = i then i + 1 else pos) target true rest

/-- Replacement of the value bound at index i, keeping the stored key: the
Rust Equal branch assigns through the mutable value reference only. -/
def MstNode.set_value : MstNode K V H → Nat → V → MstNode K V H
  | [], _, _ => []
  | it :: rest, 0, v =>
    (match it with
     | .payload k _ => .payload k v
     | .ref h => .ref h) :: rest
  | it :: rest, i + 1, v => it :: MstNode.set_value rest i v

/-- The child-index computation of MstNode::insert_into_child
(src/mst.rs 279-309): the position of the first payload greater than the
key, shifted onto a directly preceding ref, or at the end the last item if
it is a ref, else the length. -/
def MstNode.child_idx (key : K) (node : MstNode K V H) : Nat :=
  match node.findIdx? (fun it =>
      match it with
      | .payload k _ => compare key k == .lt
      | .ref _ => false) with
  | some i =>
    if 0 < i then
      match node[i-1]? with
      | some (.ref _) => i - 1
      | _ => i
    else i
  | none =>
    match node.getLast? with
    | some (.ref _) => node.length - 1
    | _ => node.length

mutual

/-- MstNode::upsert (src/mst.rs 157-182): dispatch on the required level of
the key versus the node level, then store the new node. -/
def MstNode.upsert (lev : K → Nat) (hashN : MstNode K V H → H) (fuel : Nat)
    (repo : NodeRepo H (MstNode K V H)) (node : MstNode K V H) (key : K) (value : V) :
    Except (MstError H) (NodeRepo H (MstNode K V H) × MstNode K V H × H) :=
  match fuel with
  | 0 => .error .outOfFuel
  | fuel + 1 =>
    let req := lev key
    let nl := (MstNode.estimate_level lev node).getD req
    if nl < req then do
      let (repo1, lh, rh) ← MstNode.split lev hashN fuel repo node key
      let node1 : MstNode K V H := [.ref lh, .payload key value, .ref rh]
      let (repo2, h) := putNode hashN repo1 node1
      .ok (repo2, node1, h)
    else if req = nl then do
      let (repo1, node1) ← MstNode.insert_local lev hashN fuel repo node key value
      let (repo2, h) := putNode hashN repo1 node1
      .ok (repo2, node1, h)
    else do
      let (repo1, node1) ← MstNode.insert_into_child lev hashN fuel repo node key value
      let (repo2, h) := putNode hashN repo1 node1
      .ok (repo2, node1, h)

/-- MstNode::insert_local (src/mst.rs 188-267): scan for the position, then
replace in place, split the targeted child ref, or insert the payload. -/
def MstNode.insert_local (lev : K → Nat) (hashN : MstNode K V H → H) (fuel : Nat)
    (repo : NodeRepo H (MstNode K V H)) (node : MstNode K V H) (key : K) (value : V) :
    Except (MstError H) (NodeRepo H (MstNode K V H) × MstNode K V H) :=
  match fuel with
  | 0 => .error .outOfFuel
  | fuel + 1 =>
    match MstNode.scan_local key 0 0 none false node with
    | .found i => .ok (repo, MstNode.set_value node i value)
    | .done pos target =>
      let lastIsRef : Bool :=
        match node.getLast? with
        | some (.ref _) => true
        | _ => false
      let target1 :=
        if pos = node.length then
          (if lastIsRef then some (node.length - 1) else target)
        else target
      match target1 with
      | some idx =>
        (match node[idx]? with
         | some (.ref h) => do
           let child ← MstNode.load repo h
           let (repo1, lh, rh) ← MstNode.split lev hashN fuel repo child key
           .ok (repo1,
             node.take idx ++ [.ref lh, .payload key value, .ref rh] ++ node.drop (idx + 1))
         | _ => .ok (repo, node))
      | none => .ok (repo, node.insertIdx pos (.payload key value))

/-- MstNode::insert_into_child (src/mst.rs 273-334): load or create the
child at child_idx, upsert into it, and wire the new child hash back in. -/
def MstNode.insert_into_child (lev : K → Nat) (hashN : MstNode K V H → H) (fuel : Nat)
    (repo : NodeRepo H (MstNode K V H)) (node : MstNode K V H) (key : K) (value : V) :
    Except (MstError H) (NodeRepo H (MstNode K V H) × MstNode K V H) :=
  match fuel with
  | 0 => .error .outOfFuel
  | fuel + 1 => do
    let idx := MstNode.child_idx key node
    let child ← (match node[idx]? with
      | some (.ref h) => MstNode.load repo h
      | _ => .ok ([] : MstNode K V H))
    let (repo1, _, ch) ← MstNode.upsert lev hashN fuel repo child key value
    let node1 := match node[idx]? with
      | some (.ref _) => node.set idx (.ref ch)
      | some _ => node.insertIdx idx (.ref ch)
      | none => node ++ [.ref ch]
    .ok (repo1, node1)

/-- MstNode::split (src/mst.rs 340-409): partition the items at the first
payload greater than the split key, recursively splitting a child ref that
sits on the boundary, and store both sides. -/
def MstNode.split (lev : K → Nat) (hashN : MstNode K V H → H) (fuel : Nat)
    (repo : NodeRepo H (MstNode K V H)) (node : MstNode K V H) (split_key : K) :
    Except (MstError H) (NodeRepo H (MstNode K V H) × H × H) :=
  match fuel with
  | 0 => .error .outOfFuel
  | fuel + 1 =>
    let si := (node.findIdx? (fun it =>
        match it with
        | .payload k _ => compare k split_key == .gt
        | .ref _ => false)).getD node.length
    let rts : Option Nat :=
      if 0 < si then
        match node[si-1]? with
        | some (MstItem.ref _) => some (si - 1)
        | _ => none
      else
        match node[0]? with
        | some (MstItem.ref _) => some 0
        | _ => none
    let limit := rts.getD si
    match rts with
    | some idx =>
      (match node[idx]? with
       | some (.ref h) => do
         let child ← MstNode.load repo h
         let (repo1, lh, rh) ← MstNode.split lev hashN fuel repo child split_key
         let leftN := node.take limit ++ [.ref lh]
         let rightN : MstNode K V H := MstItem.ref rh :: node.drop (idx + 1)
         let (repo2, lh2) := putNode hashN repo1 leftN
         let (repo3, rh2) := putNode hashN repo2 rightN
         .ok (repo3, lh2, rh2)
       | _ =>
         let leftN := node.take limit
         let rightN := node.drop (idx + 1)
         let (repo1, lh2) := putNode hashN repo leftN
         let (repo2, rh2) := putNode hashN repo1 rightN
         .ok (repo2, lh2, rh2))
    | none =>
      let leftN := node.take limit
      let rightN := node.drop si
      let (repo1, lh2) := putNode hashN repo leftN
      let (repo2, rh2) := putNode hashN repo1 rightN
      .ok (repo2, lh2, rh2)

end

/-- Iterated upsert from a starting tree, threading the repo, as the store
facade does one write at a time. -/
def MstNode.upsertAll (lev : K → Nat) (hashN : MstNode K V H → H) (fuel : Nat)
    (repo : NodeRepo H (MstNode K V H)) (node : MstNode K V H) :
    List (K × V) →
    Except (MstError H) (NodeRepo H (MstNode K V H) × MstNode K V H × H)
  | [] =>
    let (repo1, h) := putNode hashN repo node
    .ok (repo1, node, h)
  | (k, v) :: rest => do
    let (repo1, node1, _) ← MstNode.upsert lev hashN fuel repo node k v
    MstNode.upsertAll lev hashN fuel repo1 node1 rest

/-- All payloads of a node share a calc_level: no two payload keys map to
different levels. -/
def MstNode.levelHomog (lev : K → Nat) (node : MstNode K V H) : Prop :=
  ∀ k1 v1 k2 v2, MstItem.payload k1 v1 ∈ node → MstItem.payload k2 v2 ∈ node →
    lev k1 = lev k2

/-- Every node stored in the repo is level-homogeneous. -/
def repoLevelHomog (lev : K → Nat) (repo : NodeRepo H (MstNode K V H)) : Prop :=
  ∀ p ∈ repo, MstNode.levelHomog lev p.2

/-- The carried previous item is not a child reference. -/
def notRefO : Option (MstItem K V H) → Bool
  | some (.ref _) => false
  | _ => true

/-- The previous-item state of the find scan after consuming a prefix. -/
def enterPrev (prev : Option (MstItem K V H)) (xs : MstNode K V H) :
    Option (MstItem K V H) :=
  match xs.getLast? with
  | some it => some it
  | none => prev

/-- The fuel-free graph of MstNode::find: FindR repo key prev node r holds
exactly when the find scan starting at node with carried previous item
prev terminates with result r, every child reference taken resolving in
repo. -/
inductive FindR (repo : NodeRepo H (MstNode K V H)) (key : K) :
    Option (MstItem K V H) → MstNode K V H → Option V → Prop where
  | nil_plain (prev) : notRefO prev = true → FindR repo key prev [] none
  | nil_ref (h child r) : getNode repo h = some child →
      FindR repo key none child r → FindR repo key (some (.ref h)) [] r
  | pay_eq (prev k v rest) : compare key k = .eq →
      FindR repo key prev (.payload k v :: rest) (some v)
  | pay_lt_ref (h child k v rest r) : compare key k = .lt →
      getNode repo h = some child → FindR repo key none child r →
      FindR repo key (some (.ref h)) (.payload k v :: rest) r
  | pay_lt_plain (prev k v rest) : compare key k = .lt → notRefO prev = true →
      FindR repo key prev (.payload k v :: rest) none
  | pay_gt (prev k v rest r) : compare key k = .gt →
      FindR repo key (some (.payload k v)) rest r →
      FindR repo key prev (.payload k v :: rest) r
  | step_ref (prev h rest r) : FindR repo key (some (.ref h)) rest r →
      FindR repo key prev (.ref h :: rest) r

/-- Strict lower bound check against an optional bound. -/
def OltK (lo : Option K) (k : K) : Prop := ∀ a, lo = some a → a < k

/-- Weak upper bound check against an optional bound. -/
def KleH (k : K) (hi : Option K) : Prop := ∀ b, hi = some b → k ≤ b

/-- The upper bound a child reference inherits: the key of the next
payload if one follows, else the node's upper bound. -/
def headBound (hi : Option K) : MstNode K V H → Option K
  | .payload k _ :: _ => some k
  | _ => hi

/-- The list does not start with a child reference. -/
def headNotRef : MstNode K V H → Bool
  | .ref _ :: _ => false
  | _ => true

/-- The list does not end with a child reference. -/
def endNotRef (xs : MstNode K V H) : Bool := notRefO (enterPrev none xs)

/-- The last payload key of a consumed prefix, as an updated lower
bound. -/
def lastPayloadBound (lo : Option K) : MstNode K V H → Option K
  | [] => lo
  | .payload k _ :: rest => lastPayloadBound (some k) rest
  | .ref _ :: rest => lastPayloadBound lo rest

/-- Whether the scan's previous item is a reference after consuming a
prefix, starting from the flag b. -/
def lastRefB (b : Bool) : MstNode K V H → Bool
  | [] => b
  | .payload _ _ :: rest => lastRefB false rest
  | .ref _ :: rest => lastRefB true rest

/-- Well-formedness of an MST node under optional bounds (strict lower,
weak upper): payload keys strictly increase within the node and respect
the bounds, a child reference resolves in the repo to a node bounded
between the running lower bound and the key of the next payload (weakly,
admitting the stale shadowed duplicates the code creates), and no two
child references are adjacent. -/
inductive Wf (repo : NodeRepo H (MstNode K V H)) :
    Option K → Option K → MstNode K V H → Prop where
  | nil (lo hi) : Wf repo lo hi []
  | pay (lo hi k v rest) : OltK lo k → KleH k hi → Wf repo (some k) hi rest →
      Wf repo lo hi (.payload k v :: rest)
  | ref (lo hi h child rest) : getNode repo h = some child →
      Wf repo lo (headBound hi rest) child →
      headNotRef rest = true →
      Wf repo lo hi rest →
      Wf repo lo hi (.ref h :: rest)

end MstDefs

/- ===== PT engine (src/pt.rs) ===== -/

/-- PtItem (src/pt.rs lines 35-43): a leaf payload, or a reference
carrying the first key of the child and the child hash. -/
inductive PtItem (K V H : Type) where
  | payload (k : K) (v : V)
  | ref (k : K) (h : H)
  deriving DecidableEq

/-- PtItem::key (src/pt.rs lines 45-52). -/
def PtItem.key {K V H : Type} : PtItem K V H → K
  | .payload k _ => k
  | .ref k _ => k

/-- PtNode is a list of items (src/pt.rs line 56). -/
abbrev PtNode (K V H : Type) := List (PtItem K V H)

/-- Errors of the PT engine (src/pt.rs lines 11-21).  refNotFound none
models the sentinel Err(RefNotFound with hash [0u8; 32]) raised in upsert
(src/pt.rs line 270); outOfFuel models exhaustion of the explicit
recursion bound absent from the Rust code. -/
inductive PtError (H : Type) where
  | refNotFound (h : Option H)
  | outOfFuel
  deriving DecidableEq

/-- The loop of Rust slice binary_search_by, as partition_point uses it:
pred-true compares Less (move left past mid), pred-false compares Greater
(cut right to mid); the predicate is never Equal.  The gas argument makes
the recursion structural; the interval right - left shrinks every
iteration, so any gas of at least the initial interval length reproduces
the Rust loop exactly. -/
def ppGo {α : Type} (p : α → Bool) (l : List α) : Nat → Nat → Nat → Nat
  | 0, left, _ => left
  | gas + 1, left, right =>
    if left < right then
      if (match l[left + (right - left) / 2]? with
          | some x => p x
          | none => false) then
        ppGo p l gas (left + (right - left) / 2 + 1) right
      else
        ppGo p l gas left (left + (right - left) / 2)
    else left

/-- Rust slice::partition_point: the index binary search converges to;
equal to the count of predicate-true elements when the list is partitioned
(all true elements before all false ones).  Gas l.length suffices since
every iteration shrinks the interval. -/
def partition_point {α : Type} (p : α → Bool) (l : List α) : Nat :=
  ppGo p l l.length 0 l.length

section PtDefs

variable {K V H : Type} [LinearOrder K] [DecidableEq H]

/-- PtNode::load (src/pt.rs 104-112). -/
def PtNode.load (repo : NodeRepo H (PtNode K V H)) (h : H) :
    Except (PtError H) (PtNode K V H) :=
  match getNode repo h with
  | some n => .ok n
  | none => .error (.refNotFound (some h))

/-- PtNode::save (src/pt.rs 334-347): content-addressed store of a node. -/
def PtNode.save (hashP : PtNode K V H → H) (repo : NodeRepo H (PtNode K V H))
    (node : PtNode K V H) : NodeRepo H (PtNode K V H) × H :=
  putNode hashP repo node

/-- The loop of PtNode::chunk_and_save (src/pt.rs 288-316): feed each
item's serialized key into the rolling hash, append the item to the
current chunk, and emit the chunk when the hash is at a boundary; a final
non-empty chunk is emitted after the loop.  The hash is not reset between
chunks. -/
def PtNode.chunkAux (kb : K → List Nat) (hashP : PtNode K V H → H)
    (repo : NodeRepo H (PtNode K V H)) (hasher : RollingHash)
    (chunk : PtNode K V H) (acc : PtNode K V H) :
    PtNode K V H → NodeRepo H (PtNode K V H) × PtNode K V H
  | [] =>
    (match chunk with
     | [] => (repo, acc)
     | c0 :: _ =>
       let (repo1, h) := PtNode.save hashP repo chunk
       (repo1, acc ++ [.ref (PtItem.key c0) h]))
  | it :: rest =>
    let hasher1 := hasher.feed (kb (PtItem.key it))
    let chunk1 := chunk ++ [it]
    if hasher1.is_boundary then
      match chunk1 with
      | c0 :: _ =>
        let (repo1, h) := PtNode.save hashP repo chunk1
        PtNode.chunkAux kb hashP repo1 hasher1 [] (acc ++ [.ref (PtItem.key c0) h]) rest
      | [] => PtNode.chunkAux kb hashP repo hasher1 chunk1 acc rest
    else PtNode.chunkAux kb hashP repo hasher1 chunk1 acc rest

/-- PtNode::chunk_and_save (src/pt.rs 280-319). -/
def PtNode.chunk_and_save (kb : K → List Nat) (hashP : PtNode K V H → H)
    (repo : NodeRepo H (PtNode K V H)) (items : PtNode K V H) :
    NodeRepo H (PtNode K V H) × PtNode K V H :=
  PtNode.chunkAux kb hashP repo RollingHash.new [] [] items

/-- PtNode::find (src/pt.rs 120-196): partition_point with the
not-Greater predicate, then an exact-match check at idx-1 in a leaf or a
descent through the ref at idx-1 in an internal node. -/
def PtNode.find :
    Nat → NodeRepo H (PtNode K V H) → PtNode K V H → K → Except (PtError H) (Option V)
  | 0, _, _, _ => .error .outOfFuel
  | fuel + 1, repo, node, key =>
    let idx := partition_point
      (fun it => !(compare (PtItem.key it) key == .gt)) node
    match node with
    | [] => .ok none
    | first :: _ =>
      match first with
      | .payload _ _ =>
        if 0 < idx then
          match node[idx-1]? with
          | some (.payload k v) =>
            if compare k key == .eq then .ok (some v) else .ok none
          | _ => .ok none
        else .ok none
      | .ref _ _ =>
        if 0 < idx then
          match node[idx-1]? with
          | some (.ref _ h) => do
            let child ← PtNode.load repo h
            PtNode.find fuel repo child key
          | _ => .ok none
        else .ok none

/-- PtNode::upsert (src/pt.rs 201-276): sorted insert or replace in a
leaf, or recursive upsert through the covering child of an internal node
with the returned refs spliced in; the result is re-chunked. -/
def PtNode.upsert (kb : K → List Nat) (hashP : PtNode K V H → H) :
    Nat → NodeRepo H (PtNode K V H) → PtNode K V H → K → V →
    Except (PtError H) (NodeRepo H (PtNode K V H) × PtNode K V H)
  | 0, _, _, _, _ => .error .outOfFuel
  | fuel + 1, repo, node, key, value =>
    let isLeaf : Bool := node.isEmpty ||
      (match node.head? with
       | some (.payload _ _) => true
       | _ => false)
    if isLeaf then
      let idx := partition_point (fun it => compare (PtItem.key it) key == .lt) node
      let isEq : Bool :=
        match node[idx]? with
        | some it => compare (PtItem.key it) key == .eq
        | none => false
      let items := if isEq then node.set idx (.payload key value)
        else node.insertIdx idx (.payload key value)
      .ok (PtNode.chunk_and_save kb hashP repo items)
    else
      let idx := partition_point
        (fun it => !(compare (PtItem.key it) key == .gt)) node
      let childIdx := idx - 1
      match node[childIdx]? with
      | some (.ref _ h) => do
        let child ← PtNode.load repo h
        let (repo1, refs) ← PtNode.upsert kb hashP fuel repo child key value
        .ok (PtNode.chunk_and_save kb hashP repo1
          (node.take childIdx ++ refs ++ node.drop (childIdx + 1)))
      | some (.payload _ _) => .error (.refNotFound none)
      | none => .ok (repo, [])

/-- The root-collapse loop run after each PT upsert (src/db/mod.rs
144-146 and the tests of src/pt.rs): re-chunk the refs until at most one
remains.  The fuel bounds the number of iterations of the unbounded Rust
while loop. -/
def PtNode.collapse (kb : K → List Nat) (hashP : PtNode K V H → H) :
    Nat → NodeRepo H (PtNode K V H) → PtNode K V H →
    Except (PtError H) (NodeRepo H (PtNode K V H) × PtNode K V H)
  | fuel, repo, refs =>
    if refs.length ≤ 1 then .ok (repo, refs)
    else
      match fuel with
      | 0 => .error .outOfFuel
      | fuel + 1 =>
        let (repo1, refs1) := PtNode.chunk_and_save kb hashP repo refs
        PtNode.collapse kb hashP fuel repo1 refs1

/-- One whole-store PT write at the engine level, exactly as Db::write
drives the engine (src/db/mod.rs 127-151): load the current root if a
root hash exists, upsert, collapse the returned refs, and take the head
ref's hash as the new root; if the collapsed list has no head ref the
root is left unchanged. -/
def PtNode.root_write (kb : K → List Nat) (hashP : PtNode K V H → H)
    (fuel fuelC : Nat) (repo : NodeRepo H (PtNode K V H)) (rootH : Option H)
    (key : K) (value : V) :
    Except (PtError H) (NodeRepo H (PtNode K V H) × Option H) := do
  let node ← (match rootH with
    | some h => PtNode.load repo h
    | none => .ok ([] : PtNode K V H))
  let (repo1, refs1) ← PtNode.upsert kb hashP fuel repo node key value
  let (repo2, refs2) ← PtNode.collapse kb hashP fuelC repo1 refs1
  match refs2.head? with
  | some (.ref _ h) => .ok (repo2, some h)
  | _ => .ok (repo2, rootH)

/-- A sequence of PT whole-store writes from an empty store. -/
def PtNode.root_writeAll (kb : K → List Nat) (hashP : PtNode K V H → H)
    (fuel fuelC : Nat) (repo : NodeRepo H (PtNode K V H)) (rootH : Option H) :
    List (K × V) → Except (PtError H) (NodeRepo H (PtNode K V H) × Option H)
  | [] => .ok (repo, rootH)
  | (k, v) :: rest => do
    let (repo1, rootH1) ← PtNode.root_write kb hashP fuel fuelC repo rootH k v
    PtNode.root_writeAll kb hashP fuel fuelC repo1 rootH1 rest

/-- The chunk partition described by the spec for chunk_and_save: process
the items in order, feed each serialized key into the rolling hash, append
the item to the current chunk, cut the chunk at each hash boundary without
resetting the hash, and emit a non-empty final chunk after the loop. -/
def specChunkPartitionAux (kb : K → List Nat) (hasher : RollingHash)
    (chunk : PtNode K V H) : PtNode K V H → List (PtNode K V H)
  | [] =>
    (match chunk with
     | [] => []
     | _ :: _ => [chunk])
  | it :: rest =>
    let hasher1 := hasher.feed (kb (PtItem.key it))
    if hasher1.is_boundary then
      (chunk ++ [it]) :: specChunkPartitionAux kb hasher1 [] rest
    else specChunkPartitionAux kb hasher1 (chunk ++ [it]) rest

/-- The spec chunk partition of a fresh chunking pass. -/
def specChunkPartition (kb : K → List Nat) (items : PtNode K V H) :
    List (PtNode K V H) :=
  specChunkPartitionAux kb RollingHash.new [] items

end PtDefs

/- ===== Store facade (src/db/mod.rs, src/db/option.rs, src/db/table.rs) ===== -/

/-- Engine (src/db/mod.rs lines 28-32). -/
inductive Engine where
  | mst
  | pt
  deriving DecidableEq

/-- Errors of the option table (src/db/option.rs lines 16-29). -/
inductive OptionError where
  | postcardError
  | storageError
  | optionNotSet
  | remoteNotFound (name : String)
  deriving DecidableEq

/-- DbError (src/db/mod.rs lines 34-68), with the same variants.  There
is no NotInitialized variant in the source. -/
inductive DbError (H : Type) where
  | databaseError
  | tableError
  | redbError
  | txnError
  | commitError
  | redbGeneric
  | optionError (e : OptionError)
  | mstError (e : MstError H)
  | ptError (e : PtError H)
  | rootHashNotFound
  | ioError
  deriving DecidableEq

/-- The tree key the facade uses: the pair (entity, attribute) with the
lexicographic order that redb gives tuples of strings. -/
abbrev DbKey := Lex (String × String)

/-- redb table insert: overwrite the value under an existing key or add
the pair.  Tables are modelled as association lists read through
getNode. -/
def tableInsert {κ ω : Type} [DecidableEq κ] (l : List (κ × ω)) (k : κ) (w : ω) :
    List (κ × ω) :=
  if (l.find? fun p => decide (p.1 = k)).isSome then
    l.map fun p => if p.1 = k then (k, w) else p
  else (k, w) :: l

/-- The state of a store: the four tables of src/db/table.rs plus the
engine field of the Db struct.  The REPO table holds blobs of both node
shapes in the source; here it is split into its two typed views, of
which a store of a given engine only ever touches one.  The OPTIONS
table is keyed by the DbOption discriminant byte. -/
structure DbState (H : Type) where
  engine : Engine
  eav : List ((String × String) × String)
  refs : List (String × H)
  repoM : NodeRepo H (MstNode DbKey String H)
  repoP : NodeRepo H (PtNode DbKey String H)
  options : Option (List (Nat × Blob))

/-- ROOT_REF_NAME (src/db/table.rs). -/
def ROOT_REF_NAME : String := "root"

/-- Postcard encoding of the Engine enum: the variant index as a
varint. -/
def encodeEngine : Engine → Blob
  | .mst => [0]
  | .pt => [1]

/-- Postcard decoding of the Engine enum; any other blob is a decode
error. -/
def decodeEngine : Blob → Option Engine
  | [0] => some .mst
  | [1] => some .pt
  | _ => none

/-- The OPTIONS key of the engine selection (DbOption::Engine = 0,
src/db/option.rs lines 10-14). -/
def engineOptionKey : Nat := 0

section DbDefs

variable {H : Type} [DecidableEq H]

/-- Db::init (src/db/mod.rs 77-88): create the store and set the engine
option and a fresh secret key (DbOption::SecretKey = 1; its random bytes
are irrelevant to every claim and modelled as []). -/
def Db.init (engine : Engine) : DbState H :=
  { engine := engine
    eav := []
    refs := []
    repoM := []
    repoP := []
    options := some (tableInsert (tableInsert [] engineOptionKey (encodeEngine engine)) 1 []) }

/-- OptionTable::get_engine (src/db/option.rs 37-44): look up the engine
option and postcard-decode it. -/
def OptionTable.get_engine (tbl : List (Nat × Blob)) : Except OptionError Engine :=
  match getNode tbl engineOptionKey with
  | none => .error .optionNotSet
  | some blob =>
    match decodeEngine blob with
    | some e => .ok e
    | none => .error .postcardError

/-- Db::open (src/db/mod.rs 90-98): read the engine selection.  A
missing OPTIONS table surfaces as the redb::Error of open_table wrapped
into DbError::RedbGeneric; a get_engine failure is wrapped into
DbError::OptionError.  On success the opened store uses the stored
engine. -/
def Db.open (st : DbState H) : Except (DbError H) Engine :=
  match st.options with
  | none => .error .redbGeneric
  | some tbl =>
    match OptionTable.get_engine tbl with
    | .ok e => .ok e
    | .error e => .error (.optionError e)

/-- The root-collapse loop of Db::write for the PT engine (src/db/mod.rs
144-146): re-chunk the returned refs until at most one remains.  The
fuel bounds the number of iterations; the Rust loop is unbounded and can
cycle forever (see the PT divergence theorem below). -/
def Db.collapse (kb : DbKey → List Nat) (hashP : PtNode DbKey String H → H)
    (fuel : Nat) (repo : NodeRepo H (PtNode DbKey String H))
    (refs : PtNode DbKey String H) :
    Except (PtError H) (NodeRepo H (PtNode DbKey String H) × PtNode DbKey String H) :=
  PtNode.collapse kb hashP fuel repo refs

/-- Db::write (src/db/mod.rs 100-156): one transaction that upserts the
triple into the EAV table, upserts the key into the selected engine's
tree starting from the current root ref, and rewrites the root ref with
the returned hash. -/
def Db.write (lev : DbKey → Nat) (kb : DbKey → List Nat)
    (hashM : MstNode DbKey String H → H) (hashP : PtNode DbKey String H → H)
    (fuel fuelC : Nat) (st : DbState H) (entity attr value : String) :
    Except (DbError H) (DbState H) :=
  let eav1 := tableInsert st.eav (entity, attr) value
  match st.engine with
  | .mst => do
    let node ← (match getNode st.refs ROOT_REF_NAME with
      | some h => (MstNode.load st.repoM h).mapError DbError.mstError
      | none => .ok ([] : MstNode DbKey String H))
    let (repo1, _, h1) ←
      (MstNode.upsert lev hashM fuel st.repoM node (toLex (entity, attr)) value).mapError
        DbError.mstError
    .ok { st with eav := eav1, repoM := repo1,
                  refs := tableInsert st.refs ROOT_REF_NAME h1 }
  | .pt => do
    let node ← (match getNode st.refs ROOT_REF_NAME with
      | some h => (PtNode.load st.repoP h).mapError DbError.ptError
      | none => .ok ([] : PtNode DbKey String H))
    let (repo1, refs1) ←
      (PtNode.upsert kb hashP fuel st.repoP node (toLex (entity, attr)) value).mapError
        DbError.ptError
    let (repo2, refs2) ← (Db.collapse kb hashP fuelC repo1 refs1).mapError DbError.ptError
    match refs2.head? with
    | some (.ref _ h2) =>
      .ok { st with eav := eav1, repoP := repo2,
                    refs := tableInsert st.refs ROOT_REF_NAME h2 }
    | _ => .ok { st with eav := eav1, repoP := repo2 }

/-- Db::read (src/db/mod.rs 158-166): a direct EAV index read. -/
def Db.read (st : DbState H) (entity attr : String) : Option String :=
  getNode st.eav (entity, attr)

/-- Db::read_ref (src/db/mod.rs 212-239): resolve the named ref, fail
with RootHashNotFound when it is absent, else load the root node and
walk the selected engine's tree. -/
def Db.read_ref (fuel : Nat) (st : DbState H) (ref_name entity attr : String) :
    Except (DbError H) (Option String) :=
  match getNode st.refs ref_name with
  | none => .error .rootHashNotFound
  | some h =>
    match st.engine with
    | .mst => do
      let node ← (MstNode.load st.repoM h).mapError DbError.mstError
      (MstNode.find fuel st.repoM node (toLex (entity, attr))).mapError DbError.mstError
    | .pt => do
      let node ← (PtNode.load st.repoP h).mapError DbError.ptError
      (PtNode.find fuel st.repoP node (toLex (entity, attr))).mapError DbError.ptError

/-- A sequence of Db::write calls with shared fuel bounds. -/
def Db.writeAll (lev : DbKey → Nat) (kb : DbKey → List Nat)
    (hashM : MstNode DbKey String H → H) (hashP : PtNode DbKey String H → H)
    (fuel fuelC : Nat) (st : DbState H) :
    List (String × String × String) → Except (DbError H) (DbState H)
  | [] => .ok st
  | (e, a, v) :: rest => do
    let st1 ← Db.write lev kb hashM hashP fuel fuelC st e a v
    Db.writeAll lev kb hashM hashP fuel fuelC st1 rest

end DbDefs

/- ===== Concrete hash functions for running the engines ===== -/

/-- Characters are encodable through their code points. -/
instance : Encodable Char :=
  Encodable.ofLeftInjection Char.toNat (fun n => some (Char.ofNat n))
    (fun c => by
      show some (Char.ofNat c.toNat) = some c
      rw [Char.ofNat_toNat])

/-- Strings are encodable through their character lists. -/
instance : Encodable String :=
  Encodable.ofLeftInjection String.data (fun l => some (String.mk l))
    (fun s => by cases s; rfl)

/-- MstItem over the concrete hash space Nat is a sum of a pair and a
hash. -/
def mstItemEquiv (K V : Type) : MstItem K V Nat ≃ (K × V) ⊕ Nat where
  toFun := fun it =>
    match it with
    | .payload k v => .inl (k, v)
    | .ref h => .inr h
  invFun := fun s =>
    match s with
    | .inl (k, v) => .payload k v
    | .inr h => .ref h
  left_inv := fun it => by cases it <;> rfl
  right_inv := fun s => by rcases s with ⟨k, v⟩ | h <;> rfl

instance {K V : Type} [Encodable K] [Encodable V] : Encodable (MstItem K V Nat) :=
  Encodable.ofEquiv _ (mstItemEquiv K V)

/-- PtItem over the concrete hash space Nat is a sum of two pairs. -/
def ptItemEquiv (K V : Type) : PtItem K V Nat ≃ (K × V) ⊕ (K × Nat) where
  toFun := fun it =>
    match it with
    | .payload k v => .inl (k, v)
    | .ref k h => .inr (k, h)
  invFun := fun s =>
    match s with
    | .inl (k, v) => .payload k v
    | .inr (k, h) => .ref k h
  left_inv := fun it => by cases it <;> rfl
  right_inv := fun s => by rcases s with ⟨k, v⟩ | ⟨k, h⟩ <;> rfl

instance {K V : Type} [Encodable K] [Encodable V] : Encodable (PtItem K V Nat) :=
  Encodable.ofEquiv _ (ptItemEquiv K V)

/-- A concrete injective stand-in for BLAKE3 over the postcard node codec,
used to run the MST engine on explicit inputs: hashes are Nat and hashing
is an injective encoding of the node.  Equal hashes correspond exactly to
equal encoded nodes, as for collision-free BLAKE3. -/
def mhashN {K V : Type} [Encodable K] [Encodable V] : MstNode K V Nat → Nat :=
  fun n => Encodable.encode n

/-- The corresponding concrete injective hash for PT nodes. -/
def phashN {K V : Type} [Encodable K] [Encodable V] : PtNode K V Nat → Nat :=
  fun n => Encodable.encode n

/- ===== Support definitions for the claims ===== -/

/-- The logical contents of the circular window: the slots read in ring
order starting from the next write position, i.e. oldest byte first. -/
def windowCirc (r : RollingHash) : List Nat :=
  (List.range WINDOW_SIZE).map fun i => r.window.getD ((r.pos + i) % WINDOW_SIZE) 0

/-- The value of the most recent write under a given (entity, attribute),
if any. -/
def lastWrite (ws : List (String × String × String)) (e a : String) : Option String :=
  ws.foldl (fun acc w => if w.1 = e ∧ w.2.1 = a then some w.2.2 else acc) none

/-- The root hash of a successful MST upsert sequence. -/
def mstRootHash {K V H : Type} :
    Except (MstError H) (NodeRepo H (MstNode K V H) × MstNode K V H × H) → Option H
  | .ok (_, _, h) => some h
  | .error _ => none

/-- The root hash of a successful sequence of PT whole-store writes. -/
def ptRootHash {H α : Type} :
    Except (PtError H) (α × Option H) → Option (Option H)
  | .ok (_, h) => some h
  | .error _ => none

/-- A suffix of 32 bytes whose window polynomial is a multiple of
2^32 - 1: zeros with byte 255 at offsets 7, 15, 23 and 31. -/
def c7suffix : List Nat :=
  [0, 0, 0, 0, 0, 0, 0, 255, 0, 0, 0, 0, 0, 0, 0, 255,
   0, 0, 0, 0, 0, 0, 0, 255, 0, 0, 0, 0, 0, 0, 0, 255]

/-- A two-byte prefix that changes the final sum over c7suffix. -/
def c7pre : List Nat := [198, 115]

/-- A prefix that drives the final sum over c7suffix to 0, flipping the
is_boundary decision. -/
def c7preB : List Nat :=
  [20, 60, 215, 207, 228, 34, 7, 198, 79, 243, 211, 52, 42, 241, 108, 77,
   7, 218, 2, 4, 62, 45, 111, 62, 66, 241, 9, 141, 124, 230, 95, 25,
   187, 74, 43, 150, 255]

/-- MST insertion orders for the history-independence counterexample: the
same two (key, value) pairs in both orders, with key levels 0 and 1 (the
level function is the identity on the keys 0 and 1). -/
def c1MstA : Except (MstError Nat) (NodeRepo Nat (MstNode Nat Nat Nat) × MstNode Nat Nat Nat × Nat) :=
  MstNode.upsertAll (fun k => k) mhashN 20 [] [] [(1, 10), (0, 20)]

/-- The other order of the same pairs. -/
def c1MstB : Except (MstError Nat) (NodeRepo Nat (MstNode Nat Nat Nat) × MstNode Nat Nat Nat × Nat) :=
  MstNode.upsertAll (fun k => k) mhashN 20 [] [] [(0, 20), (1, 10)]

/-- PT whole-store writes of four single-byte keys in source order; keys
serialize to their single byte. -/
def c1PtA : Except (PtError Nat) (NodeRepo Nat (PtNode Nat Nat Nat) × Option Nat) :=
  PtNode.root_writeAll (fun n => [n]) phashN 30 30 [] none [(8, 1), (96, 1), (112, 1), (150, 1)]

/-- The same four pairs in a different order. -/
def c1PtB : Except (PtError Nat) (NodeRepo Nat (PtNode Nat Nat Nat) × Option Nat) :=
  PtNode.root_writeAll (fun n => [n]) phashN 30 30 [] none [(8, 1), (112, 1), (150, 1), (96, 1)]

/-- A store state whose OPTIONS table exists but holds no engine entry. -/
def stateNoEngine : DbState Nat :=
  { engine := .mst, eav := [], refs := [], repoM := [], repoP := [], options := some [] }

/-- A store state with no OPTIONS table at all. -/
def stateNoOptions : DbState Nat :=
  { engine := .mst, eav := [], refs := [], repoM := [], repoP := [], options := none }

/-- A store state whose engine marker blob is not a valid postcard
encoding of Engine. -/
def stateBadEngine : DbState Nat :=
  { engine := .mst, eav := [], refs := [], repoM := [], repoP := [],
    options := some [(engineOptionKey, [7])] }

/-- The ways the write path touches the repo: a sequence of
content-addressed puts.  Every engine operation only grows the repo this
way (repo monotonicity). -/
inductive Evolves {H α : Type} [DecidableEq H] (hashF : α → H) :
    NodeRepo H α → NodeRepo H α → Prop where
  | refl (r : NodeRepo H α) : Evolves hashF r r
  | put (r r' : NodeRepo H α) (n : α) (h : Evolves hashF r r') :
      Evolves hashF r (putNode hashF r' n).1

/-- Content addressability of a repo: every entry is keyed by the hash of
the node it stores. -/
def repoHashed {H α : Type} [DecidableEq H] (hashF : α → H) (repo : NodeRepo H α) : Prop :=
  ∀ p ∈ repo, p.1 = hashF p.2

/-- The facade key pairs are encodable, so the concrete injective node
hash applies at the facade instantiation too. -/
instance : Encodable DbKey := inferInstanceAs (Encodable (String × String))

section MstFrameSpecs

variable {K V H : Type} [LinearOrder K] [DecidableEq H]

/-- The functional-correctness contract of MstNode::split at a given
fuel: on success the two stored halves are well-formed on either side of
the split key and find routes below (weakly) the split key into the left
half and above it into the right half, preserving results. -/
def SplitSpec (lev : K → Nat) (hashN : MstNode K V H → H) (fuel : Nat) : Prop :=
  ∀ repo node skey repo' lh rh lo hi,
    MstNode.split lev hashN fuel repo node skey = .ok (repo', lh, rh) →
    Function.Injective hashN →
    repoHashed hashN repo → repoLevelHomog lev repo → MstNode.levelHomog lev node →
    Wf repo lo hi node →
    ∃ lN rN, getNode repo' lh = some lN ∧ getNode repo' rh = some rN ∧
      Wf repo' lo (some skey) lN ∧ Wf repo' (some skey) hi rN ∧
      (∀ k' r, ¬ compare k' skey = .gt →
        FindR repo k' none node r → FindR repo' k' none lN r) ∧
      (∀ k' r, compare k' skey = .gt →
        FindR repo k' none node r → FindR repo' k' none rN r)

/-- The functional-correctness contract of MstNode::upsert at a given
fuel: on success the produced root is well-formed and stored, finds the
written key at the written value, and finds every other key exactly as
the input tree did. -/
def UpsertSpec (lev : K → Nat) (hashN : MstNode K V H → H) (fuel : Nat) : Prop :=
  ∀ repo node key value repo' node' h' lo hi,
    MstNode.upsert lev hashN fuel repo node key value = .ok (repo', node', h') →
    Function.Injective hashN →
    repoHashed hashN repo → repoLevelHomog lev repo → MstNode.levelHomog lev node →
    Wf repo lo hi node → OltK lo key → KleH key hi →
    Wf repo' lo hi node' ∧ getNode repo' h' = some node' ∧
    FindR repo' key none node' (some value) ∧
    (∀ k' r, k' ≠ key → FindR repo k' none node r → FindR repo' k' none node' r)

/-- The functional-correctness contract of MstNode::insert_local. -/
def LocalSpec (lev : K → Nat) (hashN : MstNode K V H → H) (fuel : Nat) : Prop :=
  ∀ repo node key value repo' node' lo hi,
    MstNode.insert_local lev hashN fuel repo node key value = .ok (repo', node') →
    Function.Injective hashN →
    repoHashed hashN repo → repoLevelHomog lev repo → MstNode.levelHomog lev node →
    Wf repo lo hi node → OltK lo key → KleH key hi →
    Wf repo' lo hi node' ∧
    FindR repo' key none node' (some value) ∧
    (∀ k' r, k' ≠ key → FindR repo k' none node r → FindR repo' k' none node' r)

/-- The functional-correctness contract of MstNode::insert_into_child,
under the additional fact that the key collides with no payload of the
node (guaranteed by level homogeneity at the call site). -/
def ChildSpec (lev : K → Nat) (hashN : MstNode K V H → H) (fuel : Nat) : Prop :=
  ∀ repo node key value repo' node' lo hi,
    MstNode.insert_into_child lev hashN fuel repo node key value = .ok (repo', node') →
    Function.Injective hashN →
    repoHashed hashN repo → repoLevelHomog lev repo → MstNode.levelHomog lev node →
    Wf repo lo hi node → OltK lo key → KleH key hi →
    (∀ k0 v0, MstItem.payload k0 v0 ∈ node → k0 ≠ key) →
    Wf repo' lo hi node' ∧
    FindR repo' key none node' (some value) ∧
    (∀ k' r, k' ≠ key → FindR repo k' none node r → FindR repo' k' none node' r)

end MstFrameSpecs

/-- The state reached by a concrete MST write sequence exercising both a
level-raising split and a child insertion, used as witness input. -/
def c4res : NodeRepo Nat (MstNode Nat Nat Nat) × MstNode Nat Nat Nat × Nat :=
  match MstNode.upsertAll (fun k => k % 2) mhashN 10 [] [] [(0, 5), (1, 6), (2, 7)] with
  | .ok r => r
  | .error _ => ([], [], 0)

/-- The store state reached by one concrete MST write, used as witness
input. -/
def c5state : DbState Nat :=
  match Db.writeAll (fun _ => 0) (fun _ => []) mhashN phashN 10 10
      (Db.init .mst) [("a", "n", "1")] with
  | .ok st => st
  | .error _ => Db.init .mst

/-- The level function of the C3 counterexample: key 0 at level 1, key 1
at level 2, key 2 at level 0. -/
def c3lev : Nat → Nat := fun k => if k = 0 then 1 else if k = 1 then 2 else 0

/-- The base MST state of the C3 counterexample: three writes from the
empty tree. -/
def c3base : Except (MstError Nat)
    (NodeRepo Nat (MstNode Nat Nat Nat) × MstNode Nat Nat Nat × Nat) :=
  MstNode.upsertAll c3lev mhashN 20 [] [] [(2, 0), (0, 0), (1, 0)]

/-- The value stored under key 2 in the base state, none on any
error. -/
def c3stored : Option (Option Nat) :=
  match c3base with
  | .ok (repo, root, _) =>
    match MstNode.find 20 repo root 2 with
    | .ok r => some r
    | .error _ => none
  | .error _ => none

/-- Re-upserting key 2 with its already stored value into the base
state. -/
def c3rewrite : Except (MstError Nat)
    (NodeRepo Nat (MstNode Nat Nat Nat) × MstNode Nat Nat Nat × Nat) :=
  match c3base with
  | .ok (repo, root, _) => MstNode.upsert c3lev mhashN 20 repo root 2 0
  | .error e => .error e

/-- The value found under key 2 after the rewrite, none on any
error. -/
def c3storedAfter : Option (Option Nat) :=
  match c3rewrite with
  | .ok (repo, root, _) =>
    match MstNode.find 20 repo root 2 with
    | .ok r => some r
    | .error _ => none
  | .error _ => none

section PtEntDefs

variable {K V H : Type} [LinearOrder K] [DecidableEq H]

/-- Insertion of a pair into a sorted association list: replace an equal
key, otherwise insert before the first larger key. -/
def upEnts (key : K) (value : V) : List (K × V) → List (K × V)
  | [] => [(key, value)]
  | (k, v) :: rest =>
    if k < key then (k, v) :: upEnts key value rest
    else if k = key then (key, value) :: rest
    else (key, value) :: (k, v) :: rest

/-- Lookup in an association list. -/
def plookup (key : K) (ents : List (K × V)) : Option V :=
  (ents.find? fun p => decide (p.1 = key)).map Prod.snd

/-- Strictly increasing keys. -/
def EntSorted (ents : List (K × V)) : Prop :=
  List.Pairwise (fun a b => a.1 < b.1) ents

/-- One level of node uniformity: the items are all payloads or all
child references, as produced by every chunking pass. -/
def UniformNode (node : PtNode K V H) : Prop :=
  (∀ it ∈ node, ∃ k v, it = PtItem.payload k v) ∨
  (∀ it ∈ node, ∃ k h, it = PtItem.ref k h)

/-- The entries represented by a PT item list in a repo: payloads
contribute their pair, a reference contributes the non-empty entry block
of the uniform child node it resolves to, which starts at the
reference's key. -/
inductive FEnt (repo : NodeRepo H (PtNode K V H)) :
    PtNode K V H → List (K × V) → Prop where
  | nil : FEnt repo [] []
  | pay (k : K) (v : V) (rest : PtNode K V H) (rents : List (K × V)) :
      FEnt repo rest rents → FEnt repo (PtItem.payload k v :: rest) ((k, v) :: rents)
  | ref (k : K) (h : H) (child : PtNode K V H) (cents rents : List (K × V))
      (rest : PtNode K V H) :
      getNode repo h = some child →
      UniformNode child →
      FEnt repo child cents →
      cents.head?.map Prod.fst = some k →
      FEnt repo rest rents →
      FEnt repo (PtItem.ref k h :: rest) (cents ++ rents)

end PtEntDefs

section DbInvDefs

variable {H : Type} [DecidableEq H]

/-- The facade invariant of an MST-engine store after a write history:
the engine selection, the EAV index against the most recent writes, the
repo's content addressing and level homogeneity, and a well-formed
level-homogeneous root whose find graph realises the most recent write
of every pair. -/
def MstInv (lev : DbKey → Nat) (hashM : MstNode DbKey String H → H)
    (st : DbState H) (ws : List (String × String × String)) : Prop :=
  st.engine = .mst ∧
  (∀ e a, getNode st.eav (e, a) = lastWrite ws e a) ∧
  repoHashed hashM st.repoM ∧
  repoLevelHomog lev st.repoM ∧
  match getNode st.refs ROOT_REF_NAME with
  | none => ∀ e a, lastWrite ws e a = none
  | some h => ∃ root, getNode st.repoM h = some root ∧
      Wf st.repoM none none root ∧
      MstNode.levelHomog lev root ∧
      ∀ e a, FindR st.repoM (toLex (e, a)) none root (lastWrite ws e a)

/-- The facade invariant of a PT-engine store after a write history: the
engine selection, the EAV index against the most recent writes, the
repo's content addressing, and a uniform root whose sorted entry list
realises the most recent write of every pair. -/
def PtInv (hashP : PtNode DbKey String H → H)
    (st : DbState H) (ws : List (String × String × String)) : Prop :=
  st.engine = .pt ∧
  (∀ e a, getNode st.eav (e, a) = lastWrite ws e a) ∧
  repoHashed hashP st.repoP ∧
  match getNode st.refs ROOT_REF_NAME with
  | none => ∀ e a, lastWrite ws e a = none
  | some h => ∃ root ents, getNode st.repoP h = some root ∧
      FEnt st.repoP root ents ∧ UniformNode root ∧ EntSorted ents ∧
      ∀ e a, plookup (toLex (e, a)) ents = lastWrite ws e a

end DbInvDefs

/-- The store state reached by one concrete write on a fresh MST store,
used as witness input for the facade round-trip and error claims. -/
def dbWitSt : DbState Nat :=
  match Db.writeAll (fun _ => 0) (fun _ => []) mhashN phashN 10 10
      (Db.init .mst) [("a", "n", "1")] with
  | .ok st => st
  | .error _ => Db.init .mst

/- ========================= THEOREMS ========================= -/

/-- Feeding a cons is an update followed by feeding the tail. -/
theorem feed_cons (r : RollingHash) (b : Nat) (t : List Nat) :
    r.feed (b :: t) = (r.update b).feed t := rfl

/-- Feeding an append feeds the parts in order. -/
theorem feed_append (r : RollingHash) (s t : List Nat) :
    r.feed (s ++ t) = (r.feed s).feed t := by
  simp [RollingHash.feed, List.foldl_append]

/-- An update preserves the window length. -/
theorem update_window_length (r : RollingHash) (b : Nat) :
    (r.update b).window.length = r.window.length := by
  simp [RollingHash.update]

/-- A feed preserves the window length. -/
theorem feed_window_length (s : List Nat) (r : RollingHash) :
    (r.feed s).window.length = r.window.length := by
  induction s generalizing r with
  | nil => rfl
  | cons b t ih => rw [feed_cons, ih, update_window_length]

/-- The update position arithmetic. -/
theorem update_pos (r : RollingHash) (b : Nat) :
    (r.update b).pos = (r.pos + 1) % 32 := by
  simp [RollingHash.update, WINDOW_SIZE]

/-- Feeding nothing is the identity. -/
theorem feed_nil (r : RollingHash) : r.feed [] = r := rfl

/-- The write position after a feed is the byte count modulo the window
size. -/
theorem feed_pos (s : List Nat) (r : RollingHash) (h : r.pos < 32) :
    (r.feed s).pos = (r.pos + s.length) % 32 := by
  induction s generalizing r with
  | nil => rw [feed_nil]; simp only [List.length_nil]; omega
  | cons b t ih =>
    rw [feed_cons, ih (r.update b) (by rw [update_pos]; omega), update_pos]
    simp only [List.length_cons]
    omega

/-- A feed does not change window slots it never writes. -/
theorem feed_slot_untouched (t : List Nat) (r : RollingHash) (j : Nat)
    (hr : r.pos < 32) (hj : ∀ i, i < t.length → (r.pos + i) % 32 ≠ j) :
    (r.feed t).window.getD j 0 = r.window.getD j 0 := by
  induction t generalizing r with
  | nil => rfl
  | cons b t ih =>
    rw [feed_cons]
    rw [ih (r.update b) (by rw [update_pos]; omega) ?later]
    case later =>
      intro i hi
      rw [update_pos]
      have := hj (i + 1) (by simpa using Nat.succ_lt_succ hi)
      omega
    have hne : r.pos ≠ j := by
      have := hj 0 (by simp)
      omega
    simp only [RollingHash.update]
    rw [List.getD_eq_getElem?_getD, List.getD_eq_getElem?_getD,
      List.getElem?_set_ne hne]

/-- After feeding t from a well-formed state, the slot written at step i
holds byte i of t, provided t fits in one window turn. -/
theorem feed_slot (t : List Nat) (r : RollingHash) (hw : r.window.length = 32)
    (hr : r.pos < 32) (ht : t.length ≤ 32) :
    ∀ i, i < t.length → (r.feed t).window.getD ((r.pos + i) % 32) 0 = t.getD i 0 := by
  induction t generalizing r with
  | nil => intro i hi; simp at hi
  | cons b t ih =>
    intro i hi
    rw [feed_cons]
    cases i with
    | zero =>
      rw [feed_slot_untouched t (r.update b) ((r.pos + 0) % 32)
        (by rw [update_pos]; omega) ?slots]
      case slots =>
        intro i hi2
        rw [update_pos]
        simp only [List.length_cons] at hi ht
        omega
      simp only [RollingHash.update]
      rw [List.getD_eq_getElem?_getD]
      have hpos : (r.pos + 0) % 32 = r.pos := by omega
      rw [hpos, List.getElem?_set_self (by omega)]
      rfl
    | succ i =>
      have step := ih (r.update b) (by rw [update_window_length, hw])
        (by rw [update_pos]; omega)
        (by simp only [List.length_cons] at ht; omega)
        i (by simp only [List.length_cons] at hi; omega)
      rw [update_pos] at step
      have harith : ((r.pos + 1) % 32 + i) % 32 = (r.pos + (i + 1)) % 32 := by omega
      rw [harith] at step
      rw [step]
      rfl

/-- C7 amended: after feeding any sequence of at least 32 bytes into a
fresh RollingHash, the circular window contents (oldest slot first) equal
the final 32 bytes of the sequence; the sum is what history independence
fails on (see the counterexample). -/
theorem c7_window_contents (s : List Nat) (hs : 32 ≤ s.length) :
    windowCirc (RollingHash.new.feed s) = s.drop (s.length - 32) := by
  have hsplit : s.take (s.length - 32) ++ s.drop (s.length - 32) = s :=
    List.take_append_drop _ s
  have ht : (s.drop (s.length - 32)).length = 32 := by
    rw [List.length_drop]
    omega
  have hfeed : RollingHash.new.feed s =
      (RollingHash.new.feed (s.take (s.length - 32))).feed (s.drop (s.length - 32)) := by
    conv in RollingHash.new.feed s => rw [← hsplit]
    rw [feed_append]
  have hw : (RollingHash.new.feed (s.take (s.length - 32))).window.length = 32 := by
    rw [feed_window_length]
    simp [RollingHash.new, WINDOW_SIZE]
  have hp : (RollingHash.new.feed (s.take (s.length - 32))).pos < 32 := by
    rw [feed_pos _ _ (by simp [RollingHash.new])]
    simp [RollingHash.new]
    omega
  have hposf : (RollingHash.new.feed s).pos =
      (RollingHash.new.feed (s.take (s.length - 32))).pos := by
    rw [hfeed, feed_pos _ _ hp, ht]
    omega
  have hslot := feed_slot (s.drop (s.length - 32))
    (RollingHash.new.feed (s.take (s.length - 32))) hw hp (by omega)
  apply List.ext_getElem
  · simp [windowCirc, WINDOW_SIZE, ht]
  · intro i h1 h2
    have hi32 : i < 32 := by simpa [windowCirc, WINDOW_SIZE] using h1
    have hgd := hslot i (by omega)
    rw [← hfeed] at hgd
    simp only [windowCirc, WINDOW_SIZE, List.getElem_map, List.getElem_range]
    rw [hposf, hgd, List.getD_eq_getElem]

set_option maxRecDepth 100000 in
/-- C7 counterexample: two byte sequences, each of length at least 32,
with byte-equal final 32 bytes, whose sums after feeding differ; and a
second pair where even the is_boundary decisions differ.  The rolling sum
is therefore not a function of the most recent 32 bytes. -/
theorem c7_counterexample :
    (32 ≤ c7suffix.length ∧ 32 ≤ (c7pre ++ c7suffix).length ∧
      c7suffix.drop (c7suffix.length - 32) =
        (c7pre ++ c7suffix).drop ((c7pre ++ c7suffix).length - 32)) ∧
    (RollingHash.new.feed c7suffix).sum ≠
      (RollingHash.new.feed (c7pre ++ c7suffix)).sum ∧
    (32 ≤ (c7preB ++ c7suffix).length ∧
      c7suffix.drop (c7suffix.length - 32) =
        (c7preB ++ c7suffix).drop ((c7preB ++ c7suffix).length - 32)) ∧
    (RollingHash.new.feed c7suffix).is_boundary ≠
      (RollingHash.new.feed (c7preB ++ c7suffix)).is_boundary := by
  decide

/-- Witness for the amended window-contents theorem at a concrete
input. -/
theorem c7_window_contents_witness :
    32 ≤ (List.replicate 33 7 : List Nat).length ∧
      windowCirc (RollingHash.new.feed (List.replicate 33 7)) =
        (List.replicate 33 7 : List Nat).drop ((List.replicate 33 7 : List Nat).length - 32) :=
  ⟨by decide, c7_window_contents (List.replicate 33 7) (by decide)⟩

/-- The binary search loop returns its lower bound when the predicate
holds nowhere in the list. -/
theorem ppGo_all_false {α : Type} (p : α → Bool) (l : List α)
    (hall : ∀ x ∈ l, p x = false) :
    ∀ gas left right, ppGo p l gas left right = left := by
  intro gas
  induction gas with
  | zero => intro left right; rfl
  | succ gas ih =>
    intro left right
    unfold ppGo
    by_cases hlr : left < right
    · simp only [hlr, if_true]
      have hsc : (match l[left + (right - left) / 2]? with
          | some x => p x
          | none => false) = false := by
        match hx : l[left + (right - left) / 2]? with
        | some x =>
          obtain ⟨hlt2, hEq⟩ := List.getElem?_eq_some.mp hx
          exact hEq ▸ hall _ (List.getElem_mem hlt2)
        | none => rfl
      rw [hsc]
      simp only [Bool.false_eq_true, if_false]
      exact ih left _
    · simp [hlr]

/-- partition_point is 0 when the predicate holds nowhere. -/
theorem partition_point_all_false {α : Type} (p : α → Bool) (l : List α)
    (hall : ∀ x ∈ l, p x = false) : partition_point p l = 0 :=
  ppGo_all_false p l hall l.length 0 l.length

/-- C10: PtNode::find on an internal node (all items are refs, keys in
sorted order) with a search key strictly below the first item's
first_key returns Ok(None).  The statement holds for every repo, so no
child node is consulted: the same result is produced even when the repo
is empty and any load would fail. -/
theorem c10_find_below_first {K V H : Type} [LinearOrder K] [DecidableEq H]
    (fuel : Nat) (repo : NodeRepo H (PtNode K V H)) (k0 : K) (h0 : H)
    (rest : List (PtItem K V H)) (key : K)
    (hrefs : ∀ it ∈ rest, ∃ k h, it = PtItem.ref k h)
    (hsorted : List.Pairwise (fun a b => PtItem.key a ≤ PtItem.key b)
      (PtItem.ref k0 h0 :: rest))
    (hlt : key < k0) :
    PtNode.find (fuel + 1) repo (PtItem.ref k0 h0 :: rest) key = .ok none := by
  have hall : ∀ it ∈ (PtItem.ref k0 h0 :: rest),
      (!(compare (PtItem.key it) key == Ordering.gt)) = false := by
    intro it hit
    have hgt : key < PtItem.key it := by
      rcases List.mem_cons.mp hit with h | h
      · subst h
        exact hlt
      · have h0le : PtItem.key (PtItem.ref k0 h0) ≤ PtItem.key it :=
          (List.pairwise_cons.mp hsorted).1 it h
        exact lt_of_lt_of_le hlt h0le
    have hcmp : compare (PtItem.key it) key = Ordering.gt := compare_gt_iff_gt.mpr hgt
    rw [hcmp]
    rfl
  have hidx : partition_point
      (fun it => !(compare (PtItem.key it) key == Ordering.gt))
      (PtItem.ref k0 h0 :: rest) = 0 :=
    partition_point_all_false _ _ hall
  simp only [PtNode.find, hidx]
  rfl

/-- C10 witness at a concrete internal node, fuel 1, and the empty
repo. -/
theorem c10_find_below_first_witness :
    (∀ it ∈ ([PtItem.ref 7 100] : List (PtItem Nat Nat Nat)), ∃ k h, it = PtItem.ref k h) ∧
    List.Pairwise (fun a b => PtItem.key a ≤ PtItem.key b)
      (PtItem.ref 5 99 :: [PtItem.ref 7 100] : List (PtItem Nat Nat Nat)) ∧
    (3 : Nat) < 5 ∧
    PtNode.find 1 ([] : NodeRepo Nat (PtNode Nat Nat Nat))
      (PtItem.ref 5 99 :: [PtItem.ref 7 100]) 3 = .ok none := by
  refine ⟨?_, ?_, by decide, ?_⟩
  · intro it hit
    simp only [List.mem_singleton] at hit
    subst hit
    exact ⟨7, 100, rfl⟩
  · decide
  · exact c10_find_below_first 0 [] 5 99 [PtItem.ref 7 100] 3
      (by
        intro it hit
        simp only [List.mem_singleton] at hit
        subst hit
        exact ⟨7, 100, rfl⟩)
      (by decide) (by decide)

/-- C8 counterexample: Db::open on a store whose OPTIONS table has no
engine entry fails with OptionError(OptionNotSet); with the OPTIONS
table missing entirely it fails with the generic redb error; with an
unrecognized engine marker it fails with OptionError(PostcardError).
The DbError type of the code has no NotInitialized variant, so none of
these is the NotInitialized error the claim names. -/
theorem c8_counterexample :
    Db.open stateNoEngine = .error (.optionError .optionNotSet) ∧
    Db.open stateNoOptions = .error .redbGeneric ∧
    Db.open stateBadEngine = .error (.optionError .postcardError) :=
  ⟨rfl, rfl, rfl⟩

/-- C8 amended: open fails - with the wrapped storage error when the
OPTIONS table is missing, with OptionError(OptionNotSet) when the engine
entry is absent, and with OptionError(PostcardError) when the marker is
unrecognized (the code defines no NotInitialized error kind); when an
engine selection is present, open succeeds and returns that engine. -/
theorem c8_open_engine {H : Type} [DecidableEq H] (st : DbState H) :
    (st.options = none → Db.open st = .error .redbGeneric) ∧
    (∀ tbl, st.options = some tbl →
      (getNode tbl engineOptionKey = none →
        Db.open st = .error (.optionError .optionNotSet)) ∧
      (∀ blob, getNode tbl engineOptionKey = some blob →
        (decodeEngine blob = none →
          Db.open st = .error (.optionError .postcardError)) ∧
        (∀ e, decodeEngine blob = some e → Db.open st = .ok e))) := by
  refine ⟨fun hnone => ?_, fun tbl htbl => ⟨fun hget => ?_, fun blob hblob => ⟨fun hdec => ?_, fun e hdec => ?_⟩⟩⟩
  · simp [Db.open, hnone]
  · simp [Db.open, htbl, OptionTable.get_engine, hget]
  · simp [Db.open, htbl, OptionTable.get_engine, hblob, hdec]
  · simp [Db.open, htbl, OptionTable.get_engine, hblob, hdec]

/-- C8 amended witness: an initialized PT store opens as a PT store. -/
theorem c8_open_engine_witness :
    (Db.init Engine.pt : DbState Nat).options = some [(1, []), (0, [1])] ∧
    getNode [((1 : Nat), ([] : Blob)), (0, [1])] engineOptionKey = some [1] ∧
    decodeEngine [1] = some Engine.pt ∧
    Db.open (Db.init Engine.pt : DbState Nat) = .ok Engine.pt := by
  refine ⟨by decide, by decide, by decide, ?_⟩
  exact ((((c8_open_engine (Db.init Engine.pt : DbState Nat)).2
    [(1, []), (0, [1])]) (by decide)).2 [1] (by decide)).2 Engine.pt (by decide)

section RepoEvolution

variable {H α : Type} [DecidableEq H] {hashF : α → H}

/-- Evolution composes. -/
theorem Evolves.trans {r1 r2 r3 : NodeRepo H α}
    (h12 : Evolves hashF r1 r2) (h23 : Evolves hashF r2 r3) :
    Evolves hashF r1 r3 := by
  induction h23 with
  | refl => exact h12
  | put r' n h ih => exact .put _ _ n ih

/-- Lookup through a cons cell. -/
theorem getNode_cons {repo : NodeRepo H α} {h h' : H} {n : α} :
    getNode ((h', n) :: repo) h = if h' = h then some n else getNode repo h := by
  by_cases heq : h' = h <;> simp [getNode, List.find?, heq]

/-- A content-addressed put never changes an existing lookup. -/
theorem putNode_getNode_mono {repo : NodeRepo H α} {m : α} {h : H} {n : α}
    (hg : getNode repo h = some n) : getNode (putNode hashF repo m).1 h = some n := by
  simp only [putNode]
  cases hput : getNode repo (hashF m) with
  | some _ => simpa using hg
  | none =>
    simp only
    rw [getNode_cons]
    split
    case isTrue heq => rw [heq, hg] at hput; cases hput
    case isFalse => exact hg

/-- Lookups are stable under repo evolution. -/
theorem Evolves.getNode_mono {r r' : NodeRepo H α} (he : Evolves hashF r r')
    {h : H} {n : α} (hg : getNode r h = some n) : getNode r' h = some n := by
  induction he with
  | refl => exact hg
  | put _ m _ ih => exact putNode_getNode_mono ih

/-- A put preserves content addressability. -/
theorem putNode_repoHashed {repo : NodeRepo H α} (hr : repoHashed hashF repo) (n : α) :
    repoHashed hashF (putNode hashF repo n).1 := by
  simp only [putNode]
  cases hput : getNode repo (hashF n) with
  | some _ => simpa using hr
  | none =>
    intro p hp
    rcases List.mem_cons.mp hp with hp | hp
    · rw [hp]
    · exact hr p hp

/-- Content addressability is stable under repo evolution. -/
theorem Evolves.repoHashed_mono {r r' : NodeRepo H α} (he : Evolves hashF r r')
    (hr : repoHashed hashF r) : repoHashed hashF r' := by
  induction he with
  | refl => exact hr
  | put _ m _ ih => exact putNode_repoHashed ih m

/-- Storing a node whose hash is already present performs no overwrite. -/
theorem putNode_present {repo : NodeRepo H α} {n : α}
    (hp : (getNode repo (hashF n)).isSome = true) :
    putNode hashF repo n = (repo, hashF n) := by
  simp only [putNode]
  cases h : getNode repo (hashF n) with
  | some _ => rfl
  | none => rw [h] at hp; cases hp

/-- After a put the hash resolves. -/
theorem putNode_getNode_self (repo : NodeRepo H α) (n : α) :
    ∃ m, getNode (putNode hashF repo n).1 (hashF n) = some m := by
  simp only [putNode]
  cases h : getNode repo (hashF n) with
  | some m => exact ⟨m, by simpa using h⟩
  | none =>
    refine ⟨n, ?_⟩
    simp only
    rw [getNode_cons]
    simp

/-- A second store of the same node leaves the repo unchanged. -/
theorem putNode_idem (repo : NodeRepo H α) (n : α) :
    (putNode hashF (putNode hashF repo n).1 n).1 = (putNode hashF repo n).1 := by
  obtain ⟨m, hm⟩ : ∃ m, getNode (putNode hashF repo n).1 (hashF n) = some m :=
    putNode_getNode_self repo n
  have hpres : putNode hashF (putNode hashF repo n).1 n =
      ((putNode hashF repo n).1, hashF n) :=
    putNode_present (by rw [hm]; rfl)
  rw [hpres]

/-- In a content-addressed repo a stored node resolves to itself when the
hash is injective. -/
theorem getNode_of_repoHashed {repo : NodeRepo H α} (hr : repoHashed hashF repo)
    (hinj : Function.Injective hashF) {n m : α}
    (hg : getNode repo (hashF n) = some m) : m = n := by
  unfold getNode at hg
  cases hf : repo.find? fun p => decide (p.1 = hashF n) with
  | none => rw [hf] at hg; cases hg
  | some p =>
    rw [hf] at hg
    have hmem := List.mem_of_find?_eq_some hf
    have hpred := List.find?_some hf
    have hkey : p.1 = hashF n := by simpa using hpred
    have hhash := hr p hmem
    have heq : hashF p.2 = hashF n := by rw [← hhash, hkey]
    have heq2 := hinj heq
    simp only [Option.map] at hg
    cases hg
    exact heq2

end RepoEvolution

section MstEvolves

variable {K V H : Type} [LinearOrder K] [DecidableEq H]

end MstEvolves

section MstEvolves

variable {K V H : Type} [LinearOrder K] [DecidableEq H]

/-- Every MST operation only grows the repo by content-addressed puts. -/
theorem mst_ops_evolve (lev : K → Nat) (hashN : MstNode K V H → H) :
    ∀ fuel : Nat,
      (∀ repo node key value repo' node' h',
        MstNode.upsert lev hashN fuel repo node key value = .ok (repo', node', h') →
        Evolves hashN repo repo') ∧
      (∀ repo node key value repo' node',
        MstNode.insert_local lev hashN fuel repo node key value = .ok (repo', node') →
        Evolves hashN repo repo') ∧
      (∀ repo node key value repo' node',
        MstNode.insert_into_child lev hashN fuel repo node key value = .ok (repo', node') →
        Evolves hashN repo repo') ∧
      (∀ repo node key repo' lh rh,
        MstNode.split lev hashN fuel repo node key = .ok (repo', lh, rh) →
        Evolves hashN repo repo') := by
  intro fuel
  induction fuel with
  | zero =>
    refine ⟨?_, ?_, ?_, ?_⟩ <;>
      · intro _ _ _ _ _ _
        first
        | (intro _ h; cases h)
        | (intro h; cases h)
  | succ fuel ih =>
    obtain ⟨ihU, ihL, ihC, ihS⟩ := ih
    refine ⟨?_, ?_, ?_, ?_⟩
    · intro repo node key value repo' node' h' h
      simp only [MstNode.upsert] at h
      split at h
      · cases hsp : MstNode.split lev hashN fuel repo node key with
        | error e => rw [hsp] at h; cases h
        | ok res =>
          obtain ⟨repo1, lh, rh⟩ := res
          rw [hsp] at h
          simp only [bind, Except.bind, Except.ok.injEq, Prod.mk.injEq] at h
          obtain ⟨h1, _, _⟩ := h
          subst h1
          exact .put _ _ _ (ihS _ _ _ _ _ _ hsp)
      · split at h
        · cases hloc : MstNode.insert_local lev hashN fuel repo node key value with
          | error e => rw [hloc] at h; cases h
          | ok res =>
            obtain ⟨repo1, node1⟩ := res
            rw [hloc] at h
            simp only [bind, Except.bind, Except.ok.injEq, Prod.mk.injEq] at h
            obtain ⟨h1, _, _⟩ := h
            subst h1
            exact .put _ _ _ (ihL _ _ _ _ _ _ hloc)
        · cases hc : MstNode.insert_into_child lev hashN fuel repo node key value with
          | error e => rw [hc] at h; cases h
          | ok res =>
            obtain ⟨repo1, node1⟩ := res
            rw [hc] at h
            simp only [bind, Except.bind, Except.ok.injEq, Prod.mk.injEq] at h
            obtain ⟨h1, _, _⟩ := h
            subst h1
            exact .put _ _ _ (ihC _ _ _ _ _ _ hc)
    · intro repo node key value repo' node' h
      simp only [MstNode.insert_local] at h
      cases hscan : MstNode.scan_local key 0 0 none false node with
      | found i =>
        rw [hscan] at h
        simp only [Except.ok.injEq, Prod.mk.injEq] at h
        obtain ⟨h1, _⟩ := h
        subst h1
        exact .refl _
      | done pos target =>
        rw [hscan] at h
        simp only at h
        split at h
        · rename_i idx htarget
          split at h
          · rename_i h2 hidx
            cases hload : MstNode.load (K := K) (V := V) repo h2 with
            | error e => rw [hload] at h; cases h
            | ok child =>
              rw [hload] at h
              simp only [bind, Except.bind] at h
              cases hsp : MstNode.split lev hashN fuel repo child key with
              | error e => rw [hsp] at h; cases h
              | ok res =>
                obtain ⟨repo1, lh, rh⟩ := res
                rw [hsp] at h
                simp only [Except.ok.injEq, Prod.mk.injEq] at h
                obtain ⟨h1, _⟩ := h
                subst h1
                exact ihS _ _ _ _ _ _ hsp
          · simp only [Except.ok.injEq, Prod.mk.injEq] at h
            obtain ⟨h1, _⟩ := h
            subst h1
            exact .refl _
        · simp only [Except.ok.injEq, Prod.mk.injEq] at h
          obtain ⟨h1, _⟩ := h
          subst h1
          exact .refl _
    · intro repo node key value repo' node' h
      simp only [MstNode.insert_into_child, bind, Except.bind] at h
      split at h
      · rename_i hload
        cases h
      · rename_i child hload
        cases hup : MstNode.upsert lev hashN fuel repo child key value with
        | error e => rw [hup] at h; cases h
        | ok res =>
          obtain ⟨repo1, node1, h1'⟩ := res
          rw [hup] at h
          simp only [Except.ok.injEq, Prod.mk.injEq] at h
          obtain ⟨h1, _⟩ := h
          subst h1
          exact ihU _ _ _ _ _ _ _ hup
    · intro repo node key repo' lh rh h
      simp only [MstNode.split] at h
      split at h
      · rename_i idx hrts
        split at h
        · rename_i h2 hidx
          cases hload : MstNode.load (K := K) (V := V) repo h2 with
          | error e => rw [hload] at h; cases h
          | ok child =>
            rw [hload] at h
            simp only [bind, Except.bind] at h
            cases hsp : MstNode.split lev hashN fuel repo child key with
            | error e => rw [hsp] at h; cases h
            | ok res =>
              obtain ⟨repo1, clh, crh⟩ := res
              rw [hsp] at h
              simp only [Except.ok.injEq, Prod.mk.injEq] at h
              obtain ⟨h1, _, _⟩ := h
              subst h1
              exact .put _ _ _ (.put _ _ _ (ihS _ _ _ _ _ _ hsp))
        · simp only [Except.ok.injEq, Prod.mk.injEq] at h
          obtain ⟨h1, _, _⟩ := h
          subst h1
          exact .put _ _ _ (.put _ _ _ (.refl _))
      · simp only [Except.ok.injEq, Prod.mk.injEq] at h
        obtain ⟨h1, _, _⟩ := h
        subst h1
        exact .put _ _ _ (.put _ _ _ (.refl _))

end MstEvolves

section PtEvolves

variable {K V H : Type} [DecidableEq H]

/-- The chunking loop only grows the repo by content-addressed puts. -/
theorem chunkAux_evolves (kb : K → List Nat) (hashP : PtNode K V H → H) :
    ∀ (items : PtNode K V H) repo hasher chunk acc,
      Evolves hashP repo (PtNode.chunkAux kb hashP repo hasher chunk acc items).1 := by
  intro items
  induction items with
  | nil =>
    intro repo hasher chunk acc
    simp only [PtNode.chunkAux]
    split
    · exact .refl _
    · exact .put _ _ _ (.refl _)
  | cons it rest ih =>
    intro repo hasher chunk acc
    simp only [PtNode.chunkAux]
    split
    · split
      · exact (Evolves.put _ _ _ (.refl _)).trans (ih _ _ _ _)
      · exact ih _ _ _ _
    · exact ih _ _ _ _

/-- chunk_and_save only grows the repo. -/
theorem chunk_and_save_evolves (kb : K → List Nat) (hashP : PtNode K V H → H)
    (repo : NodeRepo H (PtNode K V H)) (items : PtNode K V H) :
    Evolves hashP repo (PtNode.chunk_and_save kb hashP repo items).1 :=
  chunkAux_evolves kb hashP items repo _ _ _

/-- PT upsert only grows the repo. -/
theorem pt_upsert_evolves [LinearOrder K] (kb : K → List Nat) (hashP : PtNode K V H → H) :
    ∀ fuel repo node key value repo' refs,
      PtNode.upsert kb hashP fuel repo node key value = .ok (repo', refs) →
      Evolves hashP repo repo' := by
  intro fuel
  induction fuel with
  | zero => intro _ _ _ _ _ _ h; cases h
  | succ fuel ih =>
    intro repo node key value repo' refs h
    simp only [PtNode.upsert] at h
    split at h
    · simp only [Except.ok.injEq] at h
      have h1 : (PtNode.chunk_and_save kb hashP repo
          (if (match node[partition_point (fun it => compare (PtItem.key it) key == Ordering.lt) node]? with
               | some it => compare (PtItem.key it) key == Ordering.eq
               | none => false) = true
           then node.set (partition_point (fun it => compare (PtItem.key it) key == Ordering.lt) node) (.payload key value)
           else node.insertIdx (partition_point (fun it => compare (PtItem.key it) key == Ordering.lt) node) (.payload key value))).1 = repo' := by
        rw [h]
      rw [← h1]
      exact chunk_and_save_evolves kb hashP repo _
    · split at h
      · rename_i h2 hidx
        cases hload : PtNode.load (V := V) repo h2 with
        | error e => rw [hload] at h; cases h
        | ok child =>
          rw [hload] at h
          simp only [bind, Except.bind] at h
          cases hup : PtNode.upsert kb hashP fuel repo child key value with
          | error e => rw [hup] at h; cases h
          | ok res =>
            obtain ⟨repo1, crefs⟩ := res
            rw [hup] at h
            simp only [Except.ok.injEq] at h
            have h1 := congrArg Prod.fst h
            simp only at h1
            rw [← h1]
            exact (ih _ _ _ _ _ _ hup).trans (chunk_and_save_evolves kb hashP repo1 _)
      · cases h
      · simp only [Except.ok.injEq, Prod.mk.injEq] at h
        obtain ⟨h1, _⟩ := h
        subst h1
        exact .refl _

/-- The root-collapse loop only grows the repo. -/
theorem pt_collapse_evolves (kb : K → List Nat) (hashP : PtNode K V H → H) :
    ∀ fuel repo refs repo' refs',
      PtNode.collapse kb hashP fuel repo refs = .ok (repo', refs') →
      Evolves hashP repo repo' := by
  intro fuel
  induction fuel with
  | zero =>
    intro repo refs repo' refs' h
    simp only [PtNode.collapse] at h
    split at h
    · simp only [Except.ok.injEq, Prod.mk.injEq] at h
      obtain ⟨h1, _⟩ := h
      subst h1
      exact .refl _
    · cases h
  | succ fuel ih =>
    intro repo refs repo' refs' h
    simp only [PtNode.collapse] at h
    split at h
    · simp only [Except.ok.injEq, Prod.mk.injEq] at h
      obtain ⟨h1, _⟩ := h
      subst h1
      exact .refl _
    · exact (chunk_and_save_evolves kb hashP repo refs).trans (ih _ _ _ _ h)

/-- A whole-store PT write only grows the repo. -/
theorem pt_root_write_evolves [LinearOrder K] (kb : K → List Nat) (hashP : PtNode K V H → H)
    (fuel fuelC : Nat) (repo : NodeRepo H (PtNode K V H)) (rootH : Option H)
    (key : K) (value : V) (repo' : NodeRepo H (PtNode K V H)) (rootH' : Option H)
    (h : PtNode.root_write kb hashP fuel fuelC repo rootH key value = .ok (repo', rootH')) :
    Evolves hashP repo repo' := by
  simp only [PtNode.root_write, bind, Except.bind] at h
  split at h
  · cases h
  · rename_i node hnode
    cases hup : PtNode.upsert kb hashP fuel repo node key value with
    | error e => rw [hup] at h; cases h
    | ok res =>
      obtain ⟨repo1, refs1⟩ := res
      rw [hup] at h
      simp only at h
      cases hcol : PtNode.collapse kb hashP fuelC repo1 refs1 with
      | error e => rw [hcol] at h; cases h
      | ok res2 =>
        obtain ⟨repo2, refs2⟩ := res2
        rw [hcol] at h
        simp only at h
        have hev := (pt_upsert_evolves kb hashP fuel repo node key value repo1 refs1 hup).trans
          (pt_collapse_evolves kb hashP fuelC repo1 refs1 repo2 refs2 hcol)
        split at h
        · simp only [Except.ok.injEq, Prod.mk.injEq] at h
          obtain ⟨h1, _⟩ := h
          subst h1
          exact hev
        · simp only [Except.ok.injEq, Prod.mk.injEq] at h
          obtain ⟨h1, _⟩ := h
          subst h1
          exact hev

end PtEvolves

section DbEvolves

variable {H : Type} [DecidableEq H]

/-- One Db::write only grows both repo views by content-addressed puts. -/
theorem db_write_evolves (lev : DbKey → Nat) (kb : DbKey → List Nat)
    (hashM : MstNode DbKey String H → H) (hashP : PtNode DbKey String H → H)
    (fuel fuelC : Nat) (st : DbState H) (e a v : String) (st' : DbState H)
    (h : Db.write lev kb hashM hashP fuel fuelC st e a v = .ok st') :
    Evolves hashM st.repoM st'.repoM ∧ Evolves hashP st.repoP st'.repoP := by
  simp only [Db.write] at h
  cases heng : st.engine with
  | mst =>
    rw [heng] at h
    simp only [bind, Except.bind] at h
    split at h
    · cases h
    · rename_i node hnode
      cases hup : MstNode.upsert lev hashM fuel st.repoM node (toLex (e, a)) v with
      | error e2 => rw [hup] at h; simp only [Except.mapError] at h; cases h
      | ok res =>
        obtain ⟨repo1, node1, h1'⟩ := res
        rw [hup] at h
        simp only [Except.mapError, Except.ok.injEq] at h
        subst h
        exact ⟨(mst_ops_evolve lev hashM fuel).1 _ _ _ _ _ _ _ hup, .refl _⟩
  | pt =>
    rw [heng] at h
    simp only [bind, Except.bind] at h
    split at h
    · cases h
    · rename_i node hnode
      cases hup : PtNode.upsert kb hashP fuel st.repoP node (toLex (e, a)) v with
      | error e2 => rw [hup] at h; simp only [Except.mapError] at h; cases h
      | ok res =>
        obtain ⟨repo1, refs1⟩ := res
        rw [hup] at h
        simp only [Except.mapError] at h
        cases hcol : Db.collapse kb hashP fuelC repo1 refs1 with
        | error e2 => rw [hcol] at h; simp only at h; cases h
        | ok res2 =>
          obtain ⟨repo2, refs2⟩ := res2
          rw [hcol] at h
          simp only at h
          have hev : Evolves hashP st.repoP repo2 :=
            (pt_upsert_evolves kb hashP fuel st.repoP node _ v repo1 refs1 hup).trans
              (pt_collapse_evolves kb hashP fuelC repo1 refs1 repo2 refs2 hcol)
          split at h <;>
            · simp only [Except.ok.injEq] at h
              subst h
              exact ⟨.refl _, hev⟩

/-- A sequence of writes only grows both repo views. -/
theorem db_writeAll_evolves (lev : DbKey → Nat) (kb : DbKey → List Nat)
    (hashM : MstNode DbKey String H → H) (hashP : PtNode DbKey String H → H)
    (fuel fuelC : Nat) :
    ∀ ws (st st' : DbState H),
      Db.writeAll lev kb hashM hashP fuel fuelC st ws = .ok st' →
      Evolves hashM st.repoM st'.repoM ∧ Evolves hashP st.repoP st'.repoP := by
  intro ws
  induction ws with
  | nil =>
    intro st st' h
    simp only [Db.writeAll, Except.ok.injEq] at h
    subst h
    exact ⟨.refl _, .refl _⟩
  | cons w rest ih =>
    intro st st' h
    obtain ⟨e, a, v⟩ := w
    simp only [Db.writeAll, bind, Except.bind] at h
    cases hw : Db.write lev kb hashM hashP fuel fuelC st e a v with
    | error e2 => rw [hw] at h; cases h
    | ok st1 =>
      rw [hw] at h
      have h1 := db_write_evolves lev kb hashM hashP fuel fuelC st e a v st1 hw
      have h2 := ih st1 st' h
      exact ⟨h1.1.trans h2.1, h1.2.trans h2.2⟩

/-- C5: after any sequence of writes on an initialized store, every REPO
entry is keyed by the hash of the blob it stores (content
addressability); and a store of a node whose hash is already present
performs no overwrite, so storing the same node twice leaves the repo
exactly as after the first store. -/
theorem c5_content_addressed (lev : DbKey → Nat) (kb : DbKey → List Nat)
    (hashM : MstNode DbKey String H → H) (hashP : PtNode DbKey String H → H)
    (engine : Engine) (fuel fuelC : Nat) :
    (∀ ws (st : DbState H),
      Db.writeAll lev kb hashM hashP fuel fuelC (Db.init engine) ws = .ok st →
      repoHashed hashM st.repoM ∧ repoHashed hashP st.repoP) ∧
    (∀ (α : Type) (hashF : α → H) (repo : NodeRepo H α) (n : α),
      (getNode repo (hashF n)).isSome = true → putNode hashF repo n = (repo, hashF n)) ∧
    (∀ (α : Type) (hashF : α → H) (repo : NodeRepo H α) (n : α),
      (putNode hashF (putNode hashF repo n).1 n).1 = (putNode hashF repo n).1) := by
  refine ⟨?_, ?_, ?_⟩
  · intro ws st h
    have hev := db_writeAll_evolves lev kb hashM hashP fuel fuelC ws (Db.init engine) st h
    have hM0 : repoHashed hashM (Db.init engine : DbState H).repoM := by
      intro p hp
      cases hp
    have hP0 : repoHashed hashP (Db.init engine : DbState H).repoP := by
      intro p hp
      cases hp
    exact ⟨hev.1.repoHashed_mono hM0, hev.2.repoHashed_mono hP0⟩
  · intro α hashF repo n hp
    exact putNode_present hp
  · intro α hashF repo n
    exact putNode_idem repo n

/-- C5 witness: a concrete write sequence, its resulting state, and the
content-addressability of both repo views there. -/
theorem c5_content_addressed_witness :
    Db.writeAll (H := Nat) (fun _ => 0) (fun _ => []) mhashN phashN 10 10
      (Db.init .mst) [("a", "n", "1")] = .ok c5state ∧
    repoHashed mhashN c5state.repoM ∧ repoHashed phashN c5state.repoP :=
  ⟨rfl,
    (c5_content_addressed (fun _ => 0) (fun _ => []) mhashN phashN .mst 10 10).1
      [("a", "n", "1")] c5state rfl⟩

end DbEvolves

section MstHomog

variable {K V H : Type} [LinearOrder K] [DecidableEq H]

/-- estimate_level of a cons steps through refs to the first payload. -/
theorem estimate_level_cons (lev : K → Nat) (it : MstItem K V H) (rest : MstNode K V H) :
    MstNode.estimate_level lev (it :: rest) =
      (match it with
       | .payload k _ => some (lev k)
       | .ref _ => MstNode.estimate_level lev rest) := by
  cases it <;> rfl

/-- A node with estimate_level none has no payload. -/
theorem estimate_level_none {lev : K → Nat} {node : MstNode K V H}
    (h : MstNode.estimate_level lev node = none) :
    ∀ k v, MstItem.payload k v ∉ node := by
  intro k v hm
  induction node with
  | nil => cases hm
  | cons it rest ih =>
    rw [estimate_level_cons] at h
    cases it with
    | payload k0 v0 => cases h
    | ref h0 =>
      rcases List.mem_cons.mp hm with heq | hm2
      · cases heq
      · exact ih h hm2

/-- estimate_level some l exhibits a payload of level l. -/
theorem estimate_level_some {lev : K → Nat} {node : MstNode K V H} {l : Nat}
    (h : MstNode.estimate_level lev node = some l) :
    ∃ k v, MstItem.payload k v ∈ node ∧ lev k = l := by
  induction node with
  | nil => cases h
  | cons it rest ih =>
    rw [estimate_level_cons] at h
    cases it with
    | payload k0 v0 =>
      injection h with h
      exact ⟨k0, v0, List.mem_cons_self _ _, h⟩
    | ref h0 =>
      obtain ⟨k, v, hm, hl⟩ := ih h
      exact ⟨k, v, List.mem_cons_of_mem _ hm, hl⟩

/-- In a homogeneous node every payload has the estimated level. -/
theorem levelHomog_estimate {lev : K → Nat} {node : MstNode K V H} {l : Nat}
    (hn : node.levelHomog lev) (h : MstNode.estimate_level lev node = some l) :
    ∀ k v, MstItem.payload k v ∈ node → lev k = l := by
  intro k v hm
  obtain ⟨k0, v0, hm0, hl0⟩ := estimate_level_some h
  rw [← hl0]
  exact hn _ _ _ _ hm hm0

/-- Homogeneity descends along key-subsets of the payloads. -/
theorem levelHomog_keysub {lev : K → Nat} {n' n : MstNode K V H}
    (hsub : ∀ k v, MstItem.payload k v ∈ n' → ∃ v2, MstItem.payload k v2 ∈ n)
    (h : n.levelHomog lev) : n'.levelHomog lev := by
  intro k1 v1 k2 v2 h1 h2
  obtain ⟨w1, hw1⟩ := hsub _ _ h1
  obtain ⟨w2, hw2⟩ := hsub _ _ h2
  exact h _ _ _ _ hw1 hw2

/-- Homogeneity survives inserting one payload whose level matches every
existing payload. -/
theorem levelHomog_insert {lev : K → Nat} {n' n : MstNode K V H} {key : K}
    (h : n.levelHomog lev)
    (hkey : ∀ k v, MstItem.payload k v ∈ n → lev k = lev key)
    (hsub : ∀ k v, MstItem.payload k v ∈ n' →
      k = key ∨ ∃ v2, MstItem.payload k v2 ∈ n) :
    n'.levelHomog lev := by
  intro k1 v1 k2 v2 h1 h2
  rcases hsub _ _ h1 with rfl | ⟨w1, hw1⟩ <;> rcases hsub _ _ h2 with rfl | ⟨w2, hw2⟩
  · rfl
  · exact (hkey _ _ hw2).symm
  · exact hkey _ _ hw1
  · exact h _ _ _ _ hw1 hw2

/-- The three-item node built by a level-raising upsert is homogeneous. -/
theorem levelHomog_three (lev : K → Nat) (lh rh : H) (key : K) (value : V) :
    MstNode.levelHomog lev
      ([.ref lh, .payload key value, .ref rh] : MstNode K V H) := by
  intro k1 v1 k2 v2 h1 h2
  simp only [List.mem_cons, List.not_mem_nil, or_false] at h1 h2
  rcases h1 with h1 | h1 | h1
  · cases h1
  · rcases h2 with h2 | h2 | h2
    · cases h2
    · injection h1 with e1 _
      injection h2 with e2 _
      rw [e1, e2]
    · cases h2
  · cases h1

/-- set_value only changes a value, so payload keys come from the node. -/
theorem mem_set_value {node : MstNode K V H} {i : Nat} {v : V} {k : K} {v' : V}
    (h : MstItem.payload k v' ∈ MstNode.set_value node i v) :
    ∃ v2, MstItem.payload k v2 ∈ node := by
  induction node generalizing i with
  | nil => cases h
  | cons it rest ih =>
    cases i with
    | zero =>
      cases it with
      | payload k0 v0 =>
        rcases List.mem_cons.mp h with heq | hm
        · injection heq with e1 _
          exact ⟨v0, by rw [e1]; exact List.mem_cons_self _ _⟩
        · exact ⟨v', List.mem_cons_of_mem _ hm⟩
      | ref h0 =>
        rcases List.mem_cons.mp h with heq | hm
        · cases heq
        · exact ⟨v', List.mem_cons_of_mem _ hm⟩
    | succ j =>
      rcases List.mem_cons.mp h with heq | hm
      · exact ⟨v', heq ▸ List.mem_cons_self _ _⟩
      · obtain ⟨v2, hv2⟩ := ih hm
        exact ⟨v2, List.mem_cons_of_mem _ hv2⟩

/-- Membership in insertIdx comes from the new element or the old list. -/
theorem mem_insertIdx_or {α : Type} {l : List α} {i : Nat} {b a : α}
    (h : a ∈ List.insertIdx i b l) : a = b ∨ a ∈ l := by
  induction l generalizing i with
  | nil =>
    cases i with
    | zero =>
      rcases List.mem_cons.mp h with heq | hm
      · exact .inl heq
      · cases hm
    | succ j => cases h
  | cons x xs ih =>
    cases i with
    | zero =>
      rcases List.mem_cons.mp h with heq | hm
      · exact .inl heq
      · exact .inr hm
    | succ j =>
      rcases List.mem_cons.mp h with heq | hm
      · exact .inr (heq ▸ List.mem_cons_self _ _)
      · rcases ih hm with h' | h'
        · exact .inl h'
        · exact .inr (List.mem_cons_of_mem _ h')

/-- A resolvable hash points to a stored pair. -/
theorem getNode_mem {α : Type} {repo : NodeRepo H α} {h : H} {n : α}
    (hg : getNode repo h = some n) : ∃ h2, (h2, n) ∈ repo := by
  unfold getNode at hg
  cases hf : repo.find? (fun p => decide (p.1 = h)) with
  | none => rw [hf] at hg; cases hg
  | some p =>
    rw [hf] at hg
    simp only [Option.map] at hg
    cases hg
    exact ⟨p.1, List.mem_of_find?_eq_some hf⟩

/-- putNode preserves repo-wide homogeneity when the stored node is
homogeneous. -/
theorem repoLevelHomog_putNode {lev : K → Nat} {hashN : MstNode K V H → H}
    {repo : NodeRepo H (MstNode K V H)} {n : MstNode K V H}
    (hr : repoLevelHomog lev repo) (hn : n.levelHomog lev) :
    repoLevelHomog lev (putNode hashN repo n).1 := by
  simp only [putNode]
  cases hget : getNode repo (hashN n) with
  | some m => exact hr
  | none =>
    intro p hp
    rcases List.mem_cons.mp hp with heq | hm
    · rw [heq]
      exact hn
    · exact hr p hm

/-- A loaded or defaulted child of a homogeneous repo is homogeneous. -/
theorem child_levelHomog {lev : K → Nat} {repo : NodeRepo H (MstNode K V H)}
    {node child : MstNode K V H} {idx : Nat}
    (hr : repoLevelHomog lev repo)
    (hload : (match node[idx]? with
      | some (.ref h) => MstNode.load repo h
      | _ => .ok ([] : MstNode K V H)) = .ok child) :
    child.levelHomog lev := by
  cases hidx : node[idx]? with
  | none =>
    rw [hidx] at hload
    simp only at hload
    injection hload with hload
    intro k1 v1 k2 v2 h1 h2
    rw [← hload] at h1
    cases h1
  | some it =>
    cases it with
    | payload k0 v0 =>
      rw [hidx] at hload
      simp only at hload
      injection hload with hload
      intro k1 v1 k2 v2 h1 h2
      rw [← hload] at h1
      cases h1
    | ref h2 =>
      rw [hidx] at hload
      simp only [MstNode.load] at hload
      cases hget : getNode repo h2 with
      | none => rw [hget] at hload; cases hload
      | some m =>
        rw [hget] at hload
        injection hload with hload
        obtain ⟨hh, hmem⟩ := getNode_mem hget
        rw [← hload]
        exact hr _ hmem

/-- Every MST operation preserves level homogeneity: the repo stays
node-wise homogeneous and the produced node is homogeneous. -/
theorem mst_ops_homog (lev : K → Nat) (hashN : MstNode K V H → H) :
    ∀ fuel : Nat,
      (∀ repo node key value repo' node' h',
        MstNode.upsert lev hashN fuel repo node key value = .ok (repo', node', h') →
        repoLevelHomog lev repo → node.levelHomog lev →
        repoLevelHomog lev repo' ∧ node'.levelHomog lev) ∧
      (∀ repo node key value repo' node',
        MstNode.insert_local lev hashN fuel repo node key value = .ok (repo', node') →
        repoLevelHomog lev repo → node.levelHomog lev →
        (∀ k0 v0, MstItem.payload k0 v0 ∈ node → lev k0 = lev key) →
        repoLevelHomog lev repo' ∧ node'.levelHomog lev) ∧
      (∀ repo node key value repo' node',
        MstNode.insert_into_child lev hashN fuel repo node key value = .ok (repo', node') →
        repoLevelHomog lev repo → node.levelHomog lev →
        repoLevelHomog lev repo' ∧ node'.levelHomog lev) ∧
      (∀ repo node key repo' lh rh,
        MstNode.split lev hashN fuel repo node key = .ok (repo', lh, rh) →
        repoLevelHomog lev repo → node.levelHomog lev →
        repoLevelHomog lev repo') := by
  intro fuel
  induction fuel with
  | zero =>
    refine ⟨?_, ?_, ?_, ?_⟩ <;>
      · intro _ _ _ _ _ _
        first
        | (intro _ h; cases h)
        | (intro h; cases h)
  | succ fuel ih =>
    obtain ⟨ihU, ihL, ihC, ihS⟩ := ih
    refine ⟨?_, ?_, ?_, ?_⟩
    · -- upsert
      intro repo node key value repo' node' h' h hr hnode
      simp only [MstNode.upsert] at h
      split at h
      · -- level raise: split and build the three-item node
        cases hsp : MstNode.split lev hashN fuel repo node key with
        | error e => rw [hsp] at h; cases h
        | ok res =>
          obtain ⟨repo1, lh, rh⟩ := res
          rw [hsp] at h
          simp only [bind, Except.bind, Except.ok.injEq, Prod.mk.injEq] at h
          obtain ⟨h1, h2, _⟩ := h
          subst h1
          subst h2
          have hr1 := ihS _ _ _ _ _ _ hsp hr hnode
          exact ⟨repoLevelHomog_putNode hr1 (levelHomog_three lev lh rh key value),
            levelHomog_three lev lh rh key value⟩
      · split at h
        · -- equal level: insert_local
          rename_i hnl heq
          cases hloc : MstNode.insert_local lev hashN fuel repo node key value with
          | error e => rw [hloc] at h; cases h
          | ok res =>
            obtain ⟨repo1, node1⟩ := res
            rw [hloc] at h
            simp only [bind, Except.bind, Except.ok.injEq, Prod.mk.injEq] at h
            obtain ⟨h1, h2, _⟩ := h
            subst h1
            subst h2
            have hkey : ∀ k0 v0, MstItem.payload k0 v0 ∈ node → lev k0 = lev key := by
              intro k0 v0 hm
              cases hev : MstNode.estimate_level lev node with
              | none => exact absurd hm (estimate_level_none hev _ _)
              | some l =>
                rw [hev] at heq
                simp only [Option.getD] at heq
                rw [levelHomog_estimate hnode hev _ _ hm, heq]
            obtain ⟨hr1, hn1⟩ := ihL _ _ _ _ _ _ hloc hr hnode hkey
            exact ⟨repoLevelHomog_putNode hr1 hn1, hn1⟩
        · -- lower level: insert_into_child
          cases hc : MstNode.insert_into_child lev hashN fuel repo node key value with
          | error e => rw [hc] at h; cases h
          | ok res =>
            obtain ⟨repo1, node1⟩ := res
            rw [hc] at h
            simp only [bind, Except.bind, Except.ok.injEq, Prod.mk.injEq] at h
            obtain ⟨h1, h2, _⟩ := h
            subst h1
            subst h2
            obtain ⟨hr1, hn1⟩ := ihC _ _ _ _ _ _ hc hr hnode
            exact ⟨repoLevelHomog_putNode hr1 hn1, hn1⟩
    · -- insert_local
      intro repo node key value repo' node' h hr hnode hkey
      simp only [MstNode.insert_local] at h
      cases hscan : MstNode.scan_local key 0 0 none false node with
      | found i =>
        rw [hscan] at h
        simp only [Except.ok.injEq, Prod.mk.injEq] at h
        obtain ⟨h1, h2⟩ := h
        subst h1
        subst h2
        exact ⟨hr, levelHomog_keysub (fun k v hm => mem_set_value hm) hnode⟩
      | done pos target =>
        rw [hscan] at h
        simp only at h
        split at h
        · rename_i idx htarget
          split at h
          · rename_i h2 hidx
            cases hload : MstNode.load (K := K) (V := V) repo h2 with
            | error e => rw [hload] at h; cases h
            | ok child =>
              rw [hload] at h
              simp only [bind, Except.bind] at h
              cases hsp : MstNode.split lev hashN fuel repo child key with
              | error e => rw [hsp] at h; cases h
              | ok res =>
                obtain ⟨repo1, lh, rh⟩ := res
                rw [hsp] at h
                simp only [Except.ok.injEq, Prod.mk.injEq] at h
                obtain ⟨h1, h3⟩ := h
                subst h1
                subst h3
                have hchild : child.levelHomog lev := by
                  simp only [MstNode.load] at hload
                  cases hget : getNode repo h2 with
                  | none => rw [hget] at hload; cases hload
                  | some m =>
                    rw [hget] at hload
                    injection hload with hload
                    obtain ⟨hh, hmem⟩ := getNode_mem hget
                    rw [← hload]
                    exact hr _ hmem
                refine ⟨ihS _ _ _ _ _ _ hsp hr hchild, ?_⟩
                refine levelHomog_insert hnode hkey ?_
                intro k v hm
                rcases List.mem_append.mp hm with hm1 | hm1
                · rcases List.mem_append.mp hm1 with hm2 | hm2
                  · exact .inr ⟨v, List.take_subset _ _ hm2⟩
                  · simp only [List.mem_cons, List.not_mem_nil, or_false] at hm2
                    rcases hm2 with hm3 | hm3 | hm3
                    · cases hm3
                    · injection hm3 with e1 _
                      exact .inl e1
                    · cases hm3
                · exact .inr ⟨v, List.drop_subset _ _ hm1⟩
          · simp only [Except.ok.injEq, Prod.mk.injEq] at h
            obtain ⟨h1, h3⟩ := h
            subst h1
            subst h3
            exact ⟨hr, hnode⟩
        · simp only [Except.ok.injEq, Prod.mk.injEq] at h
          obtain ⟨h1, h3⟩ := h
          subst h1
          subst h3
          refine ⟨hr, ?_⟩
          refine levelHomog_insert hnode hkey ?_
          intro k v hm
          rcases mem_insertIdx_or hm with heq | hm2
          · injection heq with e1 _
            exact .inl e1
          · exact .inr ⟨v, hm2⟩
    · -- insert_into_child
      intro repo node key value repo' node' h hr hnode
      simp only [MstNode.insert_into_child, bind, Except.bind] at h
      split at h
      · rename_i hload
        cases h
      · rename_i child hload
        have hchild : child.levelHomog lev := child_levelHomog hr hload
        cases hup : MstNode.upsert lev hashN fuel repo child key value with
        | error e => rw [hup] at h; cases h
        | ok res =>
          obtain ⟨repo1, node1, ch⟩ := res
          rw [hup] at h
          simp only [Except.ok.injEq, Prod.mk.injEq] at h
          obtain ⟨h1, h3⟩ := h
          subst h1
          subst h3
          obtain ⟨hr1, _⟩ := ihU _ _ _ _ _ _ _ hup hr hchild
          refine ⟨hr1, ?_⟩
          refine levelHomog_keysub ?_ hnode
          intro k v hm
          cases hidx : node[MstNode.child_idx key node]? with
          | none =>
            rw [hidx] at hm
            simp only at hm
            rcases List.mem_append.mp hm with hm1 | hm1
            · exact ⟨v, hm1⟩
            · simp only [List.mem_cons, List.not_mem_nil, or_false] at hm1
              cases hm1
          | some it =>
            cases it with
            | ref h2 =>
              rw [hidx] at hm
              simp only at hm
              rcases List.mem_or_eq_of_mem_set hm with hm1 | hm1
              · exact ⟨v, hm1⟩
              · cases hm1
            | payload k0 v0 =>
              rw [hidx] at hm
              simp only at hm
              rcases mem_insertIdx_or hm with hm1 | hm1
              · cases hm1
              · exact ⟨v, hm1⟩
    · -- split
      intro repo node key repo' lh rh h hr hnode
      simp only [MstNode.split] at h
      split at h
      · rename_i idx hrts
        split at h
        · rename_i h2 hidx
          cases hload : MstNode.load (K := K) (V := V) repo h2 with
          | error e => rw [hload] at h; cases h
          | ok child =>
            rw [hload] at h
            simp only [bind, Except.bind] at h
            cases hsp : MstNode.split lev hashN fuel repo child key with
            | error e => rw [hsp] at h; cases h
            | ok res =>
              obtain ⟨repo1, clh, crh⟩ := res
              rw [hsp] at h
              simp only [Except.ok.injEq, Prod.mk.injEq] at h
              obtain ⟨h1, _, _⟩ := h
              subst h1
              have hchild : child.levelHomog lev := by
                simp only [MstNode.load] at hload
                cases hget : getNode repo h2 with
                | none => rw [hget] at hload; cases hload
                | some m =>
                  rw [hget] at hload
                  injection hload with hload
                  obtain ⟨hh, hmem⟩ := getNode_mem hget
                  rw [← hload]
                  exact hr _ hmem
              have hr1 := ihS _ _ _ _ _ _ hsp hr hchild
              refine repoLevelHomog_putNode (repoLevelHomog_putNode hr1 ?_) ?_
              · refine levelHomog_keysub ?_ hnode
                intro k v hm
                rcases List.mem_append.mp hm with hm1 | hm1
                · exact ⟨v, List.take_subset _ _ hm1⟩
                · simp only [List.mem_cons, List.not_mem_nil, or_false] at hm1
                  cases hm1
              · refine levelHomog_keysub ?_ hnode
                intro k v hm
                rcases List.mem_cons.mp hm with hm1 | hm1
                · cases hm1
                · exact ⟨v, List.drop_subset _ _ hm1⟩
        · simp only [Except.ok.injEq, Prod.mk.injEq] at h
          obtain ⟨h1, _, _⟩ := h
          subst h1
          refine repoLevelHomog_putNode (repoLevelHomog_putNode hr ?_) ?_
          · exact levelHomog_keysub (fun k v hm => ⟨v, List.take_subset _ _ hm⟩) hnode
          · exact levelHomog_keysub (fun k v hm => ⟨v, List.drop_subset _ _ hm⟩) hnode
      · simp only [Except.ok.injEq, Prod.mk.injEq] at h
        obtain ⟨h1, _, _⟩ := h
        subst h1
        refine repoLevelHomog_putNode (repoLevelHomog_putNode hr ?_) ?_
        · exact levelHomog_keysub (fun k v hm => ⟨v, List.take_subset _ _ hm⟩) hnode
        · exact levelHomog_keysub (fun k v hm => ⟨v, List.drop_subset _ _ hm⟩) hnode

/-- A whole write sequence preserves level homogeneity. -/
theorem mst_upsertAll_homog (lev : K → Nat) (hashN : MstNode K V H → H) (fuel : Nat) :
    ∀ (ws : List (K × V)) repo node repo' node' h',
      MstNode.upsertAll lev hashN fuel repo node ws = .ok (repo', node', h') →
      repoLevelHomog lev repo → node.levelHomog lev →
      repoLevelHomog lev repo' ∧ node'.levelHomog lev := by
  intro ws
  induction ws with
  | nil =>
    intro repo node repo' node' h' h hr hnode
    simp only [MstNode.upsertAll, Except.ok.injEq, Prod.mk.injEq] at h
    obtain ⟨h1, h2, _⟩ := h
    subst h1
    subst h2
    exact ⟨repoLevelHomog_putNode hr hnode, hnode⟩
  | cons w rest ih =>
    intro repo node repo' node' h' h hr hnode
    obtain ⟨k, v⟩ := w
    simp only [MstNode.upsertAll, bind, Except.bind] at h
    cases hup : MstNode.upsert lev hashN fuel repo node k v with
    | error e => rw [hup] at h; cases h
    | ok res =>
      obtain ⟨repo1, node1, h1'⟩ := res
      rw [hup] at h
      obtain ⟨hr1, hn1⟩ := (mst_ops_homog lev hashN fuel).1 _ _ _ _ _ _ _ hup hr hnode
      exact ih _ _ _ _ _ h hr1 hn1

/-- C4: after any sequence of upserts from the empty tree, every stored
MST node (hence every node reachable from the produced root, all of which
are loaded from the repo) has all its payloads at one shared calc_level,
as does the returned root node; consequently estimate_level, which reads
the first payload, reports the level of every payload of a homogeneous
node. -/
theorem c4_level_homogeneity (lev : K → Nat) (hashN : MstNode K V H → H)
    (fuel : Nat) (ws : List (K × V)) (repo' : NodeRepo H (MstNode K V H))
    (node' : MstNode K V H) (h' : H)
    (h : MstNode.upsertAll lev hashN fuel [] [] ws = .ok (repo', node', h')) :
    (∀ p ∈ repo', MstNode.levelHomog lev p.2) ∧ node'.levelHomog lev ∧
    (∀ n : MstNode K V H, n.levelHomog lev →
      ∀ l, MstNode.estimate_level lev n = some l →
        ∀ k v, MstItem.payload k v ∈ n → lev k = l) := by
  have h0r : repoLevelHomog lev ([] : NodeRepo H (MstNode K V H)) := by
    intro p hp
    cases hp
  have h0n : MstNode.levelHomog lev ([] : MstNode K V H) := by
    intro k1 v1 k2 v2 h1 h2
    cases h1
  obtain ⟨hr, hn⟩ := mst_upsertAll_homog lev hashN fuel ws [] [] repo' node' h' h h0r h0n
  exact ⟨hr, hn, fun n hn2 l hl => levelHomog_estimate hn2 hl⟩

/-- Witness: C4 at a concrete three-write sequence with keys of levels
0, 1, 0. -/
theorem c4_level_homogeneity_witness :
    MstNode.upsertAll (fun k => k % 2) mhashN 10
      ([] : NodeRepo Nat (MstNode Nat Nat Nat)) [] [(0, 5), (1, 6), (2, 7)] =
      .ok c4res ∧
    ((∀ p ∈ c4res.1, MstNode.levelHomog (fun k => k % 2) p.2) ∧
      c4res.2.1.levelHomog (fun k => k % 2) ∧
      (∀ n : MstNode Nat Nat Nat, n.levelHomog (fun k => k % 2) →
        ∀ l, MstNode.estimate_level (fun k => k % 2) n = some l →
          ∀ k v, MstItem.payload k v ∈ n → (fun k => k % 2) k = l)) :=
  ⟨rfl, c4_level_homogeneity (fun k => k % 2) mhashN 10 [(0, 5), (1, 6), (2, 7)]
    c4res.1 c4res.2.1 c4res.2.2 rfl⟩

end MstHomog

section MstFindR

variable {K V H : Type} [LinearOrder K] [DecidableEq H]

/-- findAux is sound for FindR: a fueled run that returns ok r is a FindR
derivation. -/
theorem findAux_sound {repo : NodeRepo H (MstNode K V H)} {key : K} :
    ∀ {fuel : Nat} {prev : Option (MstItem K V H)} {node : MstNode K V H} {r : Option V},
      MstNode.findAux repo key fuel prev node = .ok r → FindR repo key prev node r := by
  intro fuel
  induction fuel with
  | zero => intro prev node r h; cases h
  | succ fuel ih =>
    intro prev node r h
    match node with
    | [] =>
      simp only [MstNode.findAux] at h
      match prev with
      | none =>
        simp only at h
        injection h with h
        subst h
        exact .nil_plain none rfl
      | some (.payload k0 v0) =>
        simp only at h
        injection h with h
        subst h
        exact .nil_plain _ rfl
      | some (.ref h0) =>
        simp only at h
        cases hget : getNode repo h0 with
        | none => rw [hget] at h; cases h
        | some child =>
          rw [hget] at h
          exact .nil_ref h0 child r hget (ih h)
    | .payload k0 v0 :: rest =>
      simp only [MstNode.findAux] at h
      cases hcmp : compare key k0 with
      | eq =>
        rw [hcmp] at h
        simp only at h
        injection h with h
        subst h
        exact .pay_eq prev k0 v0 rest hcmp
      | lt =>
        rw [hcmp] at h
        simp only at h
        match prev with
        | none =>
          simp only at h
          injection h with h
          subst h
          exact .pay_lt_plain none k0 v0 rest hcmp rfl
        | some (.payload k1 v1) =>
          simp only at h
          injection h with h
          subst h
          exact .pay_lt_plain _ k0 v0 rest hcmp rfl
        | some (.ref h0) =>
          simp only at h
          cases hget : getNode repo h0 with
          | none => rw [hget] at h; cases h
          | some child =>
            rw [hget] at h
            exact .pay_lt_ref h0 child k0 v0 rest r hcmp hget (ih h)
      | gt =>
        rw [hcmp] at h
        simp only at h
        exact .pay_gt prev k0 v0 rest r hcmp (ih h)
    | .ref h0 :: rest =>
      simp only [MstNode.findAux] at h
      exact .step_ref prev h0 rest r (ih h)

/-- FindR is deterministic. -/
theorem findr_det {repo : NodeRepo H (MstNode K V H)} {key : K} :
    ∀ {prev node r}, FindR repo key prev node r →
      ∀ {r2}, FindR repo key prev node r2 → r = r2 := by
  intro prev node r h
  induction h with
  | nil_plain prev hnr =>
    intro r2 h2
    cases h2 with
    | nil_plain _ _ => rfl
    | nil_ref h child r hget hc => cases hnr
  | nil_ref h child r hget hc ih =>
    intro r2 h2
    cases h2 with
    | nil_plain _ hnr => cases hnr
    | nil_ref h2c child2 r2 hget2 hc2 =>
      rw [hget] at hget2
      injection hget2 with e
      subst e
      exact ih hc2
  | pay_eq prev k v rest hcmp =>
    intro r2 h2
    cases h2 with
    | pay_eq => rfl
    | pay_lt_ref _ _ _ _ _ _ hcmp2 => rw [hcmp] at hcmp2; cases hcmp2
    | pay_lt_plain _ _ _ _ hcmp2 => rw [hcmp] at hcmp2; cases hcmp2
    | pay_gt _ _ _ _ _ hcmp2 => rw [hcmp] at hcmp2; cases hcmp2
  | pay_lt_ref h child k v rest r hcmp hget hc ih =>
    intro r2 h2
    cases h2 with
    | pay_eq _ _ _ _ hcmp2 => rw [hcmp] at hcmp2; cases hcmp2
    | pay_lt_ref _ child2 _ _ _ _ hcmp2 hget2 hc2 =>
      rw [hget] at hget2
      injection hget2 with e
      subst e
      exact ih hc2
    | pay_lt_plain _ _ _ _ hcmp2 hnr => cases hnr
    | pay_gt _ _ _ _ _ hcmp2 => rw [hcmp] at hcmp2; cases hcmp2
  | pay_lt_plain prev k v rest hcmp hnr =>
    intro r2 h2
    cases h2 with
    | pay_eq _ _ _ _ hcmp2 => rw [hcmp] at hcmp2; cases hcmp2
    | pay_lt_ref _ _ _ _ _ _ hcmp2 hget2 hc2 => cases hnr
    | pay_lt_plain => rfl
    | pay_gt _ _ _ _ _ hcmp2 => rw [hcmp] at hcmp2; cases hcmp2
  | pay_gt prev k v rest r hcmp hc ih =>
    intro r2 h2
    cases h2 with
    | pay_eq _ _ _ _ hcmp2 => rw [hcmp] at hcmp2; cases hcmp2
    | pay_lt_ref _ _ _ _ _ _ hcmp2 => rw [hcmp] at hcmp2; cases hcmp2
    | pay_lt_plain _ _ _ _ hcmp2 => rw [hcmp] at hcmp2; cases hcmp2
    | pay_gt _ _ _ _ _ _ hc2 => exact ih hc2
  | step_ref prev h rest r hc ih =>
    intro r2 h2
    cases h2 with
    | step_ref _ _ _ _ hc2 => exact ih hc2

/-- FindR transports along repo growth. -/
theorem findr_mono {hashN : MstNode K V H → H}
    {repo repo' : NodeRepo H (MstNode K V H)} {key : K}
    (hev : Evolves hashN repo repo') :
    ∀ {prev node r}, FindR repo key prev node r → FindR repo' key prev node r := by
  intro prev node r h
  induction h with
  | nil_plain prev hnr => exact .nil_plain prev hnr
  | nil_ref h child r hget hc ih => exact .nil_ref h child r (hev.getNode_mono hget) ih
  | pay_eq prev k v rest hcmp => exact .pay_eq prev k v rest hcmp
  | pay_lt_ref h child k v rest r hcmp hget hc ih =>
    exact .pay_lt_ref h child k v rest r hcmp (hev.getNode_mono hget) ih
  | pay_lt_plain prev k v rest hcmp hnr => exact .pay_lt_plain prev k v rest hcmp hnr
  | pay_gt prev k v rest r hcmp hc ih => exact .pay_gt prev k v rest r hcmp ih
  | step_ref prev h rest r hc ih => exact .step_ref prev h rest r ih

/-- enterPrev of a cons pushes the head into the incoming state. -/
theorem enterPrev_cons (prev : Option (MstItem K V H)) (x : MstItem K V H)
    (xs : MstNode K V H) : enterPrev prev (x :: xs) = enterPrev (some x) xs := by
  cases xs with
  | nil => rfl
  | cons y ys => rfl

/-- A non-ref previous item behaves like none: only refs are consulted. -/
theorem findr_prev_nonref {repo : NodeRepo H (MstNode K V H)} {key : K}
    {p q : Option (MstItem K V H)} (hp : notRefO p = true) (hq : notRefO q = true)
    {node : MstNode K V H} {r : Option V}
    (h : FindR repo key p node r) : FindR repo key q node r := by
  cases h with
  | nil_plain _ _ => exact .nil_plain q hq
  | nil_ref h child r hget hc => cases hp
  | pay_eq _ k v rest hcmp => exact .pay_eq q k v rest hcmp
  | pay_lt_ref h child k v rest r hcmp => cases hp
  | pay_lt_plain _ k v rest hcmp _ => exact .pay_lt_plain q k v rest hcmp hq
  | pay_gt _ k v rest r hcmp hc => exact .pay_gt q k v rest r hcmp hc
  | step_ref _ h rest r hc => exact .step_ref q h rest r hc

/-- Introduction through a fully passed prefix: every payload of xs is
scanned past without stopping when its key is below the search key. -/
theorem findr_pass_intro {repo : NodeRepo H (MstNode K V H)} {key : K} :
    ∀ (xs : MstNode K V H) {prev : Option (MstItem K V H)} {ys : MstNode K V H}
      {r : Option V},
      (∀ k0 v0, MstItem.payload k0 v0 ∈ xs → compare key k0 = .gt) →
      FindR repo key (enterPrev prev xs) ys r → FindR repo key prev (xs ++ ys) r := by
  intro xs
  induction xs with
  | nil => intro prev ys r hgt h; exact h
  | cons x xs ih =>
    intro prev ys r hgt h
    rw [enterPrev_cons] at h
    cases x with
    | payload k0 v0 =>
      refine .pay_gt prev k0 v0 (xs ++ ys) r (hgt k0 v0 (List.mem_cons_self _ _)) ?_
      exact ih (fun k1 v1 hm => hgt k1 v1 (List.mem_cons_of_mem _ hm)) h
    | ref h0 =>
      refine .step_ref prev h0 (xs ++ ys) r ?_
      exact ih (fun k1 v1 hm => hgt k1 v1 (List.mem_cons_of_mem _ hm)) h

/-- Elimination of a fully passed prefix. -/
theorem findr_pass_elim {repo : NodeRepo H (MstNode K V H)} {key : K} :
    ∀ (xs : MstNode K V H) {prev : Option (MstItem K V H)} {ys : MstNode K V H}
      {r : Option V},
      (∀ k0 v0, MstItem.payload k0 v0 ∈ xs → compare key k0 = .gt) →
      FindR repo key prev (xs ++ ys) r → FindR repo key (enterPrev prev xs) ys r := by
  intro xs
  induction xs with
  | nil => intro prev ys r hgt h; exact h
  | cons x xs ih =>
    intro prev ys r hgt h
    rw [enterPrev_cons]
    cases x with
    | payload k0 v0 =>
      have hcmp := hgt k0 v0 (List.mem_cons_self _ _)
      cases h with
      | pay_eq _ _ _ _ hcmp2 => rw [hcmp] at hcmp2; cases hcmp2
      | pay_lt_ref _ _ _ _ _ _ hcmp2 => rw [hcmp] at hcmp2; cases hcmp2
      | pay_lt_plain _ _ _ _ hcmp2 => rw [hcmp] at hcmp2; cases hcmp2
      | pay_gt _ _ _ _ _ _ hc =>
        exact ih (fun k1 v1 hm => hgt k1 v1 (List.mem_cons_of_mem _ hm)) hc
    | ref h0 =>
      cases h with
      | step_ref _ _ _ _ hc =>
        exact ih (fun k1 v1 hm => hgt k1 v1 (List.mem_cons_of_mem _ hm)) hc

/-- Congruence on a common prefix: if the suffix transformation preserves
FindR at the entering scan state, the whole lists are FindR-related. -/
theorem findr_congr {hashN : MstNode K V H → H}
    {repo repo' : NodeRepo H (MstNode K V H)} {key : K}
    (hev : Evolves hashN repo repo') :
    ∀ (xs : MstNode K V H) {prev : Option (MstItem K V H)}
      {ys ys' : MstNode K V H},
      (∀ r, FindR repo key (enterPrev prev xs) ys r →
        FindR repo' key (enterPrev prev xs) ys' r) →
      ∀ {r}, FindR repo key prev (xs ++ ys) r → FindR repo' key prev (xs ++ ys') r := by
  intro xs
  induction xs with
  | nil => intro prev ys ys' H r h; exact H r h
  | cons x xs ih =>
    intro prev ys ys' H r h
    rw [enterPrev_cons] at H
    cases x with
    | payload k0 v0 =>
      cases h with
      | pay_eq _ _ _ _ hcmp => exact .pay_eq prev k0 v0 (xs ++ ys') hcmp
      | pay_lt_ref h1 child _ _ _ _ hcmp hget hc =>
        exact .pay_lt_ref h1 child k0 v0 (xs ++ ys') r hcmp (hev.getNode_mono hget)
          (findr_mono hev hc)
      | pay_lt_plain _ _ _ _ hcmp hnr =>
        exact .pay_lt_plain prev k0 v0 (xs ++ ys') hcmp hnr
      | pay_gt _ _ _ _ _ hcmp hc =>
        exact .pay_gt prev k0 v0 (xs ++ ys') r hcmp (ih H hc)
    | ref h0 =>
      cases h with
      | step_ref _ _ _ _ hc => exact .step_ref prev h0 (xs ++ ys') r (ih H hc)

end MstFindR

section MstWf

variable {K V H : Type} [LinearOrder K] [DecidableEq H]

/-- Wf transports along repo growth. -/
theorem wf_mono {hashN : MstNode K V H → H}
    {repo repo' : NodeRepo H (MstNode K V H)} (hev : Evolves hashN repo repo') :
    ∀ {lo hi node}, Wf repo lo hi node → Wf repo' lo hi node := by
  intro lo hi node h
  induction h with
  | nil lo hi => exact .nil lo hi
  | pay lo hi k v rest hlo hhi hrest ih => exact .pay lo hi k v rest hlo hhi ih
  | ref lo hi h child rest hget hchild hnr hrest ihc ihr =>
    exact .ref lo hi h child rest (hev.getNode_mono hget) ihc hnr ihr

/-- endNotRef of a singleton. -/
theorem endNotRef_single (x : MstItem K V H) :
    endNotRef [x] = notRefO (some x) := rfl

/-- endNotRef ignores all but the last item. -/
theorem endNotRef_cons_cons (x y : MstItem K V H) (ys : MstNode K V H) :
    endNotRef (x :: y :: ys) = endNotRef (y :: ys) := by
  simp [endNotRef, enterPrev, List.getLast?_cons_cons]

/-- A Wf node has no reference directly before another reference. -/
theorem wf_no_adjacent {repo : NodeRepo H (MstNode K V H)} {h0 : H} :
    ∀ (pre : MstNode K V H) {lo hi rest},
      Wf repo lo hi (pre ++ .ref h0 :: rest) → endNotRef pre = true := by
  intro pre
  induction pre with
  | nil => intro lo hi rest _; rfl
  | cons x pre ih =>
    intro lo hi rest h
    cases x with
    | payload k1 v1 =>
      cases h with
      | pay _ _ _ _ _ hlo hhi hrest =>
        cases pre with
        | nil => rfl
        | cons y ys =>
          rw [endNotRef_cons_cons]
          exact ih hrest
    | ref h1 =>
      cases h with
      | ref _ _ _ child _ hget hchild hnr hrest =>
        cases pre with
        | nil => cases hnr
        | cons y ys =>
          rw [endNotRef_cons_cons]
          exact ih hrest

/-- lastPayloadBound over a cons. -/
theorem lastPayloadBound_cons (lo : Option K) (x : MstItem K V H) (xs : MstNode K V H) :
    lastPayloadBound lo (x :: xs) =
      (match x with
       | .payload k _ => lastPayloadBound (some k) xs
       | .ref _ => lastPayloadBound lo xs) := by
  cases x <;> rfl

/-- The junction bound of a prefix whose payloads are all below key stays
below key. -/
theorem lastPayloadBound_lt {key : K} :
    ∀ (pre : MstNode K V H) {lo : Option K},
      OltK lo key →
      (∀ k0 v0, MstItem.payload k0 v0 ∈ pre → compare key k0 = .gt) →
      OltK (lastPayloadBound lo pre) key := by
  intro pre
  induction pre with
  | nil => intro lo hlo _; exact hlo
  | cons x pre ih =>
    intro lo hlo hgt
    cases x with
    | payload k0 v0 =>
      rw [lastPayloadBound_cons]
      refine ih ?_ (fun k1 v1 hm => hgt k1 v1 (List.mem_cons_of_mem _ hm))
      intro a ha
      injection ha with ha
      subst ha
      exact compare_gt_iff_gt.mp (hgt k0 v0 (List.mem_cons_self _ _))
    | ref h0 =>
      rw [lastPayloadBound_cons]
      exact ih hlo (fun k1 v1 hm => hgt k1 v1 (List.mem_cons_of_mem _ hm))

/-- Master splice lemma: replacing the suffix after a prefix, compatibly
at the junction bound, preserves Wf, also under a new upper bound that the
prefix payloads satisfy.  The prefix must not end in a reference, unless
the replacement keeps the head bound and head shape of the suffix. -/
theorem wf_splice {hashN : MstNode K V H → H}
    {repo repo' : NodeRepo H (MstNode K V H)} (hev : Evolves hashN repo repo')
    {hi hi' : Option K} {ys ys' : MstNode K V H} :
    ∀ (pre : MstNode K V H) (lo : Option K),
      (endNotRef pre = true ∨
        (headBound hi' ys' = headBound hi ys ∧ headNotRef ys' = headNotRef ys)) →
      (∀ k v, MstItem.payload k v ∈ pre → KleH k hi') →
      (Wf repo (lastPayloadBound lo pre) hi ys →
        Wf repo' (lastPayloadBound lo pre) hi' ys') →
      Wf repo lo hi (pre ++ ys) → Wf repo' lo hi' (pre ++ ys') := by
  intro pre
  induction pre with
  | nil => intro lo _ _ H h; exact H h
  | cons x pre ih =>
    intro lo hend hhi H h
    cases x with
    | payload k0 v0 =>
      cases h with
      | pay _ _ _ _ _ hlo hhi0 hrest =>
        refine .pay _ _ _ _ _ hlo (hhi k0 v0 (List.mem_cons_self _ _)) ?_
        have hend' : endNotRef pre = true ∨
            (headBound hi' ys' = headBound hi ys ∧ headNotRef ys' = headNotRef ys) := by
          rcases hend with hend | hend
          · cases pre with
            | nil => exact .inl rfl
            | cons y ys2 => rw [endNotRef_cons_cons] at hend; exact .inl hend
          · exact .inr hend
        refine ih (some k0) hend' (fun k1 v1 hm => hhi k1 v1 (List.mem_cons_of_mem _ hm)) ?_ hrest
        rw [lastPayloadBound_cons] at H
        exact H
    | ref h0 =>
      cases h with
      | ref _ _ _ child _ hget hchild hnr hrest =>
        cases pre with
        | nil =>
          rcases hend with hend | ⟨hhb, hhnr⟩
          · cases hend
          · refine .ref _ _ _ child _ (hev.getNode_mono hget) ?_ ?_ ?_
            · have hc : Wf repo lo (headBound hi ys) child := hchild
              rw [← hhb] at hc
              exact wf_mono hev hc
            · show headNotRef ys' = true
              rw [hhnr]
              exact hnr
            · exact H hrest
        | cons p pre2 =>
          cases p with
          | ref h1 => exact Bool.noConfusion hnr
          | payload k1 v1 =>
            refine .ref _ _ _ child _ (hev.getNode_mono hget) ?_ rfl ?_
            · exact wf_mono hev hchild
            · have hend' : endNotRef (MstItem.payload k1 v1 :: pre2) = true ∨
                  (headBound hi' ys' = headBound hi ys ∧ headNotRef ys' = headNotRef ys) := by
                rcases hend with hend | hend
                · rw [endNotRef_cons_cons] at hend; exact .inl hend
                · exact .inr hend
              refine ih lo hend' (fun k v hm => hhi k v (List.mem_cons_of_mem _ hm)) ?_ hrest
              exact H

/-- Lower-bound retarget at a payload head. -/
theorem wf_lower_retarget {repo : NodeRepo H (MstNode K V H)}
    {lo lo' hi : Option K} {b : K} {vb : V} {rest : MstNode K V H}
    (h : Wf repo lo hi (.payload b vb :: rest)) (hlo : OltK lo' b) :
    Wf repo lo' hi (.payload b vb :: rest) := by
  cases h with
  | pay _ _ _ _ _ hlo0 hhi hrest => exact .pay _ _ _ _ _ hlo hhi hrest

/-- A prefix ending in a reference decomposes as such. -/
theorem lastRefB_decomp_gen :
    ∀ (pre : MstNode K V H) (b : Bool), lastRefB b pre = true →
      (pre = [] ∧ b = true) ∨ ∃ pre2 h0, pre = pre2 ++ [MstItem.ref h0] := by
  intro pre
  induction pre with
  | nil => intro b hb; exact .inl ⟨rfl, hb⟩
  | cons x xs ih =>
    intro b hb
    cases x with
    | payload k v =>
      rcases ih false hb with ⟨hx, hf⟩ | ⟨pre2, h0, hx⟩
      · cases hf
      · exact .inr ⟨MstItem.payload k v :: pre2, h0, by rw [hx]; rfl⟩
    | ref h0 =>
      rcases ih true hb with ⟨hx, _⟩ | ⟨pre2, h2, hx⟩
      · exact .inr ⟨[], h0, by rw [hx]; rfl⟩
      · exact .inr ⟨MstItem.ref h0 :: pre2, h2, by rw [hx]; rfl⟩

/-- A prefix ending in a reference decomposes as such. -/
theorem lastRefB_decomp {pre : MstNode K V H}
    (h : lastRefB false pre = true) : ∃ pre2 h0, pre = pre2 ++ [MstItem.ref h0] := by
  rcases lastRefB_decomp_gen pre false h with ⟨_, hf⟩ | hx
  · cases hf
  · exact hx

/-- A prefix not flagged as ending in a reference does not end in one. -/
theorem lastRefB_false_endNotRef_gen :
    ∀ (pre : MstNode K V H) (b : Bool), lastRefB b pre = false →
      endNotRef pre = true := by
  intro pre
  induction pre with
  | nil => intro b _; rfl
  | cons x xs ih =>
    intro b hb
    cases x with
    | payload k v =>
      cases xs with
      | nil => rfl
      | cons y ys =>
        rw [endNotRef_cons_cons]
        exact ih false hb
    | ref h0 =>
      cases xs with
      | nil => cases hb
      | cons y ys =>
        rw [endNotRef_cons_cons]
        exact ih true hb

/-- A prefix not ending in a reference. -/
theorem lastRefB_false_endNotRef {pre : MstNode K V H}
    (h : lastRefB false pre = false) : endNotRef pre = true :=
  lastRefB_false_endNotRef_gen pre false h

/-- The characterization of the insert_local scan: it stops at the first
payload not below the key, reporting an equal match, a strict upper
neighbor with the directly preceding reference as split target, or the
end of the node. -/
theorem scan_local_spec (key : K) :
    ∀ (node : MstNode K V H) (i : Nat) (target : Option Nat) (prevRef : Bool),
      (∃ pre w post, node = pre ++ .payload key w :: post ∧
        (∀ k0 v0, MstItem.payload k0 v0 ∈ pre → compare key k0 = .gt) ∧
        MstNode.scan_local key i i target prevRef node = .found (i + pre.length)) ∨
      (∃ pre b vb post, node = pre ++ .payload b vb :: post ∧
        (∀ k0 v0, MstItem.payload k0 v0 ∈ pre → compare key k0 = .gt) ∧
        compare key b = .lt ∧
        MstNode.scan_local key i i target prevRef node =
          .done (i + pre.length)
            (if 0 < i + pre.length ∧ lastRefB prevRef pre = true
             then some (i + pre.length - 1) else target)) ∨
      ((∀ k0 v0, MstItem.payload k0 v0 ∈ node → compare key k0 = .gt) ∧
        MstNode.scan_local key i i target prevRef node =
          .done (i + node.length) target) := by
  intro node
  induction node with
  | nil =>
    intro i target prevRef
    refine .inr (.inr ⟨?_, ?_⟩)
    · intro k0 v0 hm; cases hm
    · rfl
  | cons x rest ih =>
    intro i target prevRef
    cases x with
    | payload k0 v0 =>
      cases hcmp : compare key k0 with
      | lt =>
        refine .inr (.inl ⟨[], k0, v0, rest, rfl, ?_, hcmp, ?_⟩)
        · intro k1 v1 hm; cases hm
        · show MstNode.scan_local key i i target prevRef (.payload k0 v0 :: rest) = _
          simp only [MstNode.scan_local, hcmp]
          simp [lastRefB]
      | eq =>
        have hk : key = k0 := compare_eq_iff_eq.mp hcmp
        refine .inl ⟨[], v0, rest, by rw [hk]; rfl, ?_, ?_⟩
        · intro k1 v1 hm; cases hm
        · show MstNode.scan_local key i i target prevRef (.payload k0 v0 :: rest) = _
          simp only [MstNode.scan_local, hcmp]
          simp
      | gt =>
        have hstep : MstNode.scan_local key i i target prevRef (.payload k0 v0 :: rest) =
            MstNode.scan_local key (i + 1) (i + 1) target false rest := by
          simp only [MstNode.scan_local, hcmp]
        rcases ih (i + 1) target false with
          ⟨pre, w, post, hdec, hgt, hres⟩ | ⟨pre, b, vb, post, hdec, hgt, hlt, hres⟩ | ⟨hgt, hres⟩
        · refine .inl ⟨.payload k0 v0 :: pre, w, post, by rw [hdec]; rfl, ?_, ?_⟩
          · intro k1 v1 hm
            rcases List.mem_cons.mp hm with hm1 | hm1
            · injection hm1 with e1 _; rw [← e1] at hcmp; exact hcmp
            · exact hgt k1 v1 hm1
          · rw [hstep, hres]
            congr 1
            simp only [List.length_cons]
            omega
        · refine .inr (.inl ⟨.payload k0 v0 :: pre, b, vb, post, by rw [hdec]; rfl, ?_, hlt, ?_⟩)
          · intro k1 v1 hm
            rcases List.mem_cons.mp hm with hm1 | hm1
            · injection hm1 with e1 _; rw [← e1] at hcmp; exact hcmp
            · exact hgt k1 v1 hm1
          · rw [hstep, hres]
            rw [show lastRefB prevRef (MstItem.payload k0 v0 :: pre) = lastRefB false pre from rfl]
            simp only [List.length_cons]
            rw [show i + 1 + pre.length = i + (pre.length + 1) from by omega]
        · refine .inr (.inr ⟨?_, ?_⟩)
          · intro k1 v1 hm
            rcases List.mem_cons.mp hm with hm1 | hm1
            · injection hm1 with e1 _; rw [← e1] at hcmp; exact hcmp
            · exact hgt k1 v1 hm1
          · rw [hstep, hres]
            congr 1
            simp only [List.length_cons]
            omega
    | ref h0 =>
      have hstep : MstNode.scan_local key i i target prevRef (.ref h0 :: rest) =
          MstNode.scan_local key (i + 1) (i + 1) target true rest := by
        simp only [MstNode.scan_local]
        simp
      rcases ih (i + 1) target true with
        ⟨pre, w, post, hdec, hgt, hres⟩ | ⟨pre, b, vb, post, hdec, hgt, hlt, hres⟩ | ⟨hgt, hres⟩
      · refine .inl ⟨.ref h0 :: pre, w, post, by rw [hdec]; rfl, ?_, ?_⟩
        · intro k1 v1 hm
          rcases List.mem_cons.mp hm with hm1 | hm1
          · cases hm1
          · exact hgt k1 v1 hm1
        · rw [hstep, hres]
          congr 1
          simp only [List.length_cons]
          omega
      · refine .inr (.inl ⟨.ref h0 :: pre, b, vb, post, by rw [hdec]; rfl, ?_, hlt, ?_⟩)
        · intro k1 v1 hm
          rcases List.mem_cons.mp hm with hm1 | hm1
          · cases hm1
          · exact hgt k1 v1 hm1
        · rw [hstep, hres]
          rw [show lastRefB prevRef (MstItem.ref h0 :: pre) = lastRefB true pre from rfl]
          simp only [List.length_cons]
          rw [show i + 1 + pre.length = i + (pre.length + 1) from by omega]
      · refine .inr (.inr ⟨?_, ?_⟩)
        · intro k1 v1 hm
          rcases List.mem_cons.mp hm with hm1 | hm1
          · cases hm1
          · exact hgt k1 v1 hm1
        · rw [hstep, hres]
          congr 1
          simp only [List.length_cons]
          omega

end MstWf

section ListHelpers

variable {K V H : Type} [LinearOrder K] [DecidableEq H]

/-- The element at the junction of a split list. -/
theorem getElem?_append_mid {α : Type} :
    ∀ (pre : List α) (x : α) (post : List α), (pre ++ x :: post)[pre.length]? = some x := by
  intro pre
  induction pre with
  | nil => intro x post; simp
  | cons y ys ih => intro x post; simpa using ih x post

/-- Take up to the junction. -/
theorem take_append_mid {α : Type} :
    ∀ (pre post : List α), (pre ++ post).take pre.length = pre := by
  intro pre
  induction pre with
  | nil => intro post; rfl
  | cons y ys ih => intro post; simpa using ih post

/-- Drop past the junction element. -/
theorem drop_append_succ {α : Type} :
    ∀ (pre : List α) (x : α) (post : List α),
      (pre ++ x :: post).drop (pre.length + 1) = post := by
  intro pre
  induction pre with
  | nil => intro x post; rfl
  | cons y ys ih => intro x post; simpa using ih x post

/-- Insert at the junction. -/
theorem insertIdx_append_mid {α : Type} :
    ∀ (pre post : List α) (x : α),
      (pre ++ post).insertIdx pre.length x = pre ++ x :: post := by
  intro pre
  induction pre with
  | nil => intro post x; rfl
  | cons y ys ih =>
    intro post x
    simp only [List.cons_append, List.length_cons, List.insertIdx_succ_cons]
    rw [ih]

/-- Set at the junction. -/
theorem set_append_mid {α : Type} :
    ∀ (pre : List α) (y x : α) (post : List α),
      (pre ++ y :: post).set pre.length x = pre ++ x :: post := by
  intro pre
  induction pre with
  | nil => intro y x post; rfl
  | cons z zs ih =>
    intro y x post
    simp only [List.cons_append, List.length_cons, List.set_cons_succ]
    rw [ih]

/-- set_value at the junction payload replaces only the value. -/
theorem set_value_append_mid :
    ∀ (pre : MstNode K V H) (k : K) (w v : V) (post : MstNode K V H),
      MstNode.set_value (pre ++ .payload k w :: post) pre.length v =
        pre ++ .payload k v :: post := by
  intro pre
  induction pre with
  | nil => intro k w v post; rfl
  | cons y ys ih =>
    intro k w v post
    simp only [List.cons_append, List.length_cons, MstNode.set_value]
    exact congrArg (List.cons y) (ih k w v post)

/-- A list with a known last element decomposes. -/
theorem getLast?_decomp {α : Type} :
    ∀ {l : List α} {x : α}, l.getLast? = some x → ∃ l2, l = l2 ++ [x] := by
  intro l
  induction l with
  | nil => intro x h; cases h
  | cons y ys ih =>
    intro x h
    cases hys : ys with
    | nil =>
      rw [hys] at h
      have h' : some y = some x := h
      injection h' with h'
      exact ⟨[], by rw [h']; rfl⟩
    | cons z zs =>
      rw [hys] at h
      rw [List.getLast?_cons_cons] at h
      obtain ⟨l2, hl2⟩ := ih (hys ▸ h)
      exact ⟨y :: l2, by rw [← hys, hl2]; rfl⟩

/-- findIdx? success characterization, with the running start index. -/
theorem findIdx?_some_spec {α : Type} {p : α → Bool} :
    ∀ (l : List α) (s : Nat) {i : Nat}, List.findIdx? p l s = some i →
      ∃ pre x post, l = pre ++ x :: post ∧ i = s + pre.length ∧
        (∀ y ∈ pre, p y = false) ∧ p x = true := by
  intro l
  induction l with
  | nil => intro s i h; cases h
  | cons a l ih =>
    intro s i h
    rw [show List.findIdx? p (a :: l) s =
        (if p a then some s else List.findIdx? p l (s + 1)) from rfl] at h
    by_cases hp : p a
    · rw [if_pos hp] at h
      injection h with h
      refine ⟨[], a, l, rfl, by rw [← h]; simp, ?_, hp⟩
      intro y hy; cases hy
    · rw [if_neg hp] at h
      obtain ⟨pre, x, post, hdec, hlen, hpre, hx⟩ := ih (s + 1) h
      refine ⟨a :: pre, x, post, by rw [hdec]; rfl, ?_, ?_, hx⟩
      · simp only [List.length_cons]; omega
      · intro y hy
        rcases List.mem_cons.mp hy with hy1 | hy1
        · rw [hy1]; exact Bool.eq_false_iff.mpr hp
        · exact hpre y hy1

/-- findIdx? failure characterization. -/
theorem findIdx?_none_spec {α : Type} {p : α → Bool} :
    ∀ (l : List α) (s : Nat), List.findIdx? p l s = none → ∀ y ∈ l, p y = false := by
  intro l
  induction l with
  | nil => intro _ _ y hy; cases hy
  | cons a l ih =>
    intro s h y hy
    rw [show List.findIdx? p (a :: l) s =
        (if p a then some s else List.findIdx? p l (s + 1)) from rfl] at h
    by_cases hp : p a
    · rw [if_pos hp] at h; cases h
    · rw [if_neg hp] at h
      rcases List.mem_cons.mp hy with hy1 | hy1
      · rw [hy1]; exact Bool.eq_false_iff.mpr hp
      · exact ih (s + 1) h y hy1

end ListHelpers

section MstFrameZero

variable {K V H : Type} [LinearOrder K] [DecidableEq H]

/-- All four contracts hold vacuously at fuel 0. -/
theorem specs_zero (lev : K → Nat) (hashN : MstNode K V H → H) :
    UpsertSpec lev hashN 0 ∧ LocalSpec lev hashN 0 ∧
    ChildSpec lev hashN 0 ∧ SplitSpec lev hashN 0 := by
  refine ⟨?_, ?_, ?_, ?_⟩
  · intro repo node key value repo' node' h' lo hi h
    cases h
  · intro repo node key value repo' node' lo hi h
    cases h
  · intro repo node key value repo' node' lo hi h
    cases h
  · intro repo node skey repo' lh rh lo hi h
    cases h

/-- The bounds of a Wf node transfer to any suffix at the junction
bound. -/
theorem wf_suffix {repo : NodeRepo H (MstNode K V H)} {hi : Option K}
    {ys : MstNode K V H} :
    ∀ (pre : MstNode K V H) {lo : Option K},
      Wf repo lo hi (pre ++ ys) → Wf repo (lastPayloadBound lo pre) hi ys := by
  intro pre
  induction pre with
  | nil => intro lo h; exact h
  | cons x pre ih =>
    intro lo h
    cases x with
    | payload k0 v0 =>
      cases h with
      | pay _ _ _ _ _ hlo hhi hrest =>
        rw [lastPayloadBound_cons]
        exact ih hrest
    | ref h0 =>
      cases h with
      | ref _ _ _ child _ hget hchild hnr hrest =>
        rw [lastPayloadBound_cons]
        exact ih hrest

/-- compare of a key with itself. -/
theorem compare_self_eq (k : K) : compare k k = Ordering.eq :=
  compare_eq_iff_eq.mpr rfl

/-- Flip of a gt comparison. -/
theorem compare_flip_gt {a b : K} (h : compare a b = Ordering.lt) :
    compare b a = Ordering.gt :=
  compare_gt_iff_gt.mpr (compare_lt_iff_lt.mp h)

end MstFrameZero

section MstLocalStep

variable {K V H : Type} [LinearOrder K] [DecidableEq H]

/-- Every payload of a Wf node satisfies the node's upper bound. -/
theorem wf_payload_le {repo : NodeRepo H (MstNode K V H)} :
    ∀ {lo hi : Option K} {n : MstNode K V H}, Wf repo lo hi n →
      ∀ k v, MstItem.payload k v ∈ n → KleH k hi := by
  intro lo hi n h
  induction h with
  | nil lo hi => intro k v hm; cases hm
  | pay lo hi k0 v0 rest hlo hhi hrest ih =>
    intro k v hm
    rcases List.mem_cons.mp hm with hm1 | hm1
    · injection hm1 with e1 _
      rw [e1]
      exact hhi
    · exact ih k v hm1
  | ref lo hi h0 child rest hget hchild hnr hrest ihc ihr =>
    intro k v hm
    rcases List.mem_cons.mp hm with hm1 | hm1
    · cases hm1
    · exact ihr k v hm1

/-- The insert_local step: the split contract at the inner fuel yields the
insert_local contract at the next fuel. -/
theorem local_spec_step (lev : K → Nat) (hashN : MstNode K V H → H) (fuel : Nat)
    (ihS : SplitSpec lev hashN fuel) : LocalSpec lev hashN (fuel + 1) := by
  intro repo node key value repo' node' lo hi h hinj hrh hrlh hnh hwf hlok hkhi
  simp only [MstNode.insert_local] at h
  rcases scan_local_spec key node 0 none false with
    ⟨pre, w, post, hdec, hgt, hres⟩ | ⟨pre, b, vb, post, hdec, hgt, hltb, hres⟩ | ⟨hgt, hres⟩
  · -- found: in-place value replacement
    rw [hres] at h
    simp only [Except.ok.injEq, Prod.mk.injEq] at h
    obtain ⟨he1, he2⟩ := h
    subst he1
    have hsv : MstNode.set_value node (0 + pre.length) value =
        pre ++ .payload key value :: post := by
      rw [Nat.zero_add, hdec]
      exact set_value_append_mid pre key w value post
    rw [hsv] at he2
    subst he2
    refine ⟨?_, ?_, ?_⟩
    · rw [hdec] at hwf
      refine wf_splice (Evolves.refl repo : Evolves hashN repo repo) pre lo ?_ ?_ ?_ hwf
      · exact .inr ⟨rfl, rfl⟩
      · intro k v hm
        exact wf_payload_le hwf k v (List.mem_append_left _ hm)
      · intro hys
        cases hys with
        | pay _ _ _ _ _ hlo2 hhi2 hrest2 => exact .pay _ _ _ _ _ hlo2 hhi2 hrest2
    · exact findr_pass_intro pre hgt (.pay_eq _ key value post (compare_self_eq key))
    · intro k' r hne hfr
      rw [hdec] at hfr
      refine findr_congr (Evolves.refl repo : Evolves hashN repo repo) pre ?_ hfr
      intro r2 h2
      generalize enterPrev none pre = pv at h2 ⊢
      cases h2 with
      | pay_eq _ _ _ _ hcmp => exact absurd (compare_eq_iff_eq.mp hcmp) hne
      | pay_lt_ref h1 child _ _ _ _ hcmp hget hc =>
        exact .pay_lt_ref h1 child _ _ _ _ hcmp hget hc
      | pay_lt_plain _ _ _ _ hcmp hnr => exact .pay_lt_plain _ _ _ _ hcmp hnr
      | pay_gt _ _ _ _ _ hcmp hc =>
        refine .pay_gt _ _ _ _ _ hcmp ?_
        refine findr_prev_nonref ?_ ?_ hc <;> rfl
  · -- stopped strictly below payload b
    rw [hres] at h
    simp only at h
    have hlen : ¬ (0 + pre.length = node.length) := by
      rw [hdec]
      simp only [List.length_append, List.length_cons]
      omega
    rw [if_neg hlen] at h
    by_cases hlr : 0 < 0 + pre.length ∧ lastRefB false pre = true
    · -- split target: the reference directly before the stop position
      rw [if_pos hlr] at h
      obtain ⟨pre2, h2, hpre⟩ := lastRefB_decomp hlr.2
      have hlen2 : pre.length = pre2.length + 1 := by
        rw [hpre]
        simp
      have hnodedec : node = pre2 ++ .ref h2 :: .payload b vb :: post := by
        rw [hdec, hpre, List.append_assoc]
        rfl
      have hat : node[0 + pre.length - 1]? = some (MstItem.ref h2) := by
        rw [show 0 + pre.length - 1 = pre2.length from by omega, hnodedec]
        exact getElem?_append_mid pre2 _ _
      simp only at h
      rw [hat] at h
      simp only [MstNode.load] at h
      cases hget : getNode repo h2 with
      | none =>
        rw [hget] at h
        simp only [bind, Except.bind] at h
        cases h
      | some child =>
        rw [hget] at h
        simp only [bind, Except.bind] at h
        cases hsp : MstNode.split lev hashN fuel repo child key with
        | error e => rw [hsp] at h; cases h
        | ok res =>
          obtain ⟨repo1, lh, rh⟩ := res
          rw [hsp] at h
          simp only [Except.ok.injEq, Prod.mk.injEq] at h
          obtain ⟨he1, he2⟩ := h
          subst he1
          have htake : node.take (0 + pre.length - 1) = pre2 := by
            rw [show 0 + pre.length - 1 = pre2.length from by omega, hnodedec]
            exact take_append_mid pre2 _
          have hdrop : node.drop (0 + pre.length - 1 + 1) = .payload b vb :: post := by
            rw [show 0 + pre.length - 1 + 1 = pre2.length + 1 from by omega, hnodedec]
            exact drop_append_succ pre2 _ _
          rw [htake, hdrop] at he2
          subst he2
          have hev : Evolves hashN repo repo1 :=
            (mst_ops_evolve lev hashN fuel).2.2.2 _ _ _ _ _ _ hsp
          have hwf2 : Wf repo (lastPayloadBound lo pre2) hi
              (.ref h2 :: .payload b vb :: post) := by
            rw [hnodedec] at hwf
            exact wf_suffix pre2 hwf
          have hchildwf : Wf repo (lastPayloadBound lo pre2) (some b) child := by
            cases hwf2 with
            | ref _ _ _ child0 _ hget0 hchild0 hnr0 hrest0 =>
              rw [hget] at hget0
              injection hget0 with e
              subst e
              exact hchild0
          have hrestwf : Wf repo (lastPayloadBound lo pre2) hi
              (.payload b vb :: post) := by
            cases hwf2 with
            | ref _ _ _ child0 _ hget0 hchild0 hnr0 hrest0 => exact hrest0
          have hch : MstNode.levelHomog lev child := by
            obtain ⟨hh, hmem⟩ := getNode_mem hget
            exact hrlh _ hmem
          obtain ⟨lN, rN, hglN, hgrN, hwlN, hwrN, hfl, hfr2⟩ :=
            ihS repo child key repo1 lh rh _ _ hsp hinj hrh hrlh hch hchildwf
          have hgt2 : ∀ k0 v0, MstItem.payload k0 v0 ∈ pre2 → compare key k0 = .gt :=
            fun k0 v0 hm => hgt k0 v0 (by rw [hpre]; exact List.mem_append_left _ hm)
          have hkb : key < b := compare_lt_iff_lt.mp hltb
          refine ⟨?_, ?_, ?_⟩
          · rw [List.append_assoc]
            rw [hnodedec] at hwf
            refine wf_splice hev pre2 lo (.inl (wf_no_adjacent pre2 hwf)) ?_ ?_ hwf
            · intro k v hm
              exact wf_payload_le hwf k v (List.mem_append_left _ hm)
            · intro hys
              refine .ref _ _ _ lN _ hglN hwlN rfl ?_
              refine .pay _ _ _ _ _ (lastPayloadBound_lt pre2 hlok hgt2) hkhi ?_
              refine .ref _ _ _ rN _ hgrN hwrN rfl ?_
              refine wf_lower_retarget (wf_mono hev hrestwf) ?_
              intro a ha
              injection ha with ha
              rw [← ha]
              exact hkb
          · rw [List.append_assoc]
            refine findr_pass_intro pre2 hgt2 ?_
            exact .step_ref _ lh _ _ (.pay_eq _ key value _ (compare_self_eq key))
          · intro k' r hne hfr
            rw [hnodedec] at hfr
            rw [List.append_assoc]
            refine findr_congr hev pre2 ?_ hfr
            intro r2 hx
            generalize enterPrev none pre2 = pv at hx ⊢
            cases hx with
            | step_ref _ _ _ _ hc =>
              cases hc with
              | pay_eq _ _ _ _ hcmp =>
                refine .step_ref _ lh _ _ (.pay_gt _ key value _ _ ?_
                  (.step_ref _ rh _ _ (.pay_eq _ b vb post hcmp)))
                have hkb2 : k' = b := compare_eq_iff_eq.mp hcmp
                rw [hkb2]
                exact compare_flip_gt hltb
              | pay_lt_ref _ child2 _ _ _ _ hcmp hget2b hc2 =>
                rw [hget] at hget2b
                injection hget2b with e
                subst e
                cases hcmp' : compare k' key with
                | eq => exact absurd (compare_eq_iff_eq.mp hcmp') hne
                | lt =>
                  refine .step_ref _ lh _ _ (.pay_lt_ref lh lN key value _ r2 hcmp' hglN ?_)
                  exact hfl k' r2 (by rw [hcmp']; simp) hc2
                | gt =>
                  refine .step_ref _ lh _ _ (.pay_gt _ key value _ _ hcmp'
                    (.step_ref _ rh _ _ (.pay_lt_ref rh rN b vb post r2 hcmp hgrN ?_)))
                  exact hfr2 k' r2 hcmp' hc2
              | pay_lt_plain _ _ _ _ hcmp hnr => cases hnr
              | pay_gt _ _ _ _ _ hcmp hc2 =>
                have hkk : compare k' key = .gt :=
                  compare_gt_iff_gt.mpr (lt_trans hkb (compare_gt_iff_gt.mp hcmp))
                exact .step_ref _ lh _ _ (.pay_gt _ key value _ _ hkk
                  (.step_ref _ rh _ _ (.pay_gt _ b vb post r2 hcmp (findr_mono hev hc2))))
    · -- plain insertion before payload b
      rw [if_neg hlr] at h
      simp only [Except.ok.injEq, Prod.mk.injEq] at h
      obtain ⟨he1, he2⟩ := h
      subst he1
      have hend : endNotRef pre = true := by
        rcases Decidable.not_and_iff_or_not.mp hlr with hz | hz
        · have : pre.length = 0 := by omega
          rw [List.length_eq_zero.mp this]
          rfl
        · exact lastRefB_false_endNotRef (Bool.eq_false_iff.mpr hz)
      have hins : node.insertIdx (0 + pre.length) (.payload key value) =
          pre ++ .payload key value :: .payload b vb :: post := by
        rw [Nat.zero_add, hdec]
        exact insertIdx_append_mid pre _ _
      rw [hins] at he2
      subst he2
      have hkb : key < b := compare_lt_iff_lt.mp hltb
      refine ⟨?_, ?_, ?_⟩
      · rw [hdec] at hwf
        refine wf_splice (Evolves.refl repo : Evolves hashN repo repo) pre lo (.inl hend) ?_ ?_ hwf
        · intro k v hm
          exact wf_payload_le hwf k v (List.mem_append_left _ hm)
        · intro hys
          refine .pay _ _ _ _ _ (lastPayloadBound_lt pre hlok hgt) hkhi ?_
          refine wf_lower_retarget hys ?_
          intro a ha
          injection ha with ha
          rw [← ha]
          exact hkb
      · exact findr_pass_intro pre hgt (.pay_eq _ key value _ (compare_self_eq key))
      · intro k' r hne hfr
        rw [hdec] at hfr
        refine findr_congr (Evolves.refl repo : Evolves hashN repo repo) pre ?_ hfr
        intro r2 hx
        have hpnr : notRefO (enterPrev none pre) = true := hend
        generalize enterPrev none pre = pv at hx hpnr ⊢
        cases hcmp' : compare k' key with
        | eq => exact absurd (compare_eq_iff_eq.mp hcmp') hne
        | lt =>
          have hklt : compare k' b = .lt :=
            compare_lt_iff_lt.mpr (lt_trans (compare_lt_iff_lt.mp hcmp') hkb)
          cases hx with
          | pay_eq _ _ _ _ hcmp => rw [hcmp] at hklt; cases hklt
          | pay_lt_ref h1 child _ _ _ _ hcmp hget hc => exact Bool.noConfusion hpnr
          | pay_lt_plain _ _ _ _ hcmp hnr =>
            exact .pay_lt_plain _ _ _ _ hcmp' hnr
          | pay_gt _ _ _ _ _ hcmp hc2 => rw [hcmp] at hklt; cases hklt
        | gt =>
          refine .pay_gt _ key value _ r2 hcmp' ?_
          refine findr_prev_nonref hpnr ?_ hx
          rfl
  · -- stopped at the end of the node
    rw [hres] at h
    simp only at h
    rw [if_pos (by omega : 0 + node.length = node.length)] at h
    cases hlast : node.getLast? with
    | some it =>
      cases it with
      | ref h2 =>
        rw [hlast] at h
        rw [if_pos rfl] at h
        simp only at h
        obtain ⟨pre2, hpre⟩ := getLast?_decomp hlast
        have hat : node[node.length - 1]? = some (MstItem.ref h2) := by
          rw [show node.length - 1 = pre2.length from by rw [hpre]; simp, hpre]
          exact getElem?_append_mid pre2 _ _
        rw [hat] at h
        simp only [MstNode.load] at h
        cases hget : getNode repo h2 with
        | none =>
          rw [hget] at h
          simp only [bind, Except.bind] at h
          cases h
        | some child =>
          rw [hget] at h
          simp only [bind, Except.bind] at h
          cases hsp : MstNode.split lev hashN fuel repo child key with
          | error e => rw [hsp] at h; cases h
          | ok res =>
            obtain ⟨repo1, lh, rh⟩ := res
            rw [hsp] at h
            simp only [Except.ok.injEq, Prod.mk.injEq] at h
            obtain ⟨he1, he2⟩ := h
            subst he1
            have htake : node.take (node.length - 1) = pre2 := by
              rw [show node.length - 1 = pre2.length from by rw [hpre]; simp, hpre]
              exact take_append_mid pre2 _
            have hdrop : node.drop (node.length - 1 + 1) = [] := by
              rw [show node.length - 1 + 1 = pre2.length + 1 from by rw [hpre]; simp, hpre]
              exact drop_append_succ pre2 _ _
            rw [htake, hdrop] at he2
            rw [List.append_nil] at he2
            subst he2
            have hev : Evolves hashN repo repo1 :=
              (mst_ops_evolve lev hashN fuel).2.2.2 _ _ _ _ _ _ hsp
            have hwf2 : Wf repo (lastPayloadBound lo pre2) hi ([MstItem.ref h2]) := by
              rw [hpre] at hwf
              exact wf_suffix pre2 hwf
            have hchildwf : Wf repo (lastPayloadBound lo pre2) hi child := by
              cases hwf2 with
              | ref _ _ _ child0 _ hget0 hchild0 hnr0 hrest0 =>
                rw [hget] at hget0
                injection hget0 with e
                subst e
                exact hchild0
            have hch : MstNode.levelHomog lev child := by
              obtain ⟨hh, hmem⟩ := getNode_mem hget
              exact hrlh _ hmem
            obtain ⟨lN, rN, hglN, hgrN, hwlN, hwrN, hfl, hfr2⟩ :=
              ihS repo child key repo1 lh rh _ _ hsp hinj hrh hrlh hch hchildwf
            have hgt2 : ∀ k0 v0, MstItem.payload k0 v0 ∈ pre2 → compare key k0 = .gt :=
              fun k0 v0 hm => hgt k0 v0 (by rw [hpre]; exact List.mem_append_left _ hm)
            refine ⟨?_, ?_, ?_⟩
            · rw [hpre] at hwf
              refine wf_splice hev pre2 lo (.inl (wf_no_adjacent pre2 hwf)) ?_ ?_ hwf
              · intro k v hm
                exact wf_payload_le hwf k v (List.mem_append_left _ hm)
              · intro hys
                refine .ref _ _ _ lN _ hglN hwlN rfl ?_
                refine .pay _ _ _ _ _ (lastPayloadBound_lt pre2 hlok hgt2) hkhi ?_
                refine .ref _ _ _ rN _ hgrN hwrN rfl ?_
                exact .nil _ _
            · refine findr_pass_intro pre2 hgt2 ?_
              exact .step_ref _ lh _ _ (.pay_eq _ key value _ (compare_self_eq key))
            · intro k' r hne hfr
              rw [hpre] at hfr
              refine findr_congr hev pre2 ?_ hfr
              intro r2 hx
              generalize enterPrev none pre2 = pv at hx ⊢
              cases hx with
              | step_ref _ _ _ _ hc =>
                cases hc with
                | nil_plain _ hnr => cases hnr
                | nil_ref _ child2 _ hget2b hc2 =>
                  rw [hget] at hget2b
                  injection hget2b with e
                  subst e
                  cases hcmp' : compare k' key with
                  | eq => exact absurd (compare_eq_iff_eq.mp hcmp') hne
                  | lt =>
                    refine .step_ref _ lh _ _ (.pay_lt_ref lh lN key value _ r2 hcmp' hglN ?_)
                    exact hfl k' r2 (by rw [hcmp']; simp) hc2
                  | gt =>
                    refine .step_ref _ lh _ _ (.pay_gt _ key value _ _ hcmp'
                      (.step_ref _ rh _ _ (.nil_ref rh rN r2 hgrN ?_)))
                    exact hfr2 k' r2 hcmp' hc2
      | payload kl vl =>
        rw [hlast] at h
        rw [if_neg (fun hh => Bool.noConfusion hh)] at h
        simp only [Except.ok.injEq, Prod.mk.injEq] at h
        obtain ⟨he1, he2⟩ := h
        subst he1
        have hins : node.insertIdx (0 + node.length) (.payload key value) =
            node ++ [.payload key value] := by
          rw [Nat.zero_add]
          have := insertIdx_append_mid node [] (MstItem.payload key value)
          rw [List.append_nil] at this
          exact this
        rw [hins] at he2
        subst he2
        have hend : endNotRef node = true := by
          show notRefO (enterPrev none node) = true
          unfold enterPrev
          rw [hlast]
          rfl
        refine ⟨?_, ?_, ?_⟩
        · have hwf3 : Wf repo lo hi (node ++ []) := by rw [List.append_nil]; exact hwf
          refine wf_splice (Evolves.refl repo : Evolves hashN repo repo) node lo (.inl hend) ?_ ?_ hwf3
          · intro k v hm
            exact wf_payload_le hwf k v hm
          · intro _
            exact .pay _ _ _ _ _ (lastPayloadBound_lt node hlok hgt) hkhi (.nil _ _)
        · exact findr_pass_intro node hgt (.pay_eq _ key value _ (compare_self_eq key))
        · intro k' r hne hfr
          have hfr3 : FindR repo k' none (node ++ []) r := by
            rw [List.append_nil]
            exact hfr
          refine findr_congr (Evolves.refl repo : Evolves hashN repo repo) node ?_ hfr3
          intro r2 hx
          have hpnr : notRefO (enterPrev none node) = true := hend
          generalize enterPrev none node = pv at hx hpnr ⊢
          cases hx with
          | nil_plain _ hnr =>
            cases hcmp' : compare k' key with
            | eq => exact absurd (compare_eq_iff_eq.mp hcmp') hne
            | lt => exact .pay_lt_plain _ _ _ _ hcmp' hnr
            | gt => exact .pay_gt _ key value _ _ hcmp' (.nil_plain _ rfl)
          | nil_ref h1 child _ hget hc => exact Bool.noConfusion hpnr
    | none =>
      rw [hlast] at h
      rw [if_neg (fun hh => Bool.noConfusion hh)] at h
      simp only [Except.ok.injEq, Prod.mk.injEq] at h
      obtain ⟨he1, he2⟩ := h
      subst he1
      have hnil : node = [] := List.getLast?_eq_none_iff.mp hlast
      subst hnil
      simp only [List.insertIdx] at he2
      subst he2
      refine ⟨?_, ?_, ?_⟩
      · exact .pay _ _ _ _ _ hlok hkhi (.nil _ _)
      · exact .pay_eq _ key value _ (compare_self_eq key)
      · intro k' r hne hfr
        cases hfr with
        | nil_plain _ hnr =>
          cases hcmp' : compare k' key with
          | eq => exact absurd (compare_eq_iff_eq.mp hcmp') hne
          | lt => exact .pay_lt_plain _ _ _ _ hcmp' rfl
          | gt => exact .pay_gt _ key value _ _ hcmp' (.nil_plain _ rfl)

end MstLocalStep

section ChunkSpec

variable {K V H : Type} [DecidableEq H]

/-- The hash returned by putNode is always the node's hash. -/
theorem putNode_snd {α : Type} (hashF : α → H) (repo : NodeRepo H α) (n : α) :
    (putNode hashF repo n).2 = hashF n := by
  simp only [putNode]
  split <;> rfl

/-- After a put into a content-addressed repo with injective hash, the
stored node resolves to itself. -/
theorem putNode_getNode_self_inj {α : Type} {hashF : α → H}
    (hinj : Function.Injective hashF) {repo : NodeRepo H α}
    (hr : repoHashed hashF repo) (n : α) :
    getNode (putNode hashF repo n).1 (hashF n) = some n := by
  obtain ⟨m, hm⟩ : ∃ m, getNode (putNode hashF repo n).1 (hashF n) = some m :=
    putNode_getNode_self repo n
  have hr' := putNode_repoHashed hr n
  have := getNode_of_repoHashed hr' hinj hm
  rw [hm, this]

/-- The specification of the chunking loop: its chunks are exactly the
spec partition of the carried chunk followed by the remaining items, the
emitted refs extend the accumulator with one ref per chunk, every chunk is
non-empty, each ref carries the first key of its chunk and the chunk's
hash, and each chunk is persisted in the resulting repo. -/
theorem chunkAux_spec (kb : K → List Nat) (hashP : PtNode K V H → H)
    (hinj : Function.Injective hashP) :
    ∀ (items : PtNode K V H) repo hasher (chunk acc : PtNode K V H),
      repoHashed hashP repo →
      ∃ newrefs,
        (specChunkPartitionAux kb hasher chunk items).join = chunk ++ items ∧
        (∀ c ∈ specChunkPartitionAux kb hasher chunk items, c ≠ []) ∧
        (PtNode.chunkAux kb hashP repo hasher chunk acc items).2 = acc ++ newrefs ∧
        List.Forall₂ (fun (c : PtNode K V H) (r : PtItem K V H) =>
          (∃ c0 crest, c = c0 :: crest ∧ r = PtItem.ref (PtItem.key c0) (hashP c)) ∧
          getNode (PtNode.chunkAux kb hashP repo hasher chunk acc items).1 (hashP c) = some c)
          (specChunkPartitionAux kb hasher chunk items) newrefs := by
  intro items
  induction items with
  | nil =>
    intro repo hasher chunk acc hr
    cases hc : chunk with
    | nil =>
      refine ⟨[], by simp [specChunkPartitionAux], by simp [specChunkPartitionAux], ?_, ?_⟩
      · simp [PtNode.chunkAux]
      · simp [specChunkPartitionAux, List.Forall₂]
    | cons c0 crest =>
      refine ⟨[PtItem.ref (PtItem.key c0) (hashP (c0 :: crest))],
        by simp [specChunkPartitionAux], by simp [specChunkPartitionAux], ?_, ?_⟩
      · simp only [PtNode.chunkAux, PtNode.save]
        rw [putNode_snd]
      · show List.Forall₂ _ [c0 :: crest] _
        constructor
        · refine ⟨⟨c0, crest, rfl, rfl⟩, ?_⟩
          simp only [PtNode.chunkAux, PtNode.save]
          exact putNode_getNode_self_inj hinj hr _
        · exact List.Forall₂.nil
  | cons it rest ih =>
    intro repo hasher chunk acc hr
    by_cases hb : (hasher.feed (kb (PtItem.key it))).is_boundary
    · -- boundary: the chunk so far plus this item is emitted
      obtain ⟨c0, crest, hc1⟩ : ∃ c0 crest, chunk ++ [it] = c0 :: crest := by
        cases chunk with
        | nil => exact ⟨it, [], rfl⟩
        | cons x xs => exact ⟨x, xs ++ [it], by simp⟩
      have hstep : PtNode.chunkAux kb hashP repo hasher chunk acc (it :: rest) =
          PtNode.chunkAux kb hashP
            (PtNode.save hashP repo (chunk ++ [it])).1
            (hasher.feed (kb (PtItem.key it))) []
            (acc ++ [PtItem.ref (PtItem.key c0) (PtNode.save hashP repo (chunk ++ [it])).2])
            rest := by
        simp only [PtNode.chunkAux, hb, if_true]
        rw [hc1]
      have hsc : specChunkPartitionAux kb hasher chunk (it :: rest) =
          (chunk ++ [it]) ::
            specChunkPartitionAux (H := H) kb (hasher.feed (kb (PtItem.key it))) [] rest := by
        simp only [specChunkPartitionAux, hb, if_true]
      have hr1 : repoHashed hashP (PtNode.save hashP repo (chunk ++ [it])).1 :=
        putNode_repoHashed hr _
      obtain ⟨refsI, hjoinI, hneI, haccI, hforI⟩ :=
        ih (PtNode.save hashP repo (chunk ++ [it])).1
          (hasher.feed (kb (PtItem.key it))) []
          (acc ++ [PtItem.ref (PtItem.key c0) (PtNode.save hashP repo (chunk ++ [it])).2])
          hr1
      refine ⟨PtItem.ref (PtItem.key c0) (hashP (chunk ++ [it])) :: refsI, ?_, ?_, ?_, ?_⟩
      · rw [hsc]
        rw [show ((chunk ++ [it]) ::
            specChunkPartitionAux (H := H) kb (hasher.feed (kb (PtItem.key it))) [] rest).join =
            (chunk ++ [it]) ++
              (specChunkPartitionAux (H := H) kb
                (hasher.feed (kb (PtItem.key it))) [] rest).join from rfl, hjoinI]
        simp
      · rw [hsc]
        intro c hc
        rcases List.mem_cons.mp hc with hcm | hcm
        · rw [hcm, hc1]
          simp
        · exact hneI c hcm
      · rw [hstep, haccI]
        simp only [PtNode.save, putNode_snd]
        simp
      · rw [hsc]
        constructor
        · refine ⟨⟨c0, crest, hc1, rfl⟩, ?_⟩
          rw [hstep]
          have hself : getNode (PtNode.save hashP repo (chunk ++ [it])).1
              (hashP (chunk ++ [it])) = some (chunk ++ [it]) :=
            putNode_getNode_self_inj hinj hr _
          exact (chunkAux_evolves kb hashP rest _ _ _ _).getNode_mono hself
        · rw [hstep]
          refine List.Forall₂.imp ?_ hforI
          intro c r hcr
          exact ⟨hcr.1, hcr.2⟩
    · -- no boundary: the item joins the carried chunk
      have hstep : PtNode.chunkAux kb hashP repo hasher chunk acc (it :: rest) =
          PtNode.chunkAux kb hashP repo
            (hasher.feed (kb (PtItem.key it))) (chunk ++ [it]) acc rest := by
        simp only [PtNode.chunkAux, hb]
        simp
      have hsc : specChunkPartitionAux kb hasher chunk (it :: rest) =
          specChunkPartitionAux (H := H) kb
            (hasher.feed (kb (PtItem.key it))) (chunk ++ [it]) rest := by
        simp only [specChunkPartitionAux, hb]
        simp
      obtain ⟨refsI, hjoinI, hneI, haccI, hforI⟩ :=
        ih repo (hasher.feed (kb (PtItem.key it))) (chunk ++ [it]) acc hr
      refine ⟨refsI, ?_, ?_, ?_, ?_⟩
      · rw [hsc, hjoinI]
        simp
      · rw [hsc]
        exact hneI
      · rw [hstep, haccI]
      · rw [hsc, hstep]
        exact hforI

/-- C6: PT chunk_and_save partitions the input items, in order, into the
chunks cut by the rolling hash boundaries of the cumulatively fed key
bytes (never reset), with the final non-empty chunk emitted after the
loop; each returned ref carries the first key of its chunk and the hash of
the persisted chunk node. -/
theorem c6_chunk_and_save (kb : K → List Nat) (hashP : PtNode K V H → H)
    (hinj : Function.Injective hashP) (repo : NodeRepo H (PtNode K V H))
    (items : PtNode K V H) (hr : repoHashed hashP repo) :
    (specChunkPartition kb items).join = items ∧
    (∀ c ∈ specChunkPartition (H := H) kb items, c ≠ []) ∧
    List.Forall₂ (fun (c : PtNode K V H) (r : PtItem K V H) =>
      (∃ c0 crest, c = c0 :: crest ∧ r = PtItem.ref (PtItem.key c0) (hashP c)) ∧
      getNode (PtNode.chunk_and_save kb hashP repo items).1 (hashP c) = some c)
      (specChunkPartition kb items) (PtNode.chunk_and_save kb hashP repo items).2 := by
  obtain ⟨newrefs, h1, h2, h3, h4⟩ :=
    chunkAux_spec kb hashP hinj items repo RollingHash.new [] [] hr
  refine ⟨by simpa using h1, h2, ?_⟩
  show List.Forall₂ _ _ (PtNode.chunkAux kb hashP repo RollingHash.new [] [] items).2
  rw [h3]
  simpa using h4

/-- Witness: C6 at a concrete two-item write with the injective encoding
hash and single-byte keys. -/
theorem c6_chunk_and_save_witness :
    Function.Injective (phashN : PtNode Nat Nat Nat → Nat) ∧
    repoHashed phashN ([] : NodeRepo Nat (PtNode Nat Nat Nat)) ∧
    ((specChunkPartition (H := Nat) (V := Nat) (fun n => [n])
        [PtItem.payload 1 2, PtItem.payload 3 4]).join =
        [PtItem.payload 1 2, PtItem.payload 3 4] ∧
      (∀ c ∈ specChunkPartition (H := Nat) (V := Nat) (fun n => [n])
        [PtItem.payload 1 2, PtItem.payload 3 4], c ≠ []) ∧
      List.Forall₂ (fun (c : PtNode Nat Nat Nat) (r : PtItem Nat Nat Nat) =>
        (∃ c0 crest, c = c0 :: crest ∧ r = PtItem.ref (PtItem.key c0) (phashN c)) ∧
        getNode (PtNode.chunk_and_save (fun n => [n]) phashN []
          [PtItem.payload 1 2, PtItem.payload 3 4]).1 (phashN c) = some c)
        (specChunkPartition (fun n => [n]) [PtItem.payload 1 2, PtItem.payload 3 4])
        (PtNode.chunk_and_save (fun n => [n]) phashN []
          [PtItem.payload 1 2, PtItem.payload 3 4]).2) :=
  ⟨fun a b h => Encodable.encode_injective h,
   fun p hp => absurd hp (List.not_mem_nil p),
   c6_chunk_and_save (fun n => [n]) phashN
     (fun a b h => Encodable.encode_injective h) []
     [PtItem.payload 1 2, PtItem.payload 3 4]
     (fun p hp => absurd hp (List.not_mem_nil p))⟩

end ChunkSpec

section MstSplitStep

variable {K V H : Type} [LinearOrder K] [DecidableEq H]

/-- Hash of the first stored half of a split. -/
theorem putNode_two_getNode_left {hashN : MstNode K V H → H}
    (hinj : Function.Injective hashN) {repo : NodeRepo H (MstNode K V H)}
    (hrh : repoHashed hashN repo) (lN rN : MstNode K V H) :
    getNode (putNode hashN (putNode hashN repo lN).1 rN).1
      (putNode hashN repo lN).2 = some lN := by
  rw [putNode_snd]
  have h1 : getNode (putNode hashN repo lN).1 (hashN lN) = some lN :=
    putNode_getNode_self_inj hinj hrh lN
  exact (Evolves.put _ _ rN (.refl _)).getNode_mono h1

/-- Hash of the second stored half of a split. -/
theorem putNode_two_getNode_right {hashN : MstNode K V H → H}
    (hinj : Function.Injective hashN) {repo : NodeRepo H (MstNode K V H)}
    (hrh : repoHashed hashN repo) (lN rN : MstNode K V H) :
    getNode (putNode hashN (putNode hashN repo lN).1 rN).1
      (putNode hashN (putNode hashN repo lN).1 rN).2 = some rN := by
  rw [putNode_snd]
  exact putNode_getNode_self_inj hinj (putNode_repoHashed hrh lN) rN

/-- The split step: the split contract at the inner fuel yields it at the
next fuel. -/
theorem split_spec_step (lev : K → Nat) (hashN : MstNode K V H → H) (fuel : Nat)
    (ihS : SplitSpec lev hashN fuel) : SplitSpec lev hashN (fuel + 1) := by
  intro repo node skey repo' lh rh lo hi h hinj hrh hrlh hnh hwf
  simp only [MstNode.split] at h
  cases hfi : List.findIdx? (fun it =>
      match it with
      | MstItem.payload k _ => compare k skey == Ordering.gt
      | MstItem.ref _ => false) node 0 with
  | some si0 =>
    rw [hfi] at h
    simp only [Option.getD] at h
    obtain ⟨preS, x, postS, hdec, hsi0, hpreF, hx⟩ := findIdx?_some_spec node 0 hfi
    cases x with
    | ref hx2 => simp at hx
    | payload bG vG =>
    have hx' : (compare bG skey == Ordering.gt) = true := hx
    have hbG : compare bG skey = Ordering.gt := by
      cases hcc : compare bG skey with
      | gt => rfl
      | lt => rw [hcc] at hx'; cases hx'
      | eq => rw [hcc] at hx'; cases hx'
    have hle : ∀ k v, MstItem.payload k v ∈ preS → k ≤ skey := by
      intro k v hm
      have hy : (compare k skey == Ordering.gt) = false := hpreF _ hm
      by_contra hlt
      rw [compare_gt_iff_gt.mpr (lt_of_not_le hlt)] at hy
      cases hy
    have hgtlt : skey < bG := compare_gt_iff_gt.mp hbG
    by_cases hz : 0 < si0
    · -- stop strictly inside the node
      rw [if_pos hz] at h
      have hlenp : preS.length = si0 := by omega
      cases hlp : preS.getLast? with
      | some it =>
        obtain ⟨pre3, hp3⟩ := getLast?_decomp hlp
        have hlen3 : preS.length = pre3.length + 1 := by rw [hp3]; simp
        have hat : node[si0 - 1]? = some it := by
          rw [show si0 - 1 = pre3.length from by omega, hdec, hp3, List.append_assoc]
          exact getElem?_append_mid pre3 _ _
        cases it with
        | ref h2 =>
          -- boundary child reference: recursive split
          simp only [hat, MstNode.load] at h
          have hnodedec : node = pre3 ++ MstItem.ref h2 :: MstItem.payload bG vG :: postS := by
            rw [hdec, hp3, List.append_assoc]
            rfl
          cases hget : getNode repo h2 with
          | none =>
            rw [hget] at h
            simp only [bind, Except.bind] at h
            cases h
          | some child =>
            rw [hget] at h
            simp only [bind, Except.bind] at h
            cases hsp : MstNode.split lev hashN fuel repo child skey with
            | error e => rw [hsp] at h; cases h
            | ok res =>
              obtain ⟨repo1, clh, crh⟩ := res
              rw [hsp] at h
              simp only [Except.ok.injEq, Prod.mk.injEq] at h
              obtain ⟨he1, he2, he3⟩ := h
              have htake : node.take (si0 - 1) = pre3 := by
                rw [show si0 - 1 = pre3.length from by omega, hnodedec]
                exact take_append_mid pre3 _
              have hdrop : node.drop (si0 - 1 + 1) = MstItem.payload bG vG :: postS := by
                rw [show si0 - 1 + 1 = pre3.length + 1 from by omega, hnodedec]
                exact drop_append_succ pre3 _ _
              rw [htake] at he1 he2 he3
              rw [hdrop] at he1 he3
              have hev1 : Evolves hashN repo repo1 :=
                (mst_ops_evolve lev hashN fuel).2.2.2 _ _ _ _ _ _ hsp
              have hrh1 : repoHashed hashN repo1 := hev1.repoHashed_mono hrh
              have hwf2 : Wf repo (lastPayloadBound lo pre3) hi
                  (MstItem.ref h2 :: MstItem.payload bG vG :: postS) := by
                rw [hnodedec] at hwf
                exact wf_suffix pre3 hwf
              have hchildwf : Wf repo (lastPayloadBound lo pre3) (some bG) child := by
                cases hwf2 with
                | ref _ _ _ child0 _ hget0 hchild0 hnr0 hrest0 =>
                  rw [hget] at hget0
                  injection hget0 with e
                  subst e
                  exact hchild0
              have hrestwf : Wf repo (lastPayloadBound lo pre3) hi
                  (MstItem.payload bG vG :: postS) := by
                cases hwf2 with
                | ref _ _ _ child0 _ hget0 hchild0 hnr0 hrest0 => exact hrest0
              have hch : MstNode.levelHomog lev child := by
                obtain ⟨hh, hmem⟩ := getNode_mem hget
                exact hrlh _ hmem
              obtain ⟨lN', rN', hglN, hgrN, hwlN, hwrN, hfl, hfr2⟩ :=
                ihS repo child skey repo1 clh crh _ _ hsp hinj hrh hrlh hch hchildwf
              set leftN : MstNode K V H := pre3 ++ [MstItem.ref clh] with hLdef
              set rightN : MstNode K V H :=
                MstItem.ref crh :: MstItem.payload bG vG :: postS with hRdef
              have hevL : Evolves hashN repo1 (putNode hashN repo1 leftN).1 :=
                .put _ _ _ (.refl _)
              have hevR : Evolves hashN (putNode hashN repo1 leftN).1
                  (putNode hashN (putNode hashN repo1 leftN).1 rightN).1 :=
                .put _ _ _ (.refl _)
              have hev1' : Evolves hashN repo1
                  (putNode hashN (putNode hashN repo1 leftN).1 rightN).1 :=
                hevL.trans hevR
              have hevAll : Evolves hashN repo
                  (putNode hashN (putNode hashN repo1 leftN).1 rightN).1 :=
                hev1.trans hev1'
              subst he1
              refine ⟨leftN, rightN, ?_, ?_, ?_, ?_, ?_, ?_⟩
              · rw [← he2]
                exact putNode_two_getNode_left hinj hrh1 leftN rightN
              · rw [← he3]
                exact putNode_two_getNode_right hinj hrh1 leftN rightN
              · -- Wf leftN
                rw [hnodedec] at hwf
                refine wf_splice hevAll pre3 lo (.inl (wf_no_adjacent pre3 hwf)) ?_ ?_ hwf
                · intro k v hm
                  intro b2 hb2
                  injection hb2 with hb2
                  rw [← hb2]
                  exact hle k v (by rw [hp3]; exact List.mem_append_left _ hm)
                · intro _
                  refine .ref _ _ _ lN' _ (hev1'.getNode_mono hglN) ?_ rfl (.nil _ _)
                  exact wf_mono hev1' hwlN
              · -- Wf rightN
                refine .ref _ _ _ rN' _ (hev1'.getNode_mono hgrN) ?_ rfl ?_
                · exact wf_mono hev1' hwrN
                · refine wf_lower_retarget (wf_mono hevAll hrestwf) ?_
                  intro a ha
                  injection ha with ha
                  rw [← ha]
                  exact hgtlt
              · -- left frame
                intro k' r hkle hfr
                rw [hnodedec] at hfr
                refine findr_congr hevAll pre3 ?_ hfr
                intro r2 hx2
                generalize enterPrev none pre3 = pv at hx2 ⊢
                have hklt : compare k' bG = Ordering.lt := by
                  rcases hcc : compare k' skey with _ | _ | _
                  · exact compare_lt_iff_lt.mpr (lt_trans (compare_lt_iff_lt.mp hcc) hgtlt)
                  · exact compare_lt_iff_lt.mpr ((compare_eq_iff_eq.mp hcc) ▸ hgtlt)
                  · exact absurd hcc hkle
                cases hx2 with
                | step_ref _ _ _ _ hc =>
                  cases hc with
                  | pay_eq _ _ _ _ hcmp => rw [hcmp] at hklt; cases hklt
                  | pay_lt_plain _ _ _ _ _ hnr => cases hnr
                  | pay_gt _ _ _ _ _ hcmp => rw [hcmp] at hklt; cases hklt
                  | pay_lt_ref _ child2 _ _ _ _ hcmp hget2 hc2 =>
                    rw [hget] at hget2
                    injection hget2 with e
                    subst e
                    refine .step_ref _ clh _ _ (.nil_ref clh lN' r2 (hev1'.getNode_mono hglN) ?_)
                    exact findr_mono hev1' (hfl k' r2 hkle hc2)
              · -- right frame
                intro k' r hkgt hfr
                rw [hnodedec] at hfr
                have hpass : ∀ k0 v0, MstItem.payload k0 v0 ∈ pre3 → compare k' k0 = .gt := by
                  intro k0 v0 hm
                  refine compare_gt_iff_gt.mpr ?_
                  exact lt_of_le_of_lt
                    (hle k0 v0 (by rw [hp3]; exact List.mem_append_left _ hm))
                    (compare_gt_iff_gt.mp hkgt)
                have hx2 := findr_pass_elim pre3 hpass hfr
                generalize enterPrev none pre3 = pv at hx2
                cases hx2 with
                | step_ref _ _ _ _ hc =>
                  cases hc with
                  | pay_eq _ _ _ _ hcmp =>
                    exact .step_ref _ crh _ _ (.pay_eq _ bG vG postS hcmp)
                  | pay_lt_plain _ _ _ _ _ hnr => cases hnr
                  | pay_gt _ _ _ _ _ hcmp hc2 =>
                    exact .step_ref _ crh _ _
                      (.pay_gt _ bG vG postS r hcmp (findr_mono hevAll hc2))
                  | pay_lt_ref _ child2 _ _ _ _ hcmp hget2 hc2 =>
                    rw [hget] at hget2
                    injection hget2 with e
                    subst e
                    refine .step_ref _ crh _ _
                      (.pay_lt_ref crh rN' bG vG postS r hcmp (hev1'.getNode_mono hgrN) ?_)
                    exact findr_mono hev1' (hfr2 k' r hkgt hc2)
        | payload kp vp =>
          -- no reference at the boundary: plain cut before the stop payload
          simp only [hat] at h
          have hend : endNotRef preS = true := by
            show notRefO (enterPrev none preS) = true
            unfold enterPrev
            rw [hlp]
            rfl
          have htake : node.take si0 = preS := by

            rw [← hlenp, hdec]
            exact take_append_mid preS _
          have hdrop : node.drop si0 = MstItem.payload bG vG :: postS := by
            rw [← hlenp, hdec]
            exact List.drop_left preS _
          rw [htake, hdrop] at h
          simp only [Except.ok.injEq, Prod.mk.injEq] at h
          obtain ⟨he1, he2, he3⟩ := h
          subst he1
          have hevAll : Evolves hashN repo
              (putNode hashN (putNode hashN repo preS).1
                (MstItem.payload bG vG :: postS)).1 :=
            (Evolves.put _ _ _ (.refl _)).trans (.put _ _ _ (.refl _))
          refine ⟨preS, MstItem.payload bG vG :: postS, ?_, ?_, ?_, ?_, ?_, ?_⟩
          · rw [← he2]
            exact putNode_two_getNode_left hinj hrh preS _
          · rw [← he3]
            exact putNode_two_getNode_right hinj hrh preS _
          · -- Wf leftN
            rw [hdec] at hwf
            have hres : Wf (putNode hashN (putNode hashN repo preS).1
                (MstItem.payload bG vG :: postS)).1 lo (some skey)
                (preS ++ ([] : MstNode K V H)) := by
              refine wf_splice hevAll preS lo (.inl hend) ?_ ?_ hwf
              · intro k v hm
                intro b2 hb2
                injection hb2 with hb2
                rw [← hb2]
                exact hle k v hm
              · intro _
                exact .nil _ _
            rw [List.append_nil] at hres
            exact hres
          · -- Wf rightN
            rw [hdec] at hwf
            refine wf_lower_retarget (wf_mono hevAll (wf_suffix preS hwf)) ?_
            intro a ha
            injection ha with ha
            rw [← ha]
            exact hgtlt
          · -- left frame
            intro k' r hkle hfr
            rw [hdec] at hfr
            have hklt : compare k' bG = Ordering.lt := by
              rcases hcc : compare k' skey with _ | _ | _
              · exact compare_lt_iff_lt.mpr (lt_trans (compare_lt_iff_lt.mp hcc) hgtlt)
              · exact compare_lt_iff_lt.mpr ((compare_eq_iff_eq.mp hcc) ▸ hgtlt)
              · exact absurd hcc hkle
            have hres : FindR (putNode hashN (putNode hashN repo preS).1
                (MstItem.payload bG vG :: postS)).1 k' none
                (preS ++ ([] : MstNode K V H)) r := by
              refine findr_congr hevAll preS ?_ hfr
              intro r2 hx2
              have hpnr : notRefO (enterPrev none preS) = true := hend
              generalize enterPrev none preS = pv at hx2 hpnr ⊢
              cases hx2 with
              | pay_eq _ _ _ _ hcmp => rw [hcmp] at hklt; cases hklt
              | pay_gt _ _ _ _ _ hcmp => rw [hcmp] at hklt; cases hklt
              | pay_lt_ref _ _ _ _ _ _ hcmp hget2 => exact Bool.noConfusion hpnr
              | pay_lt_plain _ _ _ _ hcmp hnr => exact .nil_plain _ hpnr
            rw [List.append_nil] at hres
            exact hres
          · -- right frame
            intro k' r hkgt hfr
            rw [hdec] at hfr
            have hpass : ∀ k0 v0, MstItem.payload k0 v0 ∈ preS → compare k' k0 = .gt := by
              intro k0 v0 hm
              exact compare_gt_iff_gt.mpr
                (lt_of_le_of_lt (hle k0 v0 hm) (compare_gt_iff_gt.mp hkgt))
            have hx2 := findr_pass_elim preS hpass hfr
            have hpnr : notRefO (enterPrev none preS) = true := hend
            refine findr_mono hevAll (findr_prev_nonref hpnr ?_ hx2)
            rfl
      | none =>
        -- empty prefix is impossible here since si0 > 0
        have hpe : preS = [] := List.getLast?_eq_none_iff.mp hlp
        rw [hpe] at hlenp
        simp at hlenp
        omega
    · -- the first payload already exceeds the split key: everything right
      rw [if_neg hz] at h
      have hsz : si0 = 0 := by omega
      have hpnil : preS = [] := by
        have : preS.length = 0 := by omega
        exact List.length_eq_zero.mp this
      subst hpnil
      have hnodedec : node = MstItem.payload bG vG :: postS := hdec
      have hat0 : node[0]? = some (MstItem.payload bG vG) := by
        rw [hnodedec]
        simp
      rw [hsz] at h
      simp only [hat0, List.take_zero, List.drop_zero] at h
      simp only [Except.ok.injEq, Prod.mk.injEq] at h
      obtain ⟨he1, he2, he3⟩ := h
      subst he1
      have hevAll : Evolves hashN repo
          (putNode hashN (putNode hashN repo ([] : MstNode K V H)).1 node).1 :=
        (Evolves.put _ _ _ (.refl _)).trans (.put _ _ _ (.refl _))
      refine ⟨([] : MstNode K V H), node, ?_, ?_, .nil _ _, ?_, ?_, ?_⟩
      · rw [← he2]
        exact putNode_two_getNode_left hinj hrh ([] : MstNode K V H) node
      · rw [← he3]
        exact putNode_two_getNode_right hinj hrh ([] : MstNode K V H) node
      · -- Wf rightN with the lowered bound
        rw [hnodedec] at hwf hevAll ⊢
        refine wf_lower_retarget (wf_mono hevAll hwf) ?_
        intro a ha
        injection ha with ha
        rw [← ha]
        exact hgtlt
      · -- left frame: keys at or below skey stop before the first payload
        intro k' r hkle hfr
        rw [hnodedec] at hfr
        have hklt : compare k' bG = Ordering.lt := by
          rcases hcc : compare k' skey with _ | _ | _
          · exact compare_lt_iff_lt.mpr (lt_trans (compare_lt_iff_lt.mp hcc) hgtlt)
          · exact compare_lt_iff_lt.mpr ((compare_eq_iff_eq.mp hcc) ▸ hgtlt)
          · exact absurd hcc hkle
        cases hfr with
        | pay_eq _ _ _ _ hcmp => rw [hcmp] at hklt; cases hklt
        | pay_gt _ _ _ _ _ hcmp => rw [hcmp] at hklt; cases hklt
        | pay_lt_plain _ _ _ _ hcmp hnr => exact .nil_plain _ rfl
      · -- right frame: identical tree
        intro k' r hkgt hfr
        exact findr_mono hevAll hfr
  | none =>
    -- no payload exceeds the split key: cut at the end of the node
    rw [hfi] at h
    simp only [Option.getD] at h
    have hallle : ∀ k v, MstItem.payload k v ∈ node → k ≤ skey := by
      intro k v hm
      have hy : (compare k skey == Ordering.gt) = false := findIdx?_none_spec node 0 hfi _ hm
      by_contra hlt
      rw [compare_gt_iff_gt.mpr (lt_of_not_le hlt)] at hy
      cases hy
    by_cases hne : node = []
    · -- empty node: both halves empty
      rw [hne] at h
      simp only [List.length_nil] at h
      rw [if_neg (lt_irrefl 0)] at h
      simp only [List.getElem?_nil, List.take_nil, List.drop_nil] at h
      simp only [Except.ok.injEq, Prod.mk.injEq] at h
      obtain ⟨he1, he2, he3⟩ := h
      subst he1
      have hevAll : Evolves hashN repo
          (putNode hashN (putNode hashN repo ([] : MstNode K V H)).1
            ([] : MstNode K V H)).1 :=
        (Evolves.put _ _ _ (.refl _)).trans (.put _ _ _ (.refl _))
      refine ⟨([] : MstNode K V H), ([] : MstNode K V H), ?_, ?_, .nil _ _, .nil _ _, ?_, ?_⟩
      · rw [← he2]
        exact putNode_two_getNode_left hinj hrh ([] : MstNode K V H) ([] : MstNode K V H)
      · rw [← he3]
        exact putNode_two_getNode_right hinj hrh ([] : MstNode K V H) ([] : MstNode K V H)
      · intro k' r _ hfr
        rw [hne] at hfr
        cases hfr with
        | nil_plain _ _ => exact .nil_plain _ rfl
      · intro k' r _ hfr
        rw [hne] at hfr
        cases hfr with
        | nil_plain _ _ => exact .nil_plain _ rfl
    · -- nonempty node: look at its final item
      have hlpos : 0 < node.length := List.length_pos.mpr hne
      rw [if_pos hlpos] at h
      cases hlp : node.getLast? with
      | none =>
        exact absurd (List.getLast?_eq_none_iff.mp hlp) hne
      | some it =>
        obtain ⟨pre3, hp3⟩ := getLast?_decomp hlp
        have hlen3 : node.length = pre3.length + 1 := by rw [hp3]; simp
        have hat : node[node.length - 1]? = some it := by
          rw [show node.length - 1 = pre3.length from by omega, hp3]
          exact getElem?_append_mid pre3 _ _
        cases it with
        | ref h2 =>
          -- final item is a child reference: split it recursively
          simp only [hat, MstNode.load] at h
          cases hget : getNode repo h2 with
          | none =>
            rw [hget] at h
            simp only [bind, Except.bind] at h
            cases h
          | some child =>
            rw [hget] at h
            simp only [bind, Except.bind] at h
            cases hsp : MstNode.split lev hashN fuel repo child skey with
            | error e => rw [hsp] at h; cases h
            | ok res =>
              obtain ⟨repo1, clh, crh⟩ := res
              rw [hsp] at h
              simp only [Except.ok.injEq, Prod.mk.injEq] at h
              obtain ⟨he1, he2, he3⟩ := h
              have htake : node.take (node.length - 1) = pre3 := by
                rw [show node.length - 1 = pre3.length from by omega, hp3]
                exact take_append_mid pre3 _
              have hdrop : node.drop (node.length - 1 + 1) = ([] : MstNode K V H) := by
                rw [show node.length - 1 + 1 = pre3.length + 1 from by omega, hp3]
                exact drop_append_succ pre3 _ _
              rw [htake] at he1 he2 he3
              rw [hdrop] at he1 he3
              have hev1 : Evolves hashN repo repo1 :=
                (mst_ops_evolve lev hashN fuel).2.2.2 _ _ _ _ _ _ hsp
              have hrh1 : repoHashed hashN repo1 := hev1.repoHashed_mono hrh
              have hwf2 : Wf repo (lastPayloadBound lo pre3) hi ([MstItem.ref h2]) := by
                rw [hp3] at hwf
                exact wf_suffix pre3 hwf
              have hchildwf : Wf repo (lastPayloadBound lo pre3)
                  (headBound hi ([] : MstNode K V H)) child := by
                cases hwf2 with
                | ref _ _ _ child0 _ hget0 hchild0 hnr0 hrest0 =>
                  rw [hget] at hget0
                  injection hget0 with e
                  subst e
                  exact hchild0
              have hch : MstNode.levelHomog lev child := by
                obtain ⟨hh, hmem⟩ := getNode_mem hget
                exact hrlh _ hmem
              obtain ⟨lN', rN', hglN, hgrN, hwlN, hwrN, hfl, hfr2⟩ :=
                ihS repo child skey repo1 clh crh _ _ hsp hinj hrh hrlh hch hchildwf
              set leftN : MstNode K V H := pre3 ++ [MstItem.ref clh] with hLdef
              set rightN : MstNode K V H := [MstItem.ref crh] with hRdef
              have hevL : Evolves hashN repo1 (putNode hashN repo1 leftN).1 :=
                .put _ _ _ (.refl _)
              have hevR : Evolves hashN (putNode hashN repo1 leftN).1
                  (putNode hashN (putNode hashN repo1 leftN).1 rightN).1 :=
                .put _ _ _ (.refl _)
              have hev1' : Evolves hashN repo1
                  (putNode hashN (putNode hashN repo1 leftN).1 rightN).1 :=
                hevL.trans hevR
              have hevAll : Evolves hashN repo
                  (putNode hashN (putNode hashN repo1 leftN).1 rightN).1 :=
                hev1.trans hev1'
              subst he1
              refine ⟨leftN, rightN, ?_, ?_, ?_, ?_, ?_, ?_⟩
              · rw [← he2]
                exact putNode_two_getNode_left hinj hrh1 leftN rightN
              · rw [← he3]
                exact putNode_two_getNode_right hinj hrh1 leftN rightN
              · -- Wf leftN
                rw [hp3] at hwf
                refine wf_splice hevAll pre3 lo (.inl (wf_no_adjacent pre3 hwf)) ?_ ?_ hwf
                · intro k v hm
                  intro b2 hb2
                  injection hb2 with hb2
                  rw [← hb2]
                  exact hallle k v (by rw [hp3]; exact List.mem_append_left _ hm)
                · intro _
                  refine .ref _ _ _ lN' _ (hev1'.getNode_mono hglN) ?_ rfl (.nil _ _)
                  exact wf_mono hev1' hwlN
              · -- Wf rightN
                refine .ref _ _ _ rN' _ (hev1'.getNode_mono hgrN) ?_ rfl (.nil _ _)
                exact wf_mono hev1' hwrN
              · -- left frame
                intro k' r hkle hfr
                rw [hp3] at hfr
                refine findr_congr hevAll pre3 ?_ hfr
                intro r2 hx2
                generalize enterPrev none pre3 = pv at hx2 ⊢
                cases hx2 with
                | step_ref _ _ _ _ hc =>
                  cases hc with
                  | nil_plain _ hnr => cases hnr
                  | nil_ref _ child2 _ hget2 hc2 =>
                    rw [hget] at hget2
                    injection hget2 with e
                    subst e
                    refine .step_ref _ clh _ _
                      (.nil_ref clh lN' r2 (hev1'.getNode_mono hglN) ?_)
                    exact findr_mono hev1' (hfl k' r2 hkle hc2)
              · -- right frame
                intro k' r hkgt hfr
                rw [hp3] at hfr
                have hpass : ∀ k0 v0, MstItem.payload k0 v0 ∈ pre3 →
                    compare k' k0 = .gt := by
                  intro k0 v0 hm
                  exact compare_gt_iff_gt.mpr
                    (lt_of_le_of_lt
                      (hallle k0 v0 (by rw [hp3]; exact List.mem_append_left _ hm))
                      (compare_gt_iff_gt.mp hkgt))
                have hx2 := findr_pass_elim pre3 hpass hfr
                generalize enterPrev none pre3 = pv at hx2
                cases hx2 with
                | step_ref _ _ _ _ hc =>
                  cases hc with
                  | nil_plain _ hnr => cases hnr
                  | nil_ref _ child2 _ hget2 hc2 =>
                    rw [hget] at hget2
                    injection hget2 with e
                    subst e
                    refine .step_ref _ crh _ _
                      (.nil_ref crh rN' r (hev1'.getNode_mono hgrN) ?_)
                    exact findr_mono hev1' (hfr2 k' r hkgt hc2)
        | payload kp vp =>
          -- final item is a payload: all items go left, the right half is empty
          simp only [hat] at h
          have hend : endNotRef node = true := by
            show notRefO (enterPrev none node) = true
            unfold enterPrev
            rw [hlp]
            rfl
          rw [List.take_length, List.drop_length] at h
          simp only [Except.ok.injEq, Prod.mk.injEq] at h
          obtain ⟨he1, he2, he3⟩ := h
          subst he1
          have hevAll : Evolves hashN repo
              (putNode hashN (putNode hashN repo node).1 ([] : MstNode K V H)).1 :=
            (Evolves.put _ _ _ (.refl _)).trans (.put _ _ _ (.refl _))
          refine ⟨node, ([] : MstNode K V H), ?_, ?_, ?_, .nil _ _, ?_, ?_⟩
          · rw [← he2]
            exact putNode_two_getNode_left hinj hrh node ([] : MstNode K V H)
          · rw [← he3]
            exact putNode_two_getNode_right hinj hrh node ([] : MstNode K V H)
          · -- Wf leftN at the tightened upper bound
            have hwf3 : Wf repo lo hi (node ++ ([] : MstNode K V H)) := by
              rw [List.append_nil]
              exact hwf
            have hres : Wf (putNode hashN (putNode hashN repo node).1
                ([] : MstNode K V H)).1 lo (some skey)
                (node ++ ([] : MstNode K V H)) := by
              refine wf_splice hevAll node lo (.inl hend) ?_ ?_ hwf3
              · intro k v hm
                intro b2 hb2
                injection hb2 with hb2
                rw [← hb2]
                exact hallle k v hm
              · intro _
                exact .nil _ _
            rw [List.append_nil] at hres
            exact hres
          · -- left frame: identical tree
            intro k' r _ hfr
            exact findr_mono hevAll hfr
          · -- right frame: the key exceeds every payload
            intro k' r hkgt hfr
            have hpass : ∀ k0 v0, MstItem.payload k0 v0 ∈ node →
                compare k' k0 = .gt := by
              intro k0 v0 hm
              exact compare_gt_iff_gt.mpr
                (lt_of_le_of_lt (hallle k0 v0 hm) (compare_gt_iff_gt.mp hkgt))
            have hfr4 : FindR repo k' none (node ++ ([] : MstNode K V H)) r := by
              rw [List.append_nil]
              exact hfr
            have hx2 := findr_pass_elim node hpass hfr4
            have hpnr : notRefO (enterPrev none node) = true := hend
            generalize enterPrev none node = pv at hx2 hpnr
            cases hx2 with
            | nil_plain _ _ => exact .nil_plain _ rfl
            | nil_ref _ _ _ _ _ => exact Bool.noConfusion hpnr

end MstSplitStep

section MstChildStep

variable {K V H : Type} [LinearOrder K] [DecidableEq H]

/-- Inserting a fresh child reference before the strictly greater payload
preserves well-formedness, finds the key through the new child, and
preserves every other lookup. -/
theorem child_fresh_insert (lev : K → Nat) (hashN : MstNode K V H → H) (fuel : Nat)
    (ihU : UpsertSpec lev hashN fuel)
    {repo repo1 : NodeRepo H (MstNode K V H)} {n1 : MstNode K V H} {ch : H}
    {key : K} {value : V} (preC : MstNode K V H) {b : K} {vb : V}
    (postC : MstNode K V H) {lo hi : Option K}
    (hup : MstNode.upsert lev hashN fuel repo [] key value = .ok (repo1, n1, ch))
    (hinj : Function.Injective hashN) (hrh : repoHashed hashN repo)
    (hrlh : repoLevelHomog lev repo)
    (hwf : Wf repo lo hi (preC ++ MstItem.payload b vb :: postC))
    (hlok : OltK lo key)
    (hgt : ∀ k0 v0, MstItem.payload k0 v0 ∈ preC → compare key k0 = .gt)
    (hend : endNotRef preC = true)
    (hklt : compare key b = Ordering.lt) :
    Wf repo1 lo hi (preC ++ MstItem.ref ch :: MstItem.payload b vb :: postC) ∧
    FindR repo1 key none (preC ++ MstItem.ref ch :: MstItem.payload b vb :: postC)
      (some value) ∧
    (∀ k' r, k' ≠ key → FindR repo k' none (preC ++ MstItem.payload b vb :: postC) r →
      FindR repo1 k' none (preC ++ MstItem.ref ch :: MstItem.payload b vb :: postC) r) := by
  have hev : Evolves hashN repo repo1 :=
    (mst_ops_evolve lev hashN fuel).1 _ _ _ _ _ _ _ hup
  have hlpb : OltK (lastPayloadBound lo preC) key := lastPayloadBound_lt preC hlok hgt
  have hkb : KleH key (some b) := by
    intro a ha
    injection ha with ha
    rw [← ha]
    exact le_of_lt (compare_lt_iff_lt.mp hklt)
  obtain ⟨hwf1, hget1, hfind1, hframe1⟩ :=
    ihU repo ([] : MstNode K V H) key value repo1 n1 ch (lastPayloadBound lo preC)
      (some b) hup hinj hrh hrlh
      (fun k1 v1 k2 v2 hm1 _ => absurd hm1 (List.not_mem_nil _))
      (.nil _ _) hlpb hkb
  refine ⟨?_, ?_, ?_⟩
  · -- well-formedness
    refine wf_splice hev preC lo (.inl hend) ?_ ?_ hwf
    · intro k v hm
      exact wf_payload_le hwf k v (List.mem_append_left _ hm)
    · intro hys
      cases hys with
      | pay _ _ _ _ _ hlo2 hhi2 hrest2 =>
        refine .ref _ _ _ n1 _ hget1 hwf1 rfl ?_
        exact .pay _ _ _ _ _ hlo2 hhi2 (wf_mono hev hrest2)
  · -- the key reaches its value through the fresh child
    refine findr_pass_intro preC hgt ?_
    exact .step_ref _ ch _ _ (.pay_lt_ref ch n1 b vb postC (some value) hklt hget1 hfind1)
  · -- frame for every other key
    intro k' r hne hfr
    refine findr_congr hev preC ?_ hfr
    intro r2 hx2
    have hpnr : notRefO (enterPrev none preC) = true := hend
    generalize enterPrev none preC = pv at hx2 hpnr ⊢
    cases hx2 with
    | pay_eq _ _ _ _ hcmp => exact .step_ref _ ch _ _ (.pay_eq _ b vb postC hcmp)
    | pay_lt_ref _ _ _ _ _ _ hcmp hget2 => exact Bool.noConfusion hpnr
    | pay_lt_plain _ _ _ _ hcmp hnr =>
      refine .step_ref _ ch _ _ (.pay_lt_ref ch n1 b vb postC none hcmp hget1 ?_)
      exact hframe1 k' none hne (.nil_plain none rfl)
    | pay_gt _ _ _ _ _ hcmp hc2 =>
      exact .step_ref _ ch _ _ (.pay_gt _ b vb postC r2 hcmp (findr_mono hev hc2))

/-- Appending a fresh child reference at the end of a node all of whose
payloads are below the key preserves well-formedness, finds the key
through the new child, and preserves every other lookup. -/
theorem child_append_end (lev : K → Nat) (hashN : MstNode K V H → H) (fuel : Nat)
    (ihU : UpsertSpec lev hashN fuel)
    {repo repo1 : NodeRepo H (MstNode K V H)} {n1 node : MstNode K V H} {ch : H}
    {key : K} {value : V} {lo hi : Option K}
    (hup : MstNode.upsert lev hashN fuel repo [] key value = .ok (repo1, n1, ch))
    (hinj : Function.Injective hashN) (hrh : repoHashed hashN repo)
    (hrlh : repoLevelHomog lev repo)
    (hwf : Wf repo lo hi node)
    (hlok : OltK lo key) (hkhi : KleH key hi)
    (hgt : ∀ k0 v0, MstItem.payload k0 v0 ∈ node → compare key k0 = .gt)
    (hend : endNotRef node = true) :
    Wf repo1 lo hi (node ++ [MstItem.ref ch]) ∧
    FindR repo1 key none (node ++ [MstItem.ref ch]) (some value) ∧
    (∀ k' r, k' ≠ key → FindR repo k' none node r →
      FindR repo1 k' none (node ++ [MstItem.ref ch]) r) := by
  have hev : Evolves hashN repo repo1 :=
    (mst_ops_evolve lev hashN fuel).1 _ _ _ _ _ _ _ hup
  have hlpb : OltK (lastPayloadBound lo node) key := lastPayloadBound_lt node hlok hgt
  obtain ⟨hwf1, hget1, hfind1, hframe1⟩ :=
    ihU repo ([] : MstNode K V H) key value repo1 n1 ch (lastPayloadBound lo node)
      hi hup hinj hrh hrlh
      (fun k1 v1 k2 v2 hm1 _ => absurd hm1 (List.not_mem_nil _))
      (.nil _ _) hlpb hkhi
  have hwf3 : Wf repo lo hi (node ++ ([] : MstNode K V H)) := by
    rw [List.append_nil]
    exact hwf
  refine ⟨?_, ?_, ?_⟩
  · -- well-formedness
    refine wf_splice hev node lo (.inl hend) ?_ ?_ hwf3
    · intro k v hm
      exact wf_payload_le hwf k v hm
    · intro _
      exact .ref _ _ _ n1 _ hget1 hwf1 rfl (.nil _ _)
  · -- the key reaches its value through the appended child
    refine findr_pass_intro node hgt ?_
    exact .step_ref _ ch _ _ (.nil_ref ch n1 (some value) hget1 hfind1)
  · -- frame for every other key
    intro k' r hne hfr
    have hfr4 : FindR repo k' none (node ++ ([] : MstNode K V H)) r := by
      rw [List.append_nil]
      exact hfr
    refine findr_congr hev node ?_ hfr4
    intro r2 hx2
    have hpnr : notRefO (enterPrev none node) = true := hend
    generalize enterPrev none node = pv at hx2 hpnr ⊢
    cases hx2 with
    | nil_ref _ _ _ _ _ => exact Bool.noConfusion hpnr
    | nil_plain _ _ =>
      refine .step_ref _ ch _ _ (.nil_ref ch n1 none hget1 ?_)
      exact hframe1 k' none hne (.nil_plain none rfl)

/-- The child step: the upsert contract at the inner fuel yields the
insert_into_child contract at the next fuel. -/
theorem child_spec_step (lev : K → Nat) (hashN : MstNode K V H → H) (fuel : Nat)
    (ihU : UpsertSpec lev hashN fuel) : ChildSpec lev hashN (fuel + 1) := by
  intro repo node key value repo' node' lo hi h hinj hrh hrlh hnh hwf hlok hkhi hnc
  simp only [MstNode.insert_into_child] at h
  cases hfi : List.findIdx? (fun it =>
      match it with
      | MstItem.payload k _ => compare key k == Ordering.lt
      | MstItem.ref _ => false) node 0 with
  | some i =>
    obtain ⟨preC, x, postC, hdec, hi0, hpreF, hx⟩ := findIdx?_some_spec node 0 hfi
    cases x with
    | ref hx2 => simp at hx
    | payload b vb =>
    have hx' : (compare key b == Ordering.lt) = true := hx
    have hklt : compare key b = Ordering.lt := by
      cases hcc : compare key b with
      | lt => rfl
      | gt => rw [hcc] at hx'; cases hx'
      | eq => rw [hcc] at hx'; cases hx'
    have hgt : ∀ k0 v0, MstItem.payload k0 v0 ∈ preC → compare key k0 = .gt := by
      intro k0 v0 hm
      have hy : (compare key k0 == Ordering.lt) = false := hpreF _ hm
      have hne0 : k0 ≠ key := hnc k0 v0 (by rw [hdec]; exact List.mem_append_left _ hm)
      cases hcc : compare key k0 with
      | gt => rfl
      | lt => rw [hcc] at hy; cases hy
      | eq => exact absurd (compare_eq_iff_eq.mp hcc).symm hne0
    by_cases hz : 0 < i
    · have hlenp : preC.length = i := by omega
      cases hlp : preC.getLast? with
      | none =>
        have hpe : preC = [] := List.getLast?_eq_none_iff.mp hlp
        rw [hpe] at hlenp
        simp at hlenp
        omega
      | some it =>
        obtain ⟨pre3, hp3⟩ := getLast?_decomp hlp
        have hlen3 : preC.length = pre3.length + 1 := by rw [hp3]; simp
        have hat : node[i - 1]? = some it := by
          rw [show i - 1 = pre3.length from by omega, hdec, hp3, List.append_assoc]
          exact getElem?_append_mid pre3 _ _
        cases it with
        | ref h2 =>
          -- the reference before the blocking payload takes the key
          have hidx : MstNode.child_idx key node = i - 1 := by
            simp only [MstNode.child_idx]
            rw [hfi]
            simp only [if_pos hz, hat]
          rw [hidx] at h
          simp only [hat, MstNode.load] at h
          have hnodedec : node = pre3 ++ MstItem.ref h2 :: MstItem.payload b vb :: postC := by
            rw [hdec, hp3, List.append_assoc]
            rfl
          cases hget : getNode repo h2 with
          | none =>
            rw [hget] at h
            simp only [bind, Except.bind] at h
            cases h
          | some child =>
            rw [hget] at h
            simp only [bind, Except.bind] at h
            cases hup : MstNode.upsert lev hashN fuel repo child key value with
            | error e => rw [hup] at h; cases h
            | ok res =>
              obtain ⟨repo1, cn, ch⟩ := res
              rw [hup] at h
              simp only [Except.ok.injEq, Prod.mk.injEq] at h
              obtain ⟨he1, he2⟩ := h
              subst he1
              have hset : node.set (i - 1) (MstItem.ref ch) =
                  pre3 ++ MstItem.ref ch :: MstItem.payload b vb :: postC := by
                rw [show i - 1 = pre3.length from by omega, hnodedec]
                exact set_append_mid pre3 _ _ _
              rw [hset] at he2
              subst he2
              have hev : Evolves hashN repo repo1 :=
                (mst_ops_evolve lev hashN fuel).1 _ _ _ _ _ _ _ hup
              have hwf2 : Wf repo (lastPayloadBound lo pre3) hi
                  (MstItem.ref h2 :: MstItem.payload b vb :: postC) := by
                rw [hnodedec] at hwf
                exact wf_suffix pre3 hwf
              have hchildwf : Wf repo (lastPayloadBound lo pre3) (some b) child := by
                cases hwf2 with
                | ref _ _ _ child0 _ hget0 hchild0 hnr0 hrest0 =>
                  rw [hget] at hget0
                  injection hget0 with e
                  subst e
                  exact hchild0
              have hrestwf : Wf repo (lastPayloadBound lo pre3) hi
                  (MstItem.payload b vb :: postC) := by
                cases hwf2 with
                | ref _ _ _ child0 _ hget0 hchild0 hnr0 hrest0 => exact hrest0
              have hch : MstNode.levelHomog lev child := by
                obtain ⟨hh, hmem⟩ := getNode_mem hget
                exact hrlh _ hmem
              have hgt3 : ∀ k0 v0, MstItem.payload k0 v0 ∈ pre3 →
                  compare key k0 = .gt := by
                intro k0 v0 hm
                exact hgt k0 v0 (by rw [hp3]; exact List.mem_append_left _ hm)
              have hlpb : OltK (lastPayloadBound lo pre3) key :=
                lastPayloadBound_lt pre3 hlok hgt3
              have hkb : KleH key (some b) := by
                intro a ha
                injection ha with ha
                rw [← ha]
                exact le_of_lt (compare_lt_iff_lt.mp hklt)
              obtain ⟨hwf1, hget1, hfind1, hframe1⟩ :=
                ihU repo child key value repo1 cn ch (lastPayloadBound lo pre3)
                  (some b) hup hinj hrh hrlh hch hchildwf hlpb hkb
              refine ⟨?_, ?_, ?_⟩
              · -- well-formedness of the updated node
                rw [hnodedec] at hwf
                refine wf_splice hev pre3 lo (.inl (wf_no_adjacent pre3 hwf)) ?_ ?_ hwf
                · intro k v hm
                  exact wf_payload_le hwf k v (List.mem_append_left _ hm)
                · intro hys
                  cases hys with
                  | ref _ _ _ child0 _ hget0 hchild0 hnr0 hrest0 =>
                    refine .ref _ _ _ cn _ hget1 hwf1 rfl (wf_mono hev hrest0)
              · -- the key reaches its value through the updated child
                refine findr_pass_intro pre3 hgt3 ?_
                exact .step_ref _ ch _ _
                  (.pay_lt_ref ch cn b vb postC (some value) hklt hget1 hfind1)
              · -- frame for every other key
                intro k' r hne hfr
                rw [hnodedec] at hfr
                refine findr_congr hev pre3 ?_ hfr
                intro r2 hx2
                generalize enterPrev none pre3 = pv at hx2 ⊢
                cases hx2 with
                | step_ref _ _ _ _ hc =>
                  cases hc with
                  | pay_eq _ _ _ _ hcmp =>
                    exact .step_ref _ ch _ _ (.pay_eq _ b vb postC hcmp)
                  | pay_lt_plain _ _ _ _ _ hnr => cases hnr
                  | pay_gt _ _ _ _ _ hcmp hc2 =>
                    exact .step_ref _ ch _ _
                      (.pay_gt _ b vb postC r2 hcmp (findr_mono hev hc2))
                  | pay_lt_ref _ child2 _ _ _ _ hcmp hget2 hc2 =>
                    rw [hget] at hget2
                    injection hget2 with e
                    subst e
                    refine .step_ref _ ch _ _
                      (.pay_lt_ref ch cn b vb postC r2 hcmp hget1 ?_)
                    exact hframe1 k' r2 hne hc2
        | payload kp vp =>
          -- a payload sits just before: a fresh child goes right there
          have hidx : MstNode.child_idx key node = i := by
            simp only [MstNode.child_idx]
            rw [hfi]
            simp only [if_pos hz, hat]
          rw [hidx] at h
          have hatI : node[i]? = some (MstItem.payload b vb) := by
            rw [show i = preC.length from by omega, hdec]
            exact getElem?_append_mid preC _ _
          simp only [hatI, bind, Except.bind] at h
          cases hup : MstNode.upsert lev hashN fuel repo ([] : MstNode K V H) key value with
          | error e => rw [hup] at h; cases h
          | ok res =>
            obtain ⟨repo1, cn, ch⟩ := res
            rw [hup] at h
            simp only [Except.ok.injEq, Prod.mk.injEq] at h
            obtain ⟨he1, he2⟩ := h
            subst he1
            have hins : node.insertIdx i (MstItem.ref ch) =
                preC ++ MstItem.ref ch :: MstItem.payload b vb :: postC := by
              rw [show i = preC.length from by omega, hdec]
              exact insertIdx_append_mid preC _ _
            rw [hins] at he2
            subst he2
            have hend : endNotRef preC = true := by
              show notRefO (enterPrev none preC) = true
              unfold enterPrev
              rw [hlp]
              rfl
            rw [hdec] at hwf ⊢
            obtain ⟨hwfr, hfindr, hframer⟩ :=
              child_fresh_insert lev hashN fuel ihU preC postC hup hinj hrh hrlh
                hwf hlok hgt hend hklt
            refine ⟨hwfr, hfindr, ?_⟩
            intro k' r hne hfr
            exact hframer k' r hne hfr
    · -- the blocking payload is first: a fresh child goes at the front
      have hz0 : i = 0 := by omega
      have hpnil : preC = [] := by
        have : preC.length = 0 := by omega
        exact List.length_eq_zero.mp this
      subst hpnil
      have hidx : MstNode.child_idx key node = i := by
        simp only [MstNode.child_idx]
        rw [hfi]
        simp only [if_neg hz]
      rw [hidx] at h
      have hatI : node[i]? = some (MstItem.payload b vb) := by
        rw [show i = ([] : MstNode K V H).length from by omega, hdec]
        exact getElem?_append_mid ([] : MstNode K V H) _ _
      simp only [hatI, bind, Except.bind] at h
      cases hup : MstNode.upsert lev hashN fuel repo ([] : MstNode K V H) key value with
      | error e => rw [hup] at h; cases h
      | ok res =>
        obtain ⟨repo1, cn, ch⟩ := res
        rw [hup] at h
        simp only [Except.ok.injEq, Prod.mk.injEq] at h
        obtain ⟨he1, he2⟩ := h
        subst he1
        have hins : node.insertIdx i (MstItem.ref ch) =
            ([] : MstNode K V H) ++ MstItem.ref ch :: MstItem.payload b vb :: postC := by
          rw [show i = ([] : MstNode K V H).length from by omega, hdec]
          exact insertIdx_append_mid ([] : MstNode K V H) _ _
        rw [hins] at he2
        subst he2
        rw [hdec] at hwf ⊢
        obtain ⟨hwfr, hfindr, hframer⟩ :=
          child_fresh_insert lev hashN fuel ihU ([] : MstNode K V H) postC hup hinj
            hrh hrlh hwf hlok hgt rfl hklt
        refine ⟨hwfr, hfindr, ?_⟩
        intro k' r hne hfr
        exact hframer k' r hne hfr
  | none =>
    have hgt : ∀ k0 v0, MstItem.payload k0 v0 ∈ node → compare key k0 = .gt := by
      intro k0 v0 hm
      have hy : (compare key k0 == Ordering.lt) = false := findIdx?_none_spec node 0 hfi _ hm
      have hne0 : k0 ≠ key := hnc k0 v0 hm
      cases hcc : compare key k0 with
      | gt => rfl
      | lt => rw [hcc] at hy; cases hy
      | eq => exact absurd (compare_eq_iff_eq.mp hcc).symm hne0
    cases hlp : node.getLast? with
    | some it =>
      cases it with
      | ref h2 =>
        -- the final reference takes the key
        obtain ⟨pre3, hp3⟩ := getLast?_decomp hlp
        have hlen3 : node.length = pre3.length + 1 := by rw [hp3]; simp
        have hat : node[node.length - 1]? = some (MstItem.ref h2) := by
          rw [show node.length - 1 = pre3.length from by omega, hp3]
          exact getElem?_append_mid pre3 _ _
        have hidx : MstNode.child_idx key node = node.length - 1 := by
          simp only [MstNode.child_idx]
          rw [hfi, hlp]
        rw [hidx] at h
        simp only [hat, MstNode.load] at h
        cases hget : getNode repo h2 with
        | none =>
          rw [hget] at h
          simp only [bind, Except.bind] at h
          cases h
        | some child =>
          rw [hget] at h
          simp only [bind, Except.bind] at h
          cases hup : MstNode.upsert lev hashN fuel repo child key value with
          | error e => rw [hup] at h; cases h
          | ok res =>
            obtain ⟨repo1, cn, ch⟩ := res
            rw [hup] at h
            simp only [Except.ok.injEq, Prod.mk.injEq] at h
            obtain ⟨he1, he2⟩ := h
            subst he1
            have hset : node.set (node.length - 1) (MstItem.ref ch) =
                pre3 ++ [MstItem.ref ch] := by
              rw [show node.length - 1 = pre3.length from by omega, hp3]
              exact set_append_mid pre3 _ _ _
            rw [hset] at he2
            subst he2
            have hev : Evolves hashN repo repo1 :=
              (mst_ops_evolve lev hashN fuel).1 _ _ _ _ _ _ _ hup
            have hwf2 : Wf repo (lastPayloadBound lo pre3) hi ([MstItem.ref h2]) := by
              rw [hp3] at hwf
              exact wf_suffix pre3 hwf
            have hchildwf : Wf repo (lastPayloadBound lo pre3)
                (headBound hi ([] : MstNode K V H)) child := by
              cases hwf2 with
              | ref _ _ _ child0 _ hget0 hchild0 hnr0 hrest0 =>
                rw [hget] at hget0
                injection hget0 with e
                subst e
                exact hchild0
            have hch : MstNode.levelHomog lev child := by
              obtain ⟨hh, hmem⟩ := getNode_mem hget
              exact hrlh _ hmem
            have hgt3 : ∀ k0 v0, MstItem.payload k0 v0 ∈ pre3 →
                compare key k0 = .gt := by
              intro k0 v0 hm
              exact hgt k0 v0 (by rw [hp3]; exact List.mem_append_left _ hm)
            have hlpb : OltK (lastPayloadBound lo pre3) key :=
              lastPayloadBound_lt pre3 hlok hgt3
            obtain ⟨hwf1, hget1, hfind1, hframe1⟩ :=
              ihU repo child key value repo1 cn ch (lastPayloadBound lo pre3)
                hi hup hinj hrh hrlh hch hchildwf hlpb hkhi
            refine ⟨?_, ?_, ?_⟩
            · -- well-formedness of the updated node
              rw [hp3] at hwf
              refine wf_splice hev pre3 lo (.inl (wf_no_adjacent pre3 hwf)) ?_ ?_ hwf
              · intro k v hm
                exact wf_payload_le hwf k v (List.mem_append_left _ hm)
              · intro _
                exact .ref _ _ _ cn _ hget1 hwf1 rfl (.nil _ _)
            · -- the key reaches its value through the updated child
              refine findr_pass_intro pre3 hgt3 ?_
              exact .step_ref _ ch _ _ (.nil_ref ch cn (some value) hget1 hfind1)
            · -- frame for every other key
              intro k' r hne hfr
              rw [hp3] at hfr
              refine findr_congr hev pre3 ?_ hfr
              intro r2 hx2
              generalize enterPrev none pre3 = pv at hx2 ⊢
              cases hx2 with
              | step_ref _ _ _ _ hc =>
                cases hc with
                | nil_plain _ hnr => cases hnr
                | nil_ref _ child2 _ hget2 hc2 =>
                  rw [hget] at hget2
                  injection hget2 with e
                  subst e
                  refine .step_ref _ ch _ _ (.nil_ref ch cn r2 hget1 ?_)
                  exact hframe1 k' r2 hne hc2
      | payload kp vp =>
        -- the node ends in a payload: a fresh child is appended
        have hidx : MstNode.child_idx key node = node.length := by
          simp only [MstNode.child_idx]
          rw [hfi, hlp]
        rw [hidx] at h
        have hatL : node[node.length]? = none := by
          simp
        simp only [hatL, bind, Except.bind] at h
        cases hup : MstNode.upsert lev hashN fuel repo ([] : MstNode K V H) key value with
        | error e => rw [hup] at h; cases h
        | ok res =>
          obtain ⟨repo1, cn, ch⟩ := res
          rw [hup] at h
          simp only [Except.ok.injEq, Prod.mk.injEq] at h
          obtain ⟨he1, he2⟩ := h
          subst he1
          subst he2
          have hend : endNotRef node = true := by
            show notRefO (enterPrev none node) = true
            unfold enterPrev
            rw [hlp]
            rfl
          exact child_append_end lev hashN fuel ihU hup hinj hrh hrlh hwf hlok hkhi
            hgt hend
    | none =>
      -- the node is empty: the fresh child is its only item
      have hpe : node = [] := List.getLast?_eq_none_iff.mp hlp
      have hidx : MstNode.child_idx key node = node.length := by
        simp only [MstNode.child_idx]
        rw [hfi, hlp]
      rw [hidx] at h
      have hatL : node[node.length]? = none := by
        simp
      simp only [hatL, bind, Except.bind] at h
      cases hup : MstNode.upsert lev hashN fuel repo ([] : MstNode K V H) key value with
      | error e => rw [hup] at h; cases h
      | ok res =>
        obtain ⟨repo1, cn, ch⟩ := res
        rw [hup] at h
        simp only [Except.ok.injEq, Prod.mk.injEq] at h
        obtain ⟨he1, he2⟩ := h
        subst he1
        subst he2
        have hend : endNotRef node = true := by
          rw [hpe]
          rfl
        exact child_append_end lev hashN fuel ihU hup hinj hrh hrlh hwf hlok hkhi
          hgt hend

end MstChildStep

section MstUpsertStep

variable {K V H : Type} [LinearOrder K] [DecidableEq H]

/-- The upsert step: the three inner contracts at the inner fuel yield the
upsert contract at the next fuel. -/
theorem upsert_spec_step (lev : K → Nat) (hashN : MstNode K V H → H) (fuel : Nat)
    (ihS : SplitSpec lev hashN fuel) (ihL : LocalSpec lev hashN fuel)
    (ihC : ChildSpec lev hashN fuel) : UpsertSpec lev hashN (fuel + 1) := by
  intro repo node key value repo' node' h' lo hi h hinj hrh hrlh hnh hwf hlok hkhi
  simp only [MstNode.upsert] at h
  by_cases hsplit : (MstNode.estimate_level lev node).getD (lev key) < lev key
  · -- the key's level exceeds the node's: split and raise a new root
    rw [if_pos hsplit] at h
    simp only [bind, Except.bind] at h
    cases hsp : MstNode.split lev hashN fuel repo node key with
    | error e => rw [hsp] at h; cases h
    | ok res =>
      obtain ⟨repo1, lh, rh⟩ := res
      rw [hsp] at h
      simp only [Except.ok.injEq, Prod.mk.injEq] at h
      obtain ⟨he1, he2, he3⟩ := h
      subst he1
      subst he2
      subst he3
      obtain ⟨lN, rN, hglN, hgrN, hwlN, hwrN, hfl, hfr2⟩ :=
        ihS repo node key repo1 lh rh lo hi hsp hinj hrh hrlh hnh hwf
      have hev1 : Evolves hashN repo repo1 :=
        (mst_ops_evolve lev hashN fuel).2.2.2 _ _ _ _ _ _ hsp
      have hrh1 : repoHashed hashN repo1 := hev1.repoHashed_mono hrh
      set node1 : MstNode K V H :=
        [MstItem.ref lh, MstItem.payload key value, MstItem.ref rh] with hN1
      have hev2 : Evolves hashN repo1 (putNode hashN repo1 node1).1 :=
        .put _ _ _ (.refl _)
      have hevAll : Evolves hashN repo (putNode hashN repo1 node1).1 :=
        hev1.trans hev2
      refine ⟨?_, ?_, ?_, ?_⟩
      · -- well-formedness of the three-item root
        refine .ref _ _ _ lN _ (hev2.getNode_mono hglN) ?_ rfl ?_
        · exact wf_mono hev2 hwlN
        · refine .pay _ _ _ _ _ hlok hkhi ?_
          refine .ref _ _ _ rN _ (hev2.getNode_mono hgrN) ?_ rfl (.nil _ _)
          exact wf_mono hev2 hwrN
      · -- the new root is stored under the returned hash
        rw [putNode_snd]
        exact putNode_getNode_self_inj hinj hrh1 node1
      · -- the key finds its value at the new root payload
        exact .step_ref _ lh _ _ (.pay_eq _ key value _ (compare_self_eq key))
      · -- frame for every other key
        intro k' r hne hfr
        cases hcc : compare k' key with
        | eq => exact absurd (compare_eq_iff_eq.mp hcc) hne
        | lt =>
          have hleft := hfl k' r (by rw [hcc]; intro hh; cases hh) hfr
          refine .step_ref _ lh _ _
            (.pay_lt_ref lh lN key value _ r hcc (hev2.getNode_mono hglN) ?_)
          exact findr_mono hev2 hleft
        | gt =>
          have hright := hfr2 k' r hcc hfr
          refine .step_ref _ lh _ _ (.pay_gt _ key value _ r hcc ?_)
          refine .step_ref _ rh _ _ (.nil_ref rh rN r (hev2.getNode_mono hgrN) ?_)
          exact findr_mono hev2 hright
  · rw [if_neg hsplit] at h
    by_cases heq : lev key = (MstNode.estimate_level lev node).getD (lev key)
    · -- matching level: local insertion
      rw [if_pos heq] at h
      simp only [bind, Except.bind] at h
      cases hloc : MstNode.insert_local lev hashN fuel repo node key value with
      | error e => rw [hloc] at h; cases h
      | ok res =>
        obtain ⟨repo1, node1⟩ := res
        rw [hloc] at h
        simp only [Except.ok.injEq, Prod.mk.injEq] at h
        obtain ⟨he1, he2, he3⟩ := h
        subst he1
        subst he2
        subst he3
        obtain ⟨hwf1, hfind1, hframe1⟩ :=
          ihL repo node key value repo1 node1 lo hi hloc hinj hrh hrlh hnh hwf hlok hkhi
        have hev1 : Evolves hashN repo repo1 :=
          (mst_ops_evolve lev hashN fuel).2.1 _ _ _ _ _ _ hloc
        have hrh1 : repoHashed hashN repo1 := hev1.repoHashed_mono hrh
        have hev2 : Evolves hashN repo1 (putNode hashN repo1 node1).1 :=
          .put _ _ _ (.refl _)
        refine ⟨wf_mono hev2 hwf1, ?_, findr_mono hev2 hfind1, ?_⟩
        · rw [putNode_snd]
          exact putNode_getNode_self_inj hinj hrh1 node1
        · intro k' r hne hfr
          exact findr_mono hev2 (hframe1 k' r hne hfr)
    · -- the node sits at a higher level: insert into a child
      rw [if_neg heq] at h
      simp only [bind, Except.bind] at h
      have hnc : ∀ k0 v0, MstItem.payload k0 v0 ∈ node → k0 ≠ key := by
        intro k0 v0 hm heq0
        cases hest : MstNode.estimate_level lev node with
        | none =>
          exact heq (by rw [hest]; rfl)
        | some nl0 =>
          have hlev := levelHomog_estimate hnh hest k0 v0 hm
          rw [hest] at heq
          simp only [Option.getD_some] at heq
          rw [heq0] at hlev
          exact heq hlev
      cases hch : MstNode.insert_into_child lev hashN fuel repo node key value with
      | error e => rw [hch] at h; cases h
      | ok res =>
        obtain ⟨repo1, node1⟩ := res
        rw [hch] at h
        simp only [Except.ok.injEq, Prod.mk.injEq] at h
        obtain ⟨he1, he2, he3⟩ := h
        subst he1
        subst he2
        subst he3
        obtain ⟨hwf1, hfind1, hframe1⟩ :=
          ihC repo node key value repo1 node1 lo hi hch hinj hrh hrlh hnh hwf hlok
            hkhi hnc
        have hev1 : Evolves hashN repo repo1 :=
          (mst_ops_evolve lev hashN fuel).2.2.1 _ _ _ _ _ _ hch
        have hrh1 : repoHashed hashN repo1 := hev1.repoHashed_mono hrh
        have hev2 : Evolves hashN repo1 (putNode hashN repo1 node1).1 :=
          .put _ _ _ (.refl _)
        refine ⟨wf_mono hev2 hwf1, ?_, findr_mono hev2 hfind1, ?_⟩
        · rw [putNode_snd]
          exact putNode_getNode_self_inj hinj hrh1 node1
        · intro k' r hne hfr
          exact findr_mono hev2 (hframe1 k' r hne hfr)

/-- All four mutual-recursion contracts hold at every fuel. -/
theorem mst_ops_frame (lev : K → Nat) (hashN : MstNode K V H → H) :
    ∀ fuel : Nat, UpsertSpec lev hashN fuel ∧ LocalSpec lev hashN fuel ∧
      ChildSpec lev hashN fuel ∧ SplitSpec lev hashN fuel := by
  intro fuel
  induction fuel with
  | zero => exact specs_zero lev hashN
  | succ fuel ih =>
    obtain ⟨ihU, ihL, ihC, ihS⟩ := ih
    exact ⟨upsert_spec_step lev hashN fuel ihS ihL ihC,
      local_spec_step lev hashN fuel ihS,
      child_spec_step lev hashN fuel ihU,
      split_spec_step lev hashN fuel ihS⟩

end MstUpsertStep

section PartitionPoint

/-- The binary-search loop converges to the partition boundary: when the
predicate holds exactly on the first n elements and the search interval
brackets n, the loop returns n. -/
theorem ppGo_spec {α : Type} {p : α → Bool} {l : List α} {n : Nat}
    (hn : ∀ i (hi : i < l.length), (p (l.get ⟨i, hi⟩) = true ↔ i < n)) :
    ∀ gas left right, left ≤ n → n ≤ right → right ≤ l.length →
      right - left ≤ gas → ppGo p l gas left right = n := by
  intro gas
  induction gas with
  | zero =>
    intro left right hl hr hlen hgas
    simp only [ppGo]
    omega
  | succ gas ih =>
    intro left right hl hr hlen hgas
    simp only [ppGo]
    by_cases hlr : left < right
    · rw [if_pos hlr]
      have hmid : left + (right - left) / 2 < l.length := by
        have := Nat.div_le_self (right - left) 2
        omega
      have hget : l[left + (right - left) / 2]? = some (l.get ⟨left + (right - left) / 2, hmid⟩) := by
        rw [List.getElem?_eq_getElem hmid]
        rfl
      rw [hget]
      have hd2 : (right - left) / 2 < right - left := Nat.div_lt_self (by omega) (by omega)
      by_cases hp : p (l.get ⟨left + (right - left) / 2, hmid⟩) = true
      · rw [if_pos hp]
        have hlt : left + (right - left) / 2 < n := (hn _ hmid).mp hp
        exact ih _ _ (by omega) hr hlen (by omega)
      · rw [if_neg hp]
        have hge : ¬ left + (right - left) / 2 < n := fun hc => hp ((hn _ hmid).mpr hc)
        exact ih _ _ hl (by omega) (by omega) (by omega)
    · rw [if_neg hlr]
      omega

/-- partition_point returns the length of the true prefix. -/
theorem partition_point_spec {α : Type} {p : α → Bool} {l : List α} {n : Nat}
    (hle : n ≤ l.length)
    (hn : ∀ i (hi : i < l.length), (p (l.get ⟨i, hi⟩) = true ↔ i < n)) :
    partition_point p l = n :=
  ppGo_spec hn l.length 0 l.length (Nat.zero_le n) hle le_rfl (by omega)

end PartitionPoint



section PtEntLemmas

variable {K V H : Type} [LinearOrder K] [DecidableEq H]

/-- The upserted list is never empty. -/
theorem upEnts_ne_nil (key : K) (value : V) :
    ∀ ents : List (K × V), upEnts key value ents ≠ [] := by
  intro ents
  cases ents with
  | nil => simp [upEnts]
  | cons p rest =>
    obtain ⟨k, v⟩ := p
    simp only [upEnts]
    by_cases h1 : k < key
    · rw [if_pos h1]; simp
    · rw [if_neg h1]
      by_cases h2 : k = key
      · rw [if_pos h2]; simp
      · rw [if_neg h2]; simp

/-- Looking up the upserted key yields the new value. -/
theorem plookup_upEnts_eq (key : K) (value : V) :
    ∀ ents : List (K × V), plookup key (upEnts key value ents) = some value := by
  intro ents
  induction ents with
  | nil => simp [upEnts, plookup]
  | cons p rest ih =>
    obtain ⟨k, v⟩ := p
    simp only [upEnts]
    by_cases h1 : k < key
    · rw [if_pos h1]
      have hk : ¬ k = key := fun hc => absurd hc (by rw [hc] at h1; exact absurd h1 (lt_irrefl key)) 
      simp only [plookup, List.find?]
      rw [show (decide ((k, v).1 = key)) = false from by simp [hk]]
      exact ih
    · rw [if_neg h1]
      by_cases h2 : k = key
      · rw [if_pos h2]
        simp [plookup, List.find?]
      · rw [if_neg h2]
        simp [plookup, List.find?]

/-- Looking up a different key is unchanged by the upsert. -/
theorem plookup_upEnts_ne (key k' : K) (value : V) (hne : k' ≠ key) :
    ∀ ents : List (K × V), plookup k' (upEnts key value ents) = plookup k' ents := by
  intro ents
  induction ents with
  | nil => simp [upEnts, plookup, List.find?, Ne.symm hne]
  | cons p rest ih =>
    obtain ⟨k, v⟩ := p
    simp only [upEnts]
    by_cases h1 : k < key
    · rw [if_pos h1]
      simp only [plookup, List.find?]
      cases hd : decide ((k, v).1 = k') with
      | true => simp [hd]
      | false => simpa [hd] using ih
    · rw [if_neg h1]
      by_cases h2 : k = key
      · rw [if_pos h2]
        subst h2
        simp only [plookup]
        rw [List.find?_cons_of_neg _ (by simp [Ne.symm hne]),
          List.find?_cons_of_neg _ (by simp [Ne.symm hne])]
      · rw [if_neg h2]
        simp only [plookup]
        rw [List.find?_cons_of_neg _ (by simp [Ne.symm hne])]

/-- Keys of the upserted list: the new key or an original key. -/
theorem upEnts_keys (key : K) (value : V) :
    ∀ (ents : List (K × V)) (p : K × V), p ∈ upEnts key value ents →
      p.1 = key ∨ p ∈ ents := by
  intro ents
  induction ents with
  | nil =>
    intro p hp
    simp only [upEnts, List.mem_singleton] at hp
    subst hp
    exact .inl rfl
  | cons q rest ih =>
    obtain ⟨k, v⟩ := q
    intro p hp
    simp only [upEnts] at hp
    by_cases h1 : k < key
    · rw [if_pos h1] at hp
      cases List.mem_cons.mp hp with
      | inl he => exact .inr (by rw [he]; exact List.mem_cons_self _ _)
      | inr hm =>
        cases ih p hm with
        | inl hl => exact .inl hl
        | inr hr => exact .inr (List.mem_cons_of_mem _ hr)
    · rw [if_neg h1] at hp
      by_cases h2 : k = key
      · rw [if_pos h2] at hp
        cases List.mem_cons.mp hp with
        | inl he => exact .inl (by rw [he])
        | inr hm => exact .inr (List.mem_cons_of_mem _ hm)
      · rw [if_neg h2] at hp
        cases List.mem_cons.mp hp with
        | inl he => exact .inl (by rw [he])
        | inr hm => exact .inr hm

/-- Upserting preserves sortedness. -/
theorem upEnts_sorted (key : K) (value : V) :
    ∀ ents : List (K × V), EntSorted ents → EntSorted (upEnts key value ents) := by
  intro ents
  induction ents with
  | nil =>
    intro _
    simp [upEnts, EntSorted]
  | cons q rest ih =>
    obtain ⟨k, v⟩ := q
    intro hs
    have hs' : EntSorted rest := (List.pairwise_cons.mp hs).2
    have hhead : ∀ p ∈ rest, k < p.1 := fun p hp => (List.pairwise_cons.mp hs).1 p hp
    simp only [upEnts]
    by_cases h1 : k < key
    · rw [if_pos h1]
      refine List.pairwise_cons.mpr ⟨?_, ih hs'⟩
      intro p hp
      cases upEnts_keys key value rest p hp with
      | inl he => rw [he]; exact h1
      | inr hm => exact hhead p hm
    · rw [if_neg h1]
      by_cases h2 : k = key
      · rw [if_pos h2]
        subst h2
        exact List.pairwise_cons.mpr ⟨hhead, hs'⟩
      · rw [if_neg h2]
        have hk : key < k := lt_of_le_of_ne (not_lt.mp h1) (Ne.symm h2)
        refine List.pairwise_cons.mpr ⟨?_, hs⟩
        intro p hp
        cases List.mem_cons.mp hp with
        | inl he => rw [he]; exact hk
        | inr hm => exact lt_trans hk (hhead p hm)

/-- Lookup distributes over append through the first hit. -/
theorem plookup_append (key : K) (a b : List (K × V)) :
    plookup key (a ++ b) =
      match plookup key a with
      | some v => some v
      | none => plookup key b := by
  simp only [plookup, List.find?_append]
  cases List.find? (fun p => decide (p.1 = key)) a <;> simp

/-- A list none of whose keys is the key looks up to none. -/
theorem plookup_none_of_ne (key : K) (ents : List (K × V))
    (h : ∀ p ∈ ents, p.1 ≠ key) : plookup key ents = none := by
  have hf : List.find? (fun p => decide (p.1 = key)) ents = none :=
    List.find?_eq_none.mpr (fun p hp => by simpa using h p hp)
  simp [plookup, hf]

/-- A downward-closed true-set of a predicate over a list is exactly the
prefix of the countP length. -/
theorem pairwise_partition {α : Type} {p : α → Bool} :
    ∀ {l : List α},
      (∀ i j (hi : i < l.length) (hj : j < l.length), i ≤ j →
        p (l.get ⟨j, hj⟩) = true → p (l.get ⟨i, hi⟩) = true) →
      ∀ i (hi : i < l.length), (p (l.get ⟨i, hi⟩) = true ↔ i < l.countP p) := by
  intro l
  induction l with
  | nil => intro _ i hi; cases hi
  | cons a l ih =>
    intro hdc i hi
    by_cases hpa : p a = true
    · have hcount : (a :: l).countP p = l.countP p + 1 := by
        rw [List.countP_cons, if_pos hpa]
      rw [hcount]
      cases i with
      | zero => simpa using hpa
      | succ i =>
        have hi' : i < l.length := by simpa using hi
        have hdc' : ∀ i j (hi : i < l.length) (hj : j < l.length), i ≤ j →
            p (l.get ⟨j, hj⟩) = true → p (l.get ⟨i, hi⟩) = true := by
          intro i2 j2 hi2 hj2 hle hp2
          exact hdc (i2+1) (j2+1) (by simpa using hi2) (by simpa using hj2)
            (by omega) hp2
        have := ih hdc' i hi'
        simpa [Nat.succ_lt_succ_iff] using this
    · have hallf : ∀ j (hj : j < (a :: l).length), p ((a :: l).get ⟨j, hj⟩) = false := by
        intro j hj
        by_contra hc
        have hpt : p ((a :: l).get ⟨j, hj⟩) = true := by
          cases hx : p ((a :: l).get ⟨j, hj⟩) with
          | true => rfl
          | false => exact absurd hx hc
        have := hdc 0 j (by simp) hj (Nat.zero_le j) hpt
        exact hpa this
      have hcount : (a :: l).countP p = 0 := by
        rw [List.countP_eq_zero]
        intro x hx
        obtain ⟨j, he⟩ := List.mem_iff_get.mp hx
        rw [← he]
        intro hc
        rw [hallf j.1 j.2] at hc
        cases hc
      rw [hcount]
      constructor
      · intro hpt
        rw [hallf i hi] at hpt
        cases hpt
      · intro hc
        cases hc

end PtEntLemmas

section PtFEntLemmas

variable {K V H : Type} [LinearOrder K] [DecidableEq H]

/-- FEnt survives repo growth. -/
theorem fent_mono {hashP : PtNode K V H → H}
    {repo repo' : NodeRepo H (PtNode K V H)} (hev : Evolves hashP repo repo') :
    ∀ {node ents}, FEnt repo node ents → FEnt repo' node ents := by
  intro node ents h
  induction h with
  | nil => exact .nil
  | pay k v rest rents _ ih => exact .pay k v rest rents ih
  | ref k h child cents rents rest hget hu _ hhead _ ihc ihr =>
    exact .ref k h child cents rents rest (hev.getNode_mono hget) hu ihc hhead ihr

/-- FEnt of concatenated runs. -/
theorem fent_append {repo : NodeRepo H (PtNode K V H)} :
    ∀ {a b : PtNode K V H} {ea eb : List (K × V)},
      FEnt repo a ea → FEnt repo b eb → FEnt repo (a ++ b) (ea ++ eb) := by
  intro a
  induction a with
  | nil =>
    intro b ea eb ha hb
    cases ha with
    | nil => exact hb
  | cons it rest ih =>
    intro b ea eb ha hb
    cases ha with
    | pay k v _ rents hr =>
      exact .pay k v _ _ (ih hr hb)
    | ref k h child cents rents _ hget hu hc hhead hr =>
      rw [List.cons_append, List.append_assoc]
      exact .ref k h child cents _ _ hget hu hc hhead (ih hr hb)

/-- FEnt splits along a concatenation of item runs. -/
theorem fent_split {repo : NodeRepo H (PtNode K V H)} :
    ∀ (a : PtNode K V H) {b : PtNode K V H} {e : List (K × V)},
      FEnt repo (a ++ b) e →
      ∃ ea eb, e = ea ++ eb ∧ FEnt repo a ea ∧ FEnt repo b eb := by
  intro a
  induction a with
  | nil =>
    intro b e h
    exact ⟨[], e, rfl, .nil, h⟩
  | cons it rest ih =>
    intro b e h
    cases h with
    | pay k v _ rents hr =>
      obtain ⟨ea, eb, hdec, hfa, hfb⟩ := ih hr
      exact ⟨(k, v) :: ea, eb, by rw [hdec]; rfl, .pay k v _ _ hfa, hfb⟩
    | ref k h child cents rents _ hget hu hc hhead hr =>
      obtain ⟨ea, eb, hdec, hfa, hfb⟩ := ih hr
      refine ⟨cents ++ ea, eb, ?_, .ref k h child cents ea _ hget hu hc hhead hfa, hfb⟩
      rw [hdec, List.append_assoc]

/-- A run of payload items carries exactly its own pairs. -/
theorem fent_payload_run {repo : NodeRepo H (PtNode K V H)} :
    ∀ {node : PtNode K V H} {ents : List (K × V)},
      FEnt repo node ents →
      (∀ it ∈ node, ∃ k v, it = PtItem.payload k v) →
      node = ents.map fun p => PtItem.payload p.1 p.2 := by
  intro node ents h
  induction h with
  | nil => intro _; rfl
  | pay k v rest rents _ ih =>
    intro hall
    have := ih (fun it hit => hall it (List.mem_cons_of_mem _ hit))
    rw [List.map_cons, ← this]
  | ref k h child cents rents rest hget hu hc hhead hr ihc ihr =>
    intro hall
    obtain ⟨k2, v2, he⟩ := hall (PtItem.ref k h) (List.mem_cons_self _ _)
    cases he

/-- The head key of a run of entries below a reference head. -/
theorem fent_ref_head {repo : NodeRepo H (PtNode K V H)}
    {k : K} {h : H} {rest : PtNode K V H} {ents : List (K × V)}
    (hf : FEnt repo (PtItem.ref k h :: rest) ents) :
    ents.head?.map Prod.fst = some k := by
  cases hf with
  | ref _ _ child cents rents _ hget hu hc hhead hr =>
    cases cents with
    | nil => cases hhead
    | cons p ps =>
      simp only [List.cons_append, List.head?_cons]
      simpa using hhead

/-- In a sorted entry list every key is at least the head key. -/
theorem entsorted_head_le {ents : List (K × V)} {k0 : K}
    (hs : EntSorted ents) (hh : ents.head?.map Prod.fst = some k0) :
    ∀ p ∈ ents, k0 ≤ p.1 := by
  cases ents with
  | nil => cases hh
  | cons q rest =>
    have hq : q.1 = k0 := by
      simp only [List.head?_cons, Option.map_some] at hh
      simpa using hh
    intro p hp
    cases List.mem_cons.mp hp with
    | inl he => rw [he, hq]
    | inr hm =>
      have := (List.pairwise_cons.mp hs).1 p hm
      rw [hq] at this
      exact le_of_lt this

/-- Every item key of a run occurs as a key of its entries. -/
theorem fent_key_in_ents {repo : NodeRepo H (PtNode K V H)} :
    ∀ {node : PtNode K V H} {ents : List (K × V)},
      FEnt repo node ents → ∀ it ∈ node, ∃ p ∈ ents, p.1 = PtItem.key it := by
  intro node ents h
  induction h with
  | nil => intro it hit; cases hit
  | pay k v rest rents hr ih =>
    intro it hit
    cases List.mem_cons.mp hit with
    | inl he => exact ⟨(k, v), List.mem_cons_self _ _, by rw [he]; rfl⟩
    | inr hm =>
      obtain ⟨p, hp, he⟩ := ih it hm
      exact ⟨p, List.mem_cons_of_mem _ hp, he⟩
  | ref k h child cents rents rest hget hu hc hhead hr ihc ihr =>
    intro it hit
    cases List.mem_cons.mp hit with
    | inl he =>
      cases cents with
      | nil => cases hhead
      | cons p ps =>
        refine ⟨p, List.mem_append_left _ (List.mem_cons_self _ _), ?_⟩
        rw [he]
        show p.1 = k
        have : k = p.1 := by simpa using hhead.symm
        exact this.symm
    | inr hm =>
      obtain ⟨p, hp, he⟩ := ihr it hm
      exact ⟨p, List.mem_append_right _ hp, he⟩

/-- The item keys of a run are strictly increasing when its entries are
sorted. -/
theorem fent_keys_sorted {repo : NodeRepo H (PtNode K V H)} :
    ∀ {node : PtNode K V H} {ents : List (K × V)},
      FEnt repo node ents → EntSorted ents →
      List.Pairwise (fun a b => PtItem.key a < PtItem.key b) node := by
  intro node ents h
  induction h with
  | nil => intro _; exact List.Pairwise.nil
  | pay k v rest rents hr ih =>
    intro hs
    refine List.pairwise_cons.mpr ⟨?_, ih (List.pairwise_cons.mp hs).2⟩
    intro it hit
    obtain ⟨p, hp, he⟩ := fent_key_in_ents hr it hit
    have := (List.pairwise_cons.mp hs).1 p hp
    rw [he] at this
    exact this
  | ref k h child cents rents rest hget hu hc hhead hr ihc ihr =>
    intro hs
    have hs2 : EntSorted rents := ((List.pairwise_append.mp hs).2).1
    refine List.pairwise_cons.mpr ⟨?_, ihr hs2⟩
    intro it hit
    obtain ⟨p, hp, he⟩ := fent_key_in_ents hr it hit
    cases cents with
    | nil => cases hhead
    | cons q qs =>
      have hq : q.1 = k := by simpa using hhead
      have h2 := ((List.pairwise_append.mp hs).2).2 q (List.mem_cons_self _ _) p hp
      rw [hq] at h2
      show (PtItem.ref k h).key < it.key
      rw [show (PtItem.ref k h).key = k from rfl, ← he]
      exact h2

end PtFEntLemmas

section PtFindPrep

variable {K V H : Type} [LinearOrder K] [DecidableEq H]

/-- The not-greater predicate of the find binary search tests at-most. -/
theorem ple_bool_iff {a key : K} :
    ((!(compare a key == Ordering.gt)) = true) ↔ a ≤ key := by
  constructor
  · intro hx
    by_contra hlt
    rw [compare_gt_iff_gt.mpr (lt_of_not_le hlt)] at hx
    cases hx
  · intro hx
    cases hc : compare a key with
    | lt => rfl
    | eq => rfl
    | gt => exact absurd (compare_gt_iff_gt.mp hc) (not_lt.mpr hx)

/-- The less-than predicate of the upsert binary search. -/
theorem plt_bool_iff {a key : K} :
    ((compare a key == Ordering.lt) = true) ↔ a < key := by
  constructor
  · intro hx
    cases hc : compare a key with
    | lt => exact compare_lt_iff_lt.mp hc
    | eq => rw [hc] at hx; cases hx
    | gt => rw [hc] at hx; cases hx
  · intro hx
    rw [compare_lt_iff_lt.mpr hx]
    rfl

/-- On a node with strictly increasing item keys a key-monotone
predicate holds exactly on a prefix, and partition_point returns the
count of items satisfying it. -/
theorem pt_pp_count {node : PtNode K V H} {p : PtItem K V H → Bool}
    (hsk : List.Pairwise (fun a b => PtItem.key a < PtItem.key b) node)
    (hmono : ∀ a b : PtItem K V H, PtItem.key a ≤ PtItem.key b →
      p b = true → p a = true) :
    partition_point p node = node.countP p ∧
    (∀ i (hi : i < node.length),
      (p (node.get ⟨i, hi⟩) = true ↔ i < node.countP p)) := by
  have hget : ∀ (i j : Nat) (hi : i < node.length) (hj : j < node.length), i ≤ j →
      p (node.get ⟨j, hj⟩) = true → p (node.get ⟨i, hi⟩) = true := by
    intro i j hi hj hle hp
    by_cases he : i = j
    · subst he
      exact hp
    · have hij : i < j := lt_of_le_of_ne hle he
      have := List.pairwise_iff_get.mp hsk ⟨i, hi⟩ ⟨j, hj⟩ hij
      exact hmono _ _ (le_of_lt this) hp
  have hiff := pairwise_partition hget
  exact ⟨partition_point_spec (l := node) (List.countP_le_length p) hiff, hiff⟩

/-- Lookup of a sorted list at the position of its key. -/
theorem plookup_at_pos {key : K} :
    ∀ {ents : List (K × V)}, EntSorted ents →
      ∀ {i} (hi : i < ents.length), (ents.get ⟨i, hi⟩).1 = key →
      plookup key ents = some (ents.get ⟨i, hi⟩).2 := by
  intro ents
  induction ents with
  | nil => intro _ i hi; cases hi
  | cons q rest ih =>
    intro hs i hi he
    cases i with
    | zero =>
      simp only [List.get] at he ⊢
      simp [plookup, List.find?, he]
    | succ i =>
      have hi' : i < rest.length := by simpa using hi
      have he' : (rest.get ⟨i, hi'⟩).1 = key := he
      have hmem : rest.get ⟨i, hi'⟩ ∈ rest := List.get_mem rest i hi'
      have hql : q.1 < key := by
        have h2 := (List.pairwise_cons.mp hs).1 _ hmem
        rw [he'] at h2
        exact h2
      have hqne : ¬ q.1 = key := ne_of_lt hql
      simp only [plookup]
      rw [List.find?_cons_of_neg _ (by simpa using hqne)]
      exact ih (List.pairwise_cons.mp hs).2 hi' he'

/-- One-step unfolding of find at a reference-headed node. -/
theorem pfind_succ_ref (fuel : Nat) (repo : NodeRepo H (PtNode K V H))
    (k : K) (h0 : H) (rest : PtNode K V H) (key : K) :
    PtNode.find (fuel + 1) repo (PtItem.ref k h0 :: rest) key =
      (if 0 < partition_point
          (fun it => !(compare (PtItem.key it) key == Ordering.gt))
          (PtItem.ref k h0 :: rest) then
        match (PtItem.ref k h0 :: rest)[partition_point
            (fun it => !(compare (PtItem.key it) key == Ordering.gt))
            (PtItem.ref k h0 :: rest) - 1]? with
        | some (PtItem.ref _ h) =>
          (match getNode repo h with
           | some child => PtNode.find fuel repo child key
           | none => .error (.refNotFound (some h)))
        | _ => .ok none
      else .ok none) := by
  have h1 : PtNode.find (fuel + 1) repo (PtItem.ref k h0 :: rest) key =
      (if 0 < partition_point
          (fun it => !(compare (PtItem.key it) key == Ordering.gt))
          (PtItem.ref k h0 :: rest) then
        match (PtItem.ref k h0 :: rest)[partition_point
            (fun it => !(compare (PtItem.key it) key == Ordering.gt))
            (PtItem.ref k h0 :: rest) - 1]? with
        | some (PtItem.ref _ h) => do
            let child ← PtNode.load repo h
            PtNode.find fuel repo child key
        | _ => .ok none
      else .ok none) := rfl
  rw [h1]
  by_cases hz : 0 < partition_point
      (fun it => !(compare (PtItem.key it) key == Ordering.gt))
      (PtItem.ref k h0 :: rest)
  · rw [if_pos hz, if_pos hz]
    cases hat : (PtItem.ref k h0 :: rest)[partition_point
        (fun it => !(compare (PtItem.key it) key == Ordering.gt))
        (PtItem.ref k h0 :: rest) - 1]? with
    | none => rfl
    | some it =>
      cases it with
      | payload k2 v2 => rfl
      | ref k2 h2 =>
        simp only [PtNode.load, bind, Except.bind]
        cases getNode repo h2 <;> rfl
  · rw [if_neg hz, if_neg hz]

/-- One-step unfolding of find at a payload-headed node. -/
theorem pfind_succ_pay (fuel : Nat) (repo : NodeRepo H (PtNode K V H))
    (k0 : K) (v0 : V) (rest : PtNode K V H) (key : K) :
    PtNode.find (fuel + 1) repo (PtItem.payload k0 v0 :: rest) key =
      (if 0 < partition_point
          (fun it => !(compare (PtItem.key it) key == Ordering.gt))
          (PtItem.payload k0 v0 :: rest) then
        match (PtItem.payload k0 v0 :: rest)[partition_point
            (fun it => !(compare (PtItem.key it) key == Ordering.gt))
            (PtItem.payload k0 v0 :: rest) - 1]? with
        | some (PtItem.payload k v) =>
          if compare k key == .eq then .ok (some v) else .ok none
        | _ => .ok none
      else .ok none) := rfl

/-- find at the empty node. -/
theorem pfind_succ_nil (fuel : Nat) (repo : NodeRepo H (PtNode K V H)) (key : K) :
    PtNode.find (fuel + 1) repo ([] : PtNode K V H) key = .ok none := rfl

/-- find is monotone in its fuel. -/
theorem pfind_mono {repo : NodeRepo H (PtNode K V H)} {key : K} :
    ∀ {fuel : Nat} {node : PtNode K V H} {r : Option V},
      PtNode.find fuel repo node key = .ok r →
      PtNode.find (fuel + 1) repo node key = .ok r := by
  intro fuel
  induction fuel with
  | zero => intro node r h; cases h
  | succ fuel ih =>
    intro node r h
    cases node with
    | nil => exact h
    | cons first rest =>
      cases first with
      | payload k v => exact h
      | ref k h0 =>
        rw [pfind_succ_ref] at h ⊢
        by_cases hz : 0 < partition_point
            (fun it => !(compare (PtItem.key it) key == Ordering.gt))
            (PtItem.ref k h0 :: rest)
        · rw [if_pos hz] at h ⊢
          cases hat : (PtItem.ref k h0 :: rest)[partition_point
              (fun it => !(compare (PtItem.key it) key == Ordering.gt))
              (PtItem.ref k h0 :: rest) - 1]? with
          | none => rw [hat] at h; exact h
          | some it =>
            cases it with
            | payload k2 v2 =>
              simp only [hat] at h
              exact h
            | ref k2 h2 =>
              simp only [hat] at h
              show (match getNode repo h2 with
                | some child => PtNode.find (fuel + 1) repo child key
                | none => Except.error (PtError.refNotFound (some h2))) = Except.ok r
              cases hget : getNode repo h2 with
              | none => rw [hget] at h; cases h
              | some child =>
                rw [hget] at h
                exact ih h
        · rw [if_neg hz] at h ⊢
          exact h

end PtFindPrep

section PtFindSound

variable {K V H : Type} [LinearOrder K] [DecidableEq H]

/-- Decomposition of a list at a successful index access. -/
theorem getElem?_decomp {α : Type} {l : List α} {i : Nat} {x : α}
    (h : l[i]? = some x) : ∃ pre post, l = pre ++ x :: post ∧ pre.length = i := by
  have hi : i < l.length := by
    by_contra hc
    rw [List.getElem?_eq_none (by omega)] at h
    cases h
  refine ⟨l.take i, l.drop (i + 1), ?_, List.length_take_of_le (by omega)⟩
  have h2 : l.get ⟨i, hi⟩ = x := by
    have h3 := h
    rw [List.getElem?_eq_getElem hi] at h3
    exact Option.some.inj h3
  rw [← h2]
  rw [show (l.get ⟨i, hi⟩ :: l.drop (i + 1)) = l.drop i from List.getElem_cons_drop l i hi]
  exact (List.take_append_drop i l).symm

/-- The find scan returns the association-list lookup of the entries on
every uniform sorted tree. -/
theorem pfind_sound :
    ∀ (fuel : Nat) {repo : NodeRepo H (PtNode K V H)} {node : PtNode K V H}
      {key : K} {ents : List (K × V)} {r : Option V},
      PtNode.find fuel repo node key = .ok r →
      FEnt repo node ents → UniformNode node → EntSorted ents →
      r = plookup key ents := by
  intro fuel
  induction fuel with
  | zero => intro repo node key ents r h; cases h
  | succ fuel ih =>
    intro repo node key ents r h hf hu hs
    have hsk : List.Pairwise (fun a b => PtItem.key a < PtItem.key b) node :=
      fent_keys_sorted hf hs
    have hmono : ∀ a b : PtItem K V H, PtItem.key a ≤ PtItem.key b →
        (!(compare (PtItem.key b) key == Ordering.gt)) = true →
        (!(compare (PtItem.key a) key == Ordering.gt)) = true := by
      intro a b hab hb
      exact ple_bool_iff.mpr (le_trans hab (ple_bool_iff.mp hb))
    obtain ⟨hpp, hiff⟩ := pt_pp_count (p := fun it =>
      !(compare (PtItem.key it) key == Ordering.gt)) hsk hmono
    set n := node.countP (fun it => !(compare (PtItem.key it) key == Ordering.gt))
      with hN
    cases hnode : node with
    | nil =>
      subst hnode
      cases hf with
      | nil =>
        rw [pfind_succ_nil] at h
        injection h with h
        subst h
        rfl
    | cons first rest =>
      subst hnode
      cases first with
      | payload k0 v0 =>
        -- a leaf node: its items are exactly the entry payloads
        have hall : ∀ it ∈ (PtItem.payload k0 v0 :: rest), ∃ k v, it = PtItem.payload k v := by
          cases hu with
          | inl hp => exact hp
          | inr hrr =>
            obtain ⟨k2, h2, he⟩ := hrr (PtItem.payload k0 v0) (List.mem_cons_self _ _)
            cases he
        have hnodee : (PtItem.payload k0 v0 :: rest) =
            ents.map fun p => PtItem.payload p.1 p.2 := fent_payload_run hf hall
        rw [pfind_succ_pay, hpp] at h
        by_cases hz : 0 < n
        · rw [if_pos hz] at h
          have hlen : n ≤ (PtItem.payload k0 v0 :: rest).length :=
            List.countP_le_length _
          have hlt : n - 1 < (PtItem.payload k0 v0 :: rest).length := by omega
          have hlte : n - 1 < ents.length := by
            have := congrArg List.length hnodee
            simp only [List.length_map] at this
            omega
          have hat : (PtItem.payload k0 v0 :: rest)[n-1]? =
              some (PtItem.payload (ents.get ⟨n-1, hlte⟩).1 (ents.get ⟨n-1, hlte⟩).2) := by
            rw [List.getElem?_eq_getElem hlt]
            have hg := List.get_of_eq hnodee ⟨n-1, hlt⟩
            rw [List.get_map] at hg
            rw [show (PtItem.payload k0 v0 :: rest)[n-1] =
              (PtItem.payload k0 v0 :: rest).get ⟨n-1, hlt⟩ from rfl, hg]
          simp only [hat] at h
          have hkey1 : (ents.get ⟨n-1, hlte⟩).1 ≤ key := by
            have hg := List.get_of_eq hnodee ⟨n-1, hlt⟩
            rw [List.get_map] at hg
            have := (hiff (n-1) hlt).mpr (by omega)
            rw [hg] at this
            exact ple_bool_iff.mp this
          cases hceq : compare (ents.get ⟨n-1, hlte⟩).1 key with
          | eq =>
            rw [hceq] at h
            rw [if_pos (show ((Ordering.eq == Ordering.eq) = true) from rfl)] at h
            injection h with h
            rw [← h]
            exact (plookup_at_pos hs hlte (compare_eq_iff_eq.mp hceq)).symm
          | lt =>
            rw [hceq] at h
            rw [if_neg (show ¬ ((Ordering.lt == Ordering.eq) = true) from by decide)] at h
            injection h with h
            rw [← h]
            refine (plookup_none_of_ne key ents ?_).symm
            intro p hp
            obtain ⟨j, hje⟩ := List.mem_iff_get.mp hp
            by_cases hj : j.1 < n
            · have hjle : (ents.get j).1 ≤ (ents.get ⟨n-1, hlte⟩).1 := by
                by_cases hje2 : j.1 = n - 1
                · have : j = ⟨n-1, hlte⟩ := Fin.ext hje2
                  rw [this]
                · have hjlt : j.1 < n - 1 := by omega
                  exact le_of_lt (List.pairwise_iff_get.mp hs j ⟨n-1, hlte⟩ hjlt)
              have : (ents.get j).1 < key :=
                lt_of_le_of_lt hjle (compare_lt_iff_lt.mp hceq)
              rw [← hje]
              exact ne_of_lt this
            · have hjlen : j.1 < (PtItem.payload k0 v0 :: rest).length := by
                have := congrArg List.length hnodee
                simp only [List.length_map] at this
                omega
              have hgete2 : (PtItem.payload k0 v0 :: rest).get ⟨j.1, hjlen⟩ =
                  PtItem.payload (ents.get j).1 (ents.get j).2 := by
                have := List.get_of_eq hnodee ⟨j.1, hjlen⟩
                rw [this, List.get_map]
              have hnp : ¬ ((!(compare (ents.get j).1 key == Ordering.gt)) = true) := by
                intro hc
                refine hj ?_
                have h2 := (hiff j.1 hjlen).mp (by rw [hgete2]; exact hc)
                omega
              have : key < (ents.get j).1 := by
                by_contra hc
                exact hnp (ple_bool_iff.mpr (not_lt.mp hc))
              rw [← hje]
              exact Ne.symm (ne_of_lt this)
          | gt =>
            exact absurd (compare_gt_iff_gt.mp hceq) (not_lt.mpr hkey1)
        · rw [if_neg hz] at h
          injection h with h
          rw [← h]
          refine (plookup_none_of_ne key ents ?_).symm
          intro p hp
          obtain ⟨j, hje⟩ := List.mem_iff_get.mp hp
          have hjlen : j.1 < (PtItem.payload k0 v0 :: rest).length := by
            have := congrArg List.length hnodee
            simp only [List.length_map] at this
            omega
          have hgete2 : (PtItem.payload k0 v0 :: rest).get ⟨j.1, hjlen⟩ =
              PtItem.payload (ents.get j).1 (ents.get j).2 := by
            have := List.get_of_eq hnodee ⟨j.1, hjlen⟩
            rw [this, List.get_map]
          have hnp : ¬ ((!(compare (ents.get j).1 key == Ordering.gt)) = true) := by
            intro hc
            refine hz ?_
            have h2 := (hiff j.1 hjlen).mp (by rw [hgete2]; exact hc)
            omega
          have : key < (ents.get j).1 := by
            by_contra hc
            exact hnp (ple_bool_iff.mpr (not_lt.mp hc))
          rw [← hje]
          exact Ne.symm (ne_of_lt this)
      | ref k0 h0 =>
        have hallr : ∀ it ∈ (PtItem.ref k0 h0 :: rest), ∃ k h2, it = PtItem.ref k h2 := by
          cases hu with
          | inr hp => exact hp
          | inl hrr =>
            obtain ⟨k2, v2, he⟩ := hrr (PtItem.ref k0 h0) (List.mem_cons_self _ _)
            cases he
        rw [pfind_succ_ref, hpp] at h
        by_cases hz : 0 < n
        · rw [if_pos hz] at h
          have hlen : n ≤ (PtItem.ref k0 h0 :: rest).length := List.countP_le_length _
          have hlt : n - 1 < (PtItem.ref k0 h0 :: rest).length := by omega
          obtain ⟨k1, h1, hgete⟩ :=
            hallr _ (List.get_mem (PtItem.ref k0 h0 :: rest) (n-1) hlt)
          have hat : (PtItem.ref k0 h0 :: rest)[n-1]? = some (PtItem.ref k1 h1) := by
            rw [List.getElem?_eq_getElem hlt]
            rw [show (PtItem.ref k0 h0 :: rest)[n-1] =
              (PtItem.ref k0 h0 :: rest).get ⟨n-1, hlt⟩ from rfl, hgete]
          simp only [hat] at h
          obtain ⟨pre, post, hdec, hprel⟩ := getElem?_decomp hat
          obtain ⟨epre, e2, hedec, hfpre, hf2⟩ := fent_split pre (hdec ▸ hf)
          cases hf2 with
          | ref _ _ child cents epost rest2 hget2 hu2 hfc hhead hfpost =>
            rw [hget2] at h
            have hkey1 : k1 ≤ key := by
              have := (hiff (n-1) hlt).mpr (by omega)
              rw [hgete] at this
              exact ple_bool_iff.mp this
            rw [hedec] at hs
            have hs23 : EntSorted (cents ++ epost) := (List.pairwise_append.mp hs).2.1
            have hscents : EntSorted cents := (List.pairwise_append.mp hs23).1
            have hsepost : EntSorted epost := (List.pairwise_append.mp hs23).2.1
            have hr := ih h hfc hu2 hscents
            rw [hr, hedec]
            have hpre_none : plookup key epre = none := by
              refine plookup_none_of_ne key epre ?_
              intro p hp
              have hlt2 : p.1 < k1 := by
                have hcm : ∀ y ∈ cents ++ epost, p.1 < y.1 :=
                  fun y hy => (List.pairwise_append.mp hs).2.2 p hp y hy
                cases cents with
                | nil => cases hhead
                | cons q qs =>
                  have hq : q.1 = k1 := by simpa using hhead
                  have := hcm q (List.mem_append_left _ (List.mem_cons_self _ _))
                  rw [hq] at this
                  exact this
              exact ne_of_lt (lt_of_lt_of_le hlt2 hkey1)
            rw [plookup_append, hpre_none, plookup_append]
            cases hcl : plookup key cents with
            | some v => rfl
            | none =>
              show none = plookup key epost
              refine (plookup_none_of_ne key epost ?_).symm
              intro p hp
              cases hpost : post with
              | nil =>
                subst hpost
                cases hfpost with
                | nil => cases hp
              | cons pit prest =>
                subst hpost
                obtain ⟨k2, h2, hpe⟩ := hallr pit (by
                  rw [hdec]
                  exact List.mem_append_right _ (List.mem_cons_of_mem _ (List.mem_cons_self _ _)))
                subst hpe
                have hhead2 : epost.head?.map Prod.fst = some k2 := fent_ref_head hfpost
                have hnlen : n < (PtItem.ref k0 h0 :: rest).length := by
                  rw [hdec]
                  simp only [List.length_append, List.length_cons]
                  omega
                have hk2at : (PtItem.ref k0 h0 :: rest)[n]? = some (PtItem.ref k2 h2) := by
                  rw [show (PtItem.ref k0 h0 :: rest) =
                    (pre ++ [PtItem.ref k1 h1]) ++ (PtItem.ref k2 h2 :: prest) from by
                      rw [hdec, List.append_assoc]; rfl]
                  rw [List.getElem?_append_right (by
                    simp only [List.length_append, List.length_cons, List.length_nil]
                    omega)]
                  simp only [List.length_append, List.length_cons, List.length_nil]
                  rw [show n - (pre.length + (0 + 1)) = 0 from by omega]
                  simp
                have hgetn : (PtItem.ref k0 h0 :: rest).get ⟨n, hnlen⟩ = PtItem.ref k2 h2 := by
                  have h3 := hk2at
                  rw [List.getElem?_eq_getElem hnlen] at h3
                  exact Option.some.inj h3
                have hnp : ¬ ((!(compare k2 key == Ordering.gt)) = true) := by
                  intro hc
                  have h2 := (hiff n hnlen).mp (by rw [hgetn]; exact hc)
                  omega
                have hkk2 : key < k2 := by
                  by_contra hc
                  exact hnp (ple_bool_iff.mpr (not_lt.mp hc))
                have hge := entsorted_head_le hsepost hhead2 p hp
                exact Ne.symm (ne_of_lt (lt_of_lt_of_le hkk2 hge))
        · rw [if_neg hz] at h
          injection h with h
          rw [← h]
          have hhead0 : ents.head?.map Prod.fst = some k0 := fent_ref_head hf
          have hnp : ¬ ((!(compare k0 key == Ordering.gt)) = true) := by
            intro hc
            have h2 := (hiff 0 (by simp)).mp hc
            omega
          have hk0 : key < k0 := by
            by_contra hc
            exact hnp (ple_bool_iff.mpr (not_lt.mp hc))
          refine (plookup_none_of_ne key ents ?_).symm
          intro p hp
          have := entsorted_head_le hs hhead0 p hp
          exact Ne.symm (ne_of_lt (lt_of_lt_of_le hk0 this))

end PtFindSound

section PtFindComplete

variable {K V H : Type} [LinearOrder K] [DecidableEq H]

/-- The entries of an item run are determined by the run and the repo. -/
theorem fent_det {repo : NodeRepo H (PtNode K V H)} :
    ∀ {node : PtNode K V H} {e1 : List (K × V)}, FEnt repo node e1 →
      ∀ {e2 : List (K × V)}, FEnt repo node e2 → e1 = e2 := by
  intro node e1 h1
  induction h1 with
  | nil =>
    intro e2 h2
    cases h2 with
    | nil => rfl
  | pay k v rest rents hr ih =>
    intro e2 h2
    cases h2 with
    | pay _ _ _ rents2 hr2 => rw [ih hr2]
  | ref k h child cents rents rest hget hu hc hhead hr ihc ihr =>
    intro e2 h2
    cases h2 with
    | ref _ _ child2 cents2 rents2 _ hget2 hu2 hc2 hhead2 hr2 =>
      rw [hget] at hget2
      injection hget2 with he
      subst he
      rw [ihc hc2, ihr hr2]

/-- Find-completeness of a node, assuming it for every child referenced
by the node. -/
theorem pfind_complete_step {repo : NodeRepo H (PtNode K V H)}
    {node : PtNode K V H} {ents : List (K × V)} {key : K}
    (hf : FEnt repo node ents) (hu : UniformNode node) (hs : EntSorted ents)
    (hch : ∀ pre k h post, node = pre ++ PtItem.ref k h :: post →
      ∃ child cents, getNode repo h = some child ∧ FEnt repo child cents ∧
        (EntSorted cents → ∃ fuel, PtNode.find fuel repo child key =
          .ok (plookup key cents))) :
    ∃ fuel, PtNode.find fuel repo node key = .ok (plookup key ents) := by
  have hsk : List.Pairwise (fun a b => PtItem.key a < PtItem.key b) node :=
    fent_keys_sorted hf hs
  have hmono : ∀ a b : PtItem K V H, PtItem.key a ≤ PtItem.key b →
      (!(compare (PtItem.key b) key == Ordering.gt)) = true →
      (!(compare (PtItem.key a) key == Ordering.gt)) = true := by
    intro a b hab hb
    exact ple_bool_iff.mpr (le_trans hab (ple_bool_iff.mp hb))
  obtain ⟨hpp, hiff⟩ := pt_pp_count (p := fun it =>
    !(compare (PtItem.key it) key == Ordering.gt)) hsk hmono
  set n := node.countP (fun it => !(compare (PtItem.key it) key == Ordering.gt))
    with hN
  cases hnode : node with
  | nil =>
    subst hnode
    cases hf with
    | nil => exact ⟨1, rfl⟩
  | cons first rest =>
    subst hnode
    cases first with
    | payload k0 v0 =>
      -- on a leaf every fuel of at least one step settles the probe
      refine ⟨1, ?_⟩
      have h0 : PtNode.find 1 repo (PtItem.payload k0 v0 :: rest) key =
          .ok (plookup key ents) ↔ True := by
        constructor
        · intro _; trivial
        · intro _
          have hok : ∃ r, PtNode.find 1 repo (PtItem.payload k0 v0 :: rest) key = .ok r := by
            rw [pfind_succ_pay]
            by_cases hz : 0 < partition_point
                (fun it => !(compare (PtItem.key it) key == Ordering.gt))
                (PtItem.payload k0 v0 :: rest)
            · rw [if_pos hz]
              cases hat : (PtItem.payload k0 v0 :: rest)[partition_point
                  (fun it => !(compare (PtItem.key it) key == Ordering.gt))
                  (PtItem.payload k0 v0 :: rest) - 1]? with
              | none => exact ⟨none, rfl⟩
              | some it =>
                cases it with
                | payload k2 v2 =>
                  by_cases he : (compare k2 key == Ordering.eq) = true
                  · refine ⟨some v2, ?_⟩
                    show (if (compare k2 key == Ordering.eq) = true
                      then Except.ok (some v2) else Except.ok none) =
                        Except.ok (some v2)
                    rw [if_pos he]
                  · refine ⟨none, ?_⟩
                    show (if (compare k2 key == Ordering.eq) = true
                      then Except.ok (some v2) else Except.ok none) =
                        Except.ok none
                    rw [if_neg he]
                | ref k2 h2 => exact ⟨none, rfl⟩
            · rw [if_neg hz]
              exact ⟨none, rfl⟩
          obtain ⟨r, hr⟩ := hok
          rw [hr]
          have := pfind_sound 1 hr hf hu hs
          rw [this]
      exact h0.mpr trivial
    | ref k0 h0 =>
      have hallr : ∀ it ∈ (PtItem.ref k0 h0 :: rest), ∃ k h2, it = PtItem.ref k h2 := by
        cases hu with
        | inr hp => exact hp
        | inl hrr =>
          obtain ⟨k2, v2, he⟩ := hrr (PtItem.ref k0 h0) (List.mem_cons_self _ _)
          cases he
      by_cases hz : 0 < n
      · have hlen : n ≤ (PtItem.ref k0 h0 :: rest).length := List.countP_le_length _
        have hlt : n - 1 < (PtItem.ref k0 h0 :: rest).length := by omega
        obtain ⟨k1, h1, hgete⟩ :=
          hallr _ (List.get_mem (PtItem.ref k0 h0 :: rest) (n-1) hlt)
        have hat : (PtItem.ref k0 h0 :: rest)[n-1]? = some (PtItem.ref k1 h1) := by
          rw [List.getElem?_eq_getElem hlt]
          rw [show (PtItem.ref k0 h0 :: rest)[n-1] =
            (PtItem.ref k0 h0 :: rest).get ⟨n-1, hlt⟩ from rfl, hgete]
        obtain ⟨pre, post, hdec, hprel⟩ := getElem?_decomp hat
        obtain ⟨child, cents, hget, hfc, hcomp⟩ := hch pre k1 h1 post hdec
        -- the entries of the probed child are sorted
        obtain ⟨epre, e2, hedec, hfpre, hf2⟩ := fent_split pre (hdec ▸ hf)
        cases hf2 with
        | ref _ _ child2 cents2 epost rest2 hget2 hu2 hfc2 hhead2 hfpost =>
          rw [hget] at hget2
          injection hget2 with he
          subst he
          have hceq : cents = cents2 := fent_det hfc hfc2
          subst hceq
          have hs3 : EntSorted (epre ++ (cents ++ epost)) := by
            rw [← hedec]
            exact hs
          have hs23 : EntSorted (cents ++ epost) := (List.pairwise_append.mp hs3).2.1
          have hscents : EntSorted cents := (List.pairwise_append.mp hs23).1
          obtain ⟨fuelC, hfind⟩ := hcomp hscents
          have hok : PtNode.find (fuelC + 1) repo (PtItem.ref k0 h0 :: rest) key =
              .ok (plookup key cents) := by
            rw [pfind_succ_ref, hpp, if_pos hz, hat]
            show (match getNode repo h1 with
              | some child2 => PtNode.find fuelC repo child2 key
              | none => Except.error (PtError.refNotFound (some h1))) =
                Except.ok (plookup key cents)
            rw [hget]
            exact hfind
          have heq := pfind_sound (fuelC + 1) hok hf hu hs
          refine ⟨fuelC + 1, ?_⟩
          rw [hok, heq]
      · refine ⟨1, ?_⟩
        rw [pfind_succ_ref, hpp, if_neg hz]
        have hok : PtNode.find 1 repo (PtItem.ref k0 h0 :: rest) key = .ok none := by
          rw [pfind_succ_ref, hpp, if_neg hz]
        have := pfind_sound 1 hok hf hu hs
        rw [this]

/-- Every child referenced anywhere in a represented run admits a
complete find for every key. -/
theorem fent_children_complete {repo : NodeRepo H (PtNode K V H)} {key : K} :
    ∀ {node : PtNode K V H} {ents : List (K × V)}, FEnt repo node ents →
      ∀ pre k h post, node = pre ++ PtItem.ref k h :: post →
      ∃ child cents, getNode repo h = some child ∧ FEnt repo child cents ∧
        (EntSorted cents → ∃ fuel, PtNode.find fuel repo child key =
          .ok (plookup key cents)) := by
  intro node ents hf
  induction hf with
  | nil =>
    intro pre k h post hdec
    cases pre <;> cases hdec
  | pay k2 v2 rest rents hr ih =>
    intro pre k h post hdec
    cases pre with
    | nil => cases hdec
    | cons x pre' =>
      injection hdec with he1 he2
      exact ih pre' k h post he2
  | ref k2 h2 child cents rents rest hget hu hc hhead hr ihc ihr =>
    intro pre k h post hdec
    cases pre with
    | nil =>
      injection hdec with he1 he2
      injection he1 with hek heh
      subst hek
      subst heh
      subst he2
      refine ⟨child, cents, hget, hc, ?_⟩
      intro hscents
      exact pfind_complete_step hc hu hscents (fun pre2 k3 h3 post2 hdec2 => ihc pre2 k3 h3 post2 hdec2)
    | cons x pre' =>
      injection hdec with he1 he2
      exact ihr pre' k h post he2

/-- On every represented uniform sorted tree some fuel makes find return
the association lookup. -/
theorem pfind_complete {repo : NodeRepo H (PtNode K V H)}
    {node : PtNode K V H} {ents : List (K × V)} {key : K}
    (hf : FEnt repo node ents) (hu : UniformNode node) (hs : EntSorted ents) :
    ∃ fuel, PtNode.find fuel repo node key = .ok (plookup key ents) :=
  pfind_complete_step hf hu hs
    (fun pre k h post hdec => fent_children_complete hf pre k h post hdec)

end PtFindComplete

section PtChunkFent

variable {K V H : Type} [LinearOrder K] [DecidableEq H]

/-- A payload list represents its own pairs. -/
theorem fent_of_payloads {repo : NodeRepo H (PtNode K V H)} :
    ∀ ps : List (K × V), FEnt repo (ps.map fun p => PtItem.payload p.1 p.2) ps := by
  intro ps
  induction ps with
  | nil => exact .nil
  | cons p rest ih => exact .pay p.1 p.2 _ _ ih

/-- The entries of a non-empty run start at its first item's key. -/
theorem fent_head_key {repo : NodeRepo H (PtNode K V H)}
    {it : PtItem K V H} {rest : PtNode K V H} {ents : List (K × V)}
    (hf : FEnt repo (it :: rest) ents) :
    ents.head?.map Prod.fst = some (PtItem.key it) := by
  cases hf with
  | pay k v _ rents hr => rfl
  | ref k h child cents rents _ hget hu hc hhead hr =>
    cases cents with
    | nil => cases hhead
    | cons p ps =>
      simp only [List.cons_append, List.head?_cons, Option.map_some]
      simpa using hhead

/-- Uniformity restricts to sublists of the concatenation. -/
theorem uniform_of_subset {node sub : PtNode K V H}
    (hu : UniformNode node) (hsub : ∀ it ∈ sub, it ∈ node) : UniformNode sub := by
  cases hu with
  | inl hp => exact .inl fun it hit => hp it (hsub it hit)
  | inr hr => exact .inr fun it hit => hr it (hsub it hit)

/-- Re-chunking a represented uniform run preserves its entries and
returns a run of references. -/
theorem chunk_and_save_fent (kb : K → List Nat) (hashP : PtNode K V H → H)
    (hinj : Function.Injective hashP) {repo : NodeRepo H (PtNode K V H)}
    {items : PtNode K V H} {ents : List (K × V)}
    (hrh : repoHashed hashP repo) (hf : FEnt repo items ents)
    (hu : UniformNode items) :
    FEnt (PtNode.chunk_and_save kb hashP repo items).1
      (PtNode.chunk_and_save kb hashP repo items).2 ents ∧
    (∀ it ∈ (PtNode.chunk_and_save kb hashP repo items).2, ∃ k h, it = PtItem.ref k h) := by
  obtain ⟨newrefs, hjoin, hne, hout, hfa⟩ :=
    chunkAux_spec kb hashP hinj items repo RollingHash.new [] [] hrh
  have hev : Evolves hashP repo (PtNode.chunk_and_save kb hashP repo items).1 :=
    chunk_and_save_evolves kb hashP repo items
  simp only [List.nil_append] at hjoin
  have hmain : ∀ (chunks : List (PtNode K V H)) (refs : List (PtItem K V H))
      (e : List (K × V)),
      List.Forall₂ (fun (c : PtNode K V H) (r : PtItem K V H) =>
        (∃ c0 crest, c = c0 :: crest ∧ r = PtItem.ref (PtItem.key c0) (hashP c)) ∧
        getNode (PtNode.chunk_and_save kb hashP repo items).1 (hashP c) = some c)
        chunks refs →
      FEnt repo chunks.join e →
      (∀ c ∈ chunks, UniformNode c) →
      FEnt (PtNode.chunk_and_save kb hashP repo items).1 refs e ∧
      (∀ it ∈ refs, ∃ k h, it = PtItem.ref k h) := by
    intro chunks
    induction chunks with
    | nil =>
      intro refs e hfa2 hfj _
      cases hfa2
      cases hfj with
      | nil => exact ⟨.nil, fun it hit => absurd hit (List.not_mem_nil it)⟩
    | cons c chunks ih =>
      intro refs e hfa2 hfj hcu
      cases hfa2 with
      | cons hrel hfa3 =>
        obtain ⟨⟨c0, crest, hc, hr⟩, hget⟩ := hrel
        obtain ⟨ec, erest, hedec, hfc, hfrest⟩ := fent_split c (by
          rw [show (c :: chunks).join = c ++ chunks.join from rfl] at hfj
          exact hfj)
        obtain ⟨hfr, hallr⟩ := ih _ erest hfa3 hfrest
          (fun c2 hc2 => hcu c2 (List.mem_cons_of_mem _ hc2))
        subst hedec
        subst hr
        constructor
        · refine .ref (PtItem.key c0) (hashP c) c ec erest _ hget ?_ ?_ ?_ hfr
          · exact hcu c (List.mem_cons_self _ _)
          · exact fent_mono hev hfc
          · rw [hc] at hfc
            exact fent_head_key hfc
        · intro it hit
          cases List.mem_cons.mp hit with
          | inl he => exact ⟨PtItem.key c0, hashP c, he⟩
          | inr hm => exact hallr it hm
  have hout2 : (PtNode.chunk_and_save kb hashP repo items).2 = newrefs := by
    show (PtNode.chunkAux kb hashP repo RollingHash.new [] [] items).2 = newrefs
    rw [hout]
    rfl
  rw [hout2]
  refine hmain _ newrefs ents hfa ?_ ?_
  · rw [hjoin]
    exact hf
  · intro c hc
    refine uniform_of_subset hu ?_
    intro it hit
    rw [← hjoin]
    exact List.mem_join.mpr ⟨c, hc, hit⟩

end PtChunkFent

section PtUpsertPrep

variable {K V H : Type} [LinearOrder K] [DecidableEq H]

/-- upEnts passes over a prefix of strictly smaller keys. -/
theorem upEnts_append_lt {key : K} {value : V} :
    ∀ {a t : List (K × V)}, (∀ p ∈ a, p.1 < key) →
      upEnts key value (a ++ t) = a ++ upEnts key value t := by
  intro a
  induction a with
  | nil => intro t _; rfl
  | cons q a ih =>
    intro t ha
    have hq : q.1 < key := ha q (List.mem_cons_self _ _)
    obtain ⟨k, v⟩ := q
    simp only [List.cons_append, upEnts, if_pos hq]
    show (k, v) :: upEnts key value (a ++ t) = (k, v) :: (a ++ upEnts key value t)
    rw [ih (fun p hp => ha p (List.mem_cons_of_mem _ hp))]

/-- upEnts never reaches a suffix of strictly larger keys. -/
theorem upEnts_append_gt {key : K} {value : V} :
    ∀ {b c : List (K × V)}, (∀ p ∈ c, key < p.1) →
      upEnts key value (b ++ c) = upEnts key value b ++ c := by
  intro b
  induction b with
  | nil =>
    intro c hc
    cases c with
    | nil => rfl
    | cons q c =>
      have hq : key < q.1 := hc q (List.mem_cons_self _ _)
      obtain ⟨k, v⟩ := q
      have hq' : key < k := hq
      simp only [List.nil_append, upEnts]
      rw [if_neg (by intro hlt; exact absurd (lt_trans hlt hq') (lt_irrefl k)),
        if_neg (by intro he; rw [he] at hq'; exact absurd hq' (lt_irrefl key))]
      rfl
  | cons q b ih =>
    intro c hc
    obtain ⟨k, v⟩ := q
    simp only [List.cons_append, upEnts]
    by_cases h1 : k < key
    · rw [if_pos h1, if_pos h1]
      show (k, v) :: upEnts key value (b ++ c) = (k, v) :: upEnts key value b ++ c
      rw [ih hc]
      rfl
    · rw [if_neg h1, if_neg h1]
      by_cases h2 : k = key
      · rw [if_pos h2, if_pos h2]
        rfl
      · rw [if_neg h2, if_neg h2]
        rfl

/-- The leaf upsert of the code computes exactly the abstract sorted
upsert: setting at the partition index on an equal key, inserting there
otherwise. -/
theorem leaf_upsert_items {key : K} {value : V} :
    ∀ (ents : List (K × V)), EntSorted ents →
      (let node : PtNode K V H := ents.map fun p => PtItem.payload p.1 p.2
       let idx := node.countP fun it => compare (PtItem.key it) key == Ordering.lt
       let isEq : Bool :=
         match node[idx]? with
         | some it => compare (PtItem.key it) key == Ordering.eq
         | none => false
       (if isEq then node.set idx (PtItem.payload key value)
        else node.insertIdx idx (PtItem.payload key value)) =
         (upEnts key value ents).map fun p => PtItem.payload p.1 p.2) := by
  intro ents
  induction ents with
  | nil =>
    intro _
    rfl
  | cons q rest ih =>
    intro hs
    obtain ⟨k, v⟩ := q
    simp only [List.map_cons]
    by_cases h1 : k < key
    · have hpt : (compare (PtItem.key (K := K) (V := V) (H := H)
          (PtItem.payload k v)) key == Ordering.lt) = true := by
        show (compare k key == Ordering.lt) = true
        exact plt_bool_iff.mpr h1
      have hcount : (PtItem.payload k v ::
          (rest.map fun p => PtItem.payload (K := K) (V := V) (H := H) p.1 p.2)).countP
            (fun it => compare (PtItem.key it) key == Ordering.lt) =
          (rest.map fun p => PtItem.payload (K := K) (V := V) (H := H) p.1 p.2).countP
            (fun it => compare (PtItem.key it) key == Ordering.lt) + 1 := by
        rw [List.countP_cons, if_pos hpt]
      simp only [hcount]
      have ih2 := ih (List.pairwise_cons.mp hs).2
      simp only at ih2
      simp only [upEnts, if_pos h1, List.map_cons]
      simp only [List.getElem?_cons_succ]
      cases hieq : (match (rest.map fun p =>
          PtItem.payload (K := K) (V := V) (H := H) p.1 p.2)[
            (rest.map fun p => PtItem.payload (K := K) (V := V) (H := H) p.1 p.2).countP
              (fun it => compare (PtItem.key it) key == Ordering.lt)]? with
          | some it => compare (PtItem.key it) key == Ordering.eq
          | none => false) with
      | true =>
        rw [hieq] at ih2
        rw [if_pos rfl] at ih2
        simp only [List.set_cons_succ]
        rw [ih2]
        rw [if_pos trivial]
      | false =>
        rw [hieq] at ih2
        rw [if_neg (by intro hc; cases hc)] at ih2
        simp only [List.insertIdx_succ_cons]
        rw [ih2]
        rw [if_neg (fun hc => Bool.noConfusion hc)]
    · -- the head key is not below: the position is the front
      have hpt : (compare (PtItem.key (K := K) (V := V) (H := H)
          (PtItem.payload k v)) key == Ordering.lt) = false := by
        show (compare k key == Ordering.lt) = false
        cases hx : (compare k key == Ordering.lt) with
        | false => rfl
        | true => exact absurd (plt_bool_iff.mp hx) h1
      have hrest0 : (rest.map fun p => PtItem.payload (K := K) (V := V) (H := H) p.1 p.2).countP
          (fun it => compare (PtItem.key it) key == Ordering.lt) = 0 := by
        rw [List.countP_eq_zero]
        intro it hit
        obtain ⟨p, hp, he⟩ := List.mem_map.mp hit
        subst he
        show ¬ (compare p.1 key == Ordering.lt) = true
        intro hx
        have hkp : k < p.1 := (List.pairwise_cons.mp hs).1 p hp
        exact absurd (lt_trans hkp (plt_bool_iff.mp hx)) h1
      have hcount : (PtItem.payload k v ::
          (rest.map fun p => PtItem.payload (K := K) (V := V) (H := H) p.1 p.2)).countP
            (fun it => compare (PtItem.key it) key == Ordering.lt) = 0 := by
        rw [List.countP_cons, if_neg (by rw [hpt]; intro hc; cases hc), hrest0]
      simp only [hcount]
      by_cases h2 : k = key
      · have hieq : (compare (PtItem.key (K := K) (V := V) (H := H)
            (PtItem.payload k v)) key == Ordering.eq) = true := by
          show (compare k key == Ordering.eq) = true
          rw [h2, compare_self_eq]
          rfl
        simp only [List.getElem?_cons_zero, hieq, if_pos rfl]
        simp only [upEnts, if_neg h1, if_pos h2, List.map_cons, List.set_cons_zero]
        rw [if_pos trivial]
      · have hieq : (compare (PtItem.key (K := K) (V := V) (H := H)
            (PtItem.payload k v)) key == Ordering.eq) = false := by
          show (compare k key == Ordering.eq) = false
          cases hx : (compare k key == Ordering.eq) with
          | false => rfl
          | true => exact absurd (compare_eq_iff_eq.mp (by
              cases hy : compare k key with
              | eq => rfl
              | lt => rw [hy] at hx; cases hx
              | gt => rw [hy] at hx; cases hx)) h2
        simp only [List.getElem?_cons_zero, hieq]
        rw [if_neg (by intro hc; cases hc)]
        simp only [upEnts, if_neg h1, if_neg h2, List.map_cons]
        rfl

end PtUpsertPrep

section PtUpsertFent

variable {K V H : Type} [LinearOrder K] [DecidableEq H]

/-- The PT upsert returns a run of references carrying the upserted
entries. -/
theorem pt_upsert_fent (kb : K → List Nat) (hashP : PtNode K V H → H)
    (hinj : Function.Injective hashP) :
    ∀ (fuel : Nat) {repo : NodeRepo H (PtNode K V H)} {node : PtNode K V H}
      {key : K} {value : V} {repo1 : NodeRepo H (PtNode K V H)}
      {rs : PtNode K V H} {ents : List (K × V)},
      PtNode.upsert kb hashP fuel repo node key value = .ok (repo1, rs) →
      repoHashed hashP repo → FEnt repo node ents → UniformNode node →
      EntSorted ents →
      FEnt repo1 rs (upEnts key value ents) ∧
      (∀ it ∈ rs, ∃ k2 h2, it = PtItem.ref k2 h2) := by
  intro fuel
  induction fuel with
  | zero => intro repo node key value repo1 rs ents h; cases h
  | succ fuel ih =>
    intro repo node key value repo1 rs ents h hrh hf hu hs
    simp only [PtNode.upsert] at h
    cases hnode : node with
    | nil =>
      subst hnode
      simp only [List.isEmpty_nil, Bool.true_or, if_pos] at h
      cases hf with
      | nil =>
        have hitems : ([] : PtNode K V H).insertIdx
            (partition_point (fun it => compare (PtItem.key it) key == Ordering.lt)
              ([] : PtNode K V H)) (PtItem.payload key value) =
            [PtItem.payload key value] := by
          rfl
        rw [show partition_point (fun it : PtItem K V H =>
            compare (PtItem.key it) key == Ordering.lt) [] = 0 from rfl] at h
        simp only [List.getElem?_nil] at h
        rw [show (([] : PtNode K V H).insertIdx 0 (PtItem.payload key value)) =
          [PtItem.payload key value] from rfl] at h
        rw [if_neg (fun hc => Bool.noConfusion hc)] at h
        injection h with h
        have h1 := congrArg Prod.fst h
        have h2 := congrArg Prod.snd h
        simp only at h1 h2
        subst h1
        subst h2
        have hfe : FEnt repo ([PtItem.payload key value]) [(key, value)] :=
          fent_of_payloads [(key, value)]
        have := chunk_and_save_fent kb hashP hinj hrh hfe
          (.inl fun it hit => by
            cases List.mem_singleton.mp hit
            exact ⟨key, value, rfl⟩)
        exact this
    | cons first rest =>
      subst hnode
      cases first with
      | payload k0 v0 =>
        simp only [List.isEmpty_cons, List.head?_cons, Bool.false_or] at h
        rw [if_pos trivial] at h
        have hall : ∀ it ∈ (PtItem.payload k0 v0 :: rest), ∃ k v, it = PtItem.payload k v := by
          cases hu with
          | inl hp => exact hp
          | inr hrr =>
            obtain ⟨k2, h2, he⟩ := hrr (PtItem.payload k0 v0) (List.mem_cons_self _ _)
            cases he
        have hnodee : (PtItem.payload k0 v0 :: rest) =
            ents.map fun p => PtItem.payload p.1 p.2 := fent_payload_run hf hall
        have hsk : List.Pairwise (fun a b => PtItem.key a < PtItem.key b)
            (PtItem.payload k0 v0 :: rest) := fent_keys_sorted hf hs
        have hmono : ∀ a b : PtItem K V H, PtItem.key a ≤ PtItem.key b →
            ((compare (PtItem.key b) key == Ordering.lt)) = true →
            ((compare (PtItem.key a) key == Ordering.lt)) = true := by
          intro a b hab hb
          exact plt_bool_iff.mpr (lt_of_le_of_lt hab (plt_bool_iff.mp hb))
        obtain ⟨hpp, hiff⟩ := pt_pp_count (p := fun it =>
          compare (PtItem.key it) key == Ordering.lt) hsk hmono
        rw [hpp] at h
        have hitems := @leaf_upsert_items K V H _ _ key value ents hs
        simp only at hitems
        rw [hnodee] at h
        rw [hitems] at h
        injection h with h
        have h1 := congrArg Prod.fst h
        have h2 := congrArg Prod.snd h
        simp only at h1 h2
        subst h1
        subst h2
        have hfe : FEnt repo ((upEnts key value ents).map fun p =>
            PtItem.payload p.1 p.2) (upEnts key value ents) :=
          fent_of_payloads _
        exact chunk_and_save_fent kb hashP hinj hrh hfe
          (.inl fun it hit => by
            obtain ⟨p, hp, he⟩ := List.mem_map.mp hit
            exact ⟨p.1, p.2, he.symm⟩)
      | ref k0 h0 =>
        simp only [List.isEmpty_cons, List.head?_cons, Bool.false_or] at h
        rw [if_neg (fun hc => Bool.noConfusion hc)] at h
        have hallr : ∀ it ∈ (PtItem.ref k0 h0 :: rest), ∃ k h2, it = PtItem.ref k h2 := by
          cases hu with
          | inr hp => exact hp
          | inl hrr =>
            obtain ⟨k2, v2, he⟩ := hrr (PtItem.ref k0 h0) (List.mem_cons_self _ _)
            cases he
        have hsk : List.Pairwise (fun a b => PtItem.key a < PtItem.key b)
            (PtItem.ref k0 h0 :: rest) := fent_keys_sorted hf hs
        have hmono : ∀ a b : PtItem K V H, PtItem.key a ≤ PtItem.key b →
            (!(compare (PtItem.key b) key == Ordering.gt)) = true →
            (!(compare (PtItem.key a) key == Ordering.gt)) = true := by
          intro a b hab hb
          exact ple_bool_iff.mpr (le_trans hab (ple_bool_iff.mp hb))
        obtain ⟨hpp, hiff⟩ := pt_pp_count (p := fun it =>
          !(compare (PtItem.key it) key == Ordering.gt)) hsk hmono
        rw [hpp] at h
        set n := (PtItem.ref k0 h0 :: rest).countP
          (fun it => !(compare (PtItem.key it) key == Ordering.gt)) with hN
        have hlen : n ≤ (PtItem.ref k0 h0 :: rest).length := List.countP_le_length _
        have hci : n - 1 < (PtItem.ref k0 h0 :: rest).length := by
          have h2 := hlen
          simp only [List.length_cons] at h2 ⊢
          omega
        obtain ⟨k1, h1, hgete⟩ :=
          hallr _ (List.get_mem (PtItem.ref k0 h0 :: rest) (n-1) hci)
        have hat : (PtItem.ref k0 h0 :: rest)[n-1]? = some (PtItem.ref k1 h1) := by
          rw [List.getElem?_eq_getElem hci]
          rw [show (PtItem.ref k0 h0 :: rest)[n-1] =
            (PtItem.ref k0 h0 :: rest).get ⟨n-1, hci⟩ from rfl, hgete]
        simp only [hat] at h
        cases hget : getNode repo h1 with
        | none =>
          rw [PtNode.load, hget] at h
          simp only [bind, Except.bind] at h
          cases h
        | some child =>
          rw [PtNode.load, hget] at h
          simp only [bind, Except.bind] at h
          cases hup : PtNode.upsert kb hashP fuel repo child key value with
          | error e => rw [hup] at h; cases h
          | ok res =>
            obtain ⟨repoC, rs'⟩ := res
            simp only [hup] at h
            injection h with h
            have h1e := congrArg Prod.fst h
            have h2e := congrArg Prod.snd h
            simp only at h1e h2e
            obtain ⟨pre, post, hdec, hprel⟩ := getElem?_decomp hat
            obtain ⟨epre, e2, hedec, hfpre, hf2⟩ := fent_split pre (hdec ▸ hf)
            cases hf2 with
            | ref _ _ child2 cents epost rest2 hget2 hu2 hfc2 hhead2 hfpost =>
              rw [hget] at hget2
              injection hget2 with he
              subst he
              have hs3 : EntSorted (epre ++ (cents ++ epost)) := by
                rw [← hedec]
                exact hs
              have hs23 : EntSorted (cents ++ epost) := (List.pairwise_append.mp hs3).2.1
              have hscents : EntSorted cents := (List.pairwise_append.mp hs23).1
              obtain ⟨hfrs, hallrs⟩ := ih hup hrh hfc2 hu2 hscents
              have hevC : Evolves hashP repo repoC :=
                pt_upsert_evolves kb hashP fuel repo child key value repoC rs' hup
              have hrhC : repoHashed hashP repoC := hevC.repoHashed_mono hrh
              have htake : (PtItem.ref k0 h0 :: rest).take (n - 1) = pre := by
                rw [hdec, ← hprel]
                exact take_append_mid pre _
              have hdrop : (PtItem.ref k0 h0 :: rest).drop (n - 1 + 1) = post := by
                rw [hdec, ← hprel]
                exact drop_append_succ pre _ _
              rw [htake, hdrop] at h1e h2e
              -- entries of the spliced run
              have hsplice : FEnt repoC ((pre ++ rs') ++ post)
                  ((epre ++ upEnts key value cents) ++ epost) :=
                fent_append (fent_append (fent_mono hevC hfpre) hfrs)
                  (fent_mono hevC hfpost)
              have husplice : UniformNode ((pre ++ rs') ++ post) := by
                refine .inr ?_
                intro it hit
                cases List.mem_append.mp hit with
                | inl hm =>
                  cases List.mem_append.mp hm with
                  | inl hm2 =>
                    exact hallr it (by rw [hdec]; exact List.mem_append_left _ hm2)
                  | inr hm2 => exact hallrs it hm2
                | inr hm =>
                  exact hallr it (by
                    rw [hdec]
                    exact List.mem_append_right _ (List.mem_cons_of_mem _ hm))
              obtain ⟨hfout, hallout⟩ :=
                chunk_and_save_fent kb hashP hinj hrhC hsplice husplice
              -- the abstract upsert acts inside the probed block
              have hepre_lt : ∀ p ∈ epre, p.1 < key := by
                intro p hp
                by_cases hz : 0 < n
                · have hkey1 : k1 ≤ key := by
                    have := (hiff (n-1) hci).mpr (by omega)
                    rw [hgete] at this
                    exact ple_bool_iff.mp this
                  have hlt2 : p.1 < k1 := by
                    have hcm : ∀ y ∈ cents ++ epost, p.1 < y.1 :=
                      fun y hy => (List.pairwise_append.mp hs3).2.2 p hp y hy
                    cases cents with
                    | nil => cases hhead2
                    | cons q qs =>
                      have hq : q.1 = k1 := by simpa using hhead2
                      have := hcm q (List.mem_append_left _ (List.mem_cons_self _ _))
                      rw [hq] at this
                      exact this
                  exact lt_of_lt_of_le hlt2 hkey1
                · -- the probe is the first item, so the prefix is empty
                  have hn0 : n = 0 := by omega
                  have : pre = [] := by
                    have := hprel
                    rw [hn0] at this
                    simpa using List.length_eq_zero.mp this
                  rw [this] at hfpre
                  cases hfpre with
                  | nil => cases hp
              have hepost_gt : ∀ p ∈ epost, key < p.1 := by
                intro p hp
                cases hpost : post with
                | nil =>
                  subst hpost
                  cases hfpost with
                  | nil => cases hp
                | cons pit prest =>
                  subst hpost
                  obtain ⟨k2, h2, hpe⟩ := hallr pit (by
                    rw [hdec]
                    exact List.mem_append_right _ (List.mem_cons_of_mem _
                      (List.mem_cons_self _ _)))
                  subst hpe
                  have hhead3 : epost.head?.map Prod.fst = some k2 := fent_ref_head hfpost
                  have hsepost : EntSorted epost := (List.pairwise_append.mp hs23).2.1
                  have hjlen : n - 1 + 1 < (PtItem.ref k0 h0 :: rest).length := by
                    rw [hdec]
                    simp only [List.length_append, List.length_cons]
                    omega
                  have hk2at : (PtItem.ref k0 h0 :: rest)[n - 1 + 1]? =
                      some (PtItem.ref k2 h2) := by
                    rw [show (PtItem.ref k0 h0 :: rest) =
                      (pre ++ [PtItem.ref k1 h1]) ++ (PtItem.ref k2 h2 :: prest) from by
                        rw [hdec, List.append_assoc]; rfl]
                    rw [List.getElem?_append_right (by
                      simp only [List.length_append, List.length_cons, List.length_nil]
                      omega)]
                    simp only [List.length_append, List.length_cons, List.length_nil]
                    rw [show n - 1 + 1 - (pre.length + (0 + 1)) = 0 from by omega]
                    simp
                  have hgetn : (PtItem.ref k0 h0 :: rest).get ⟨n - 1 + 1, hjlen⟩ =
                      PtItem.ref k2 h2 := by
                    have h3 := hk2at
                    rw [List.getElem?_eq_getElem hjlen] at h3
                    exact Option.some.inj h3
                  have hnp : ¬ ((!(compare k2 key == Ordering.gt)) = true) := by
                    intro hc
                    have h2b := (hiff (n - 1 + 1) hjlen).mp (by rw [hgetn]; exact hc)
                    omega
                  have hkk2 : key < k2 := by
                    by_contra hc
                    exact hnp (ple_bool_iff.mpr (not_lt.mp hc))
                  have hge := entsorted_head_le hsepost hhead3 p hp
                  exact lt_of_lt_of_le hkk2 hge
              have hdist : upEnts key value (epre ++ (cents ++ epost)) =
                  (epre ++ upEnts key value cents) ++ epost := by
                rw [upEnts_append_lt hepre_lt, upEnts_append_gt hepost_gt,
                  List.append_assoc]
              subst h1e
              subst h2e
              rw [hedec, hdist]
              exact ⟨hfout, hallout⟩

end PtUpsertFent

section PtCollapseFent

variable {K V H : Type} [LinearOrder K] [DecidableEq H]

/-- The collapse loop preserves the represented entries and returns at
most one reference. -/
theorem pt_collapse_fent (kb : K → List Nat) (hashP : PtNode K V H → H)
    (hinj : Function.Injective hashP) :
    ∀ (fuelC : Nat) {repo : NodeRepo H (PtNode K V H)} {rs : PtNode K V H}
      {repo2 : NodeRepo H (PtNode K V H)} {rs2 : PtNode K V H} {ents : List (K × V)},
      PtNode.collapse kb hashP fuelC repo rs = .ok (repo2, rs2) →
      repoHashed hashP repo → FEnt repo rs ents →
      (∀ it ∈ rs, ∃ k h, it = PtItem.ref k h) →
      FEnt repo2 rs2 ents ∧ (∀ it ∈ rs2, ∃ k h, it = PtItem.ref k h) ∧
        rs2.length ≤ 1 := by
  intro fuelC
  induction fuelC with
  | zero =>
    intro repo rs repo2 rs2 ents h hrh hf hall
    simp only [PtNode.collapse] at h
    by_cases hl : rs.length ≤ 1
    · rw [if_pos hl] at h
      injection h with h
      have h1 := congrArg Prod.fst h
      have h2 := congrArg Prod.snd h
      simp only at h1 h2
      subst h1
      subst h2
      exact ⟨hf, hall, hl⟩
    · rw [if_neg hl] at h
      cases h
  | succ fuelC ih =>
    intro repo rs repo2 rs2 ents h hrh hf hall
    simp only [PtNode.collapse] at h
    by_cases hl : rs.length ≤ 1
    · rw [if_pos hl] at h
      injection h with h
      have h1 := congrArg Prod.fst h
      have h2 := congrArg Prod.snd h
      simp only at h1 h2
      subst h1
      subst h2
      exact ⟨hf, hall, hl⟩
    · rw [if_neg hl] at h
      obtain ⟨hfc, hallc⟩ := chunk_and_save_fent kb hashP hinj hrh hf (.inr hall)
      have hev : Evolves hashP repo (PtNode.chunk_and_save kb hashP repo rs).1 :=
        chunk_and_save_evolves kb hashP repo rs
      exact ih h (hev.repoHashed_mono hrh) hfc hallc

end PtCollapseFent

section MstFindComplete

variable {K V H : Type} [LinearOrder K] [DecidableEq H]

/-- findAux is monotone in its fuel. -/
theorem findAux_mono {repo : NodeRepo H (MstNode K V H)} {key : K} :
    ∀ {fuel : Nat} {prev : Option (MstItem K V H)} {node : MstNode K V H}
      {r : Option V},
      MstNode.findAux repo key fuel prev node = .ok r →
      MstNode.findAux repo key (fuel + 1) prev node = .ok r := by
  intro fuel
  induction fuel with
  | zero => intro prev node r h; cases h
  | succ fuel ih =>
    intro prev node r h
    cases node with
    | nil =>
      cases prev with
      | none => exact h
      | some it =>
        cases it with
        | payload k v => exact h
        | ref h2 =>
          cases hget : getNode repo h2 with
          | none =>
            simp only [MstNode.findAux, hget] at h
            exact absurd h (by simp)
          | some child =>
            simp only [MstNode.findAux, hget] at h ⊢
            exact ih h
    | cons it rest =>
      cases it with
      | payload k v =>
        cases hc : compare key k with
        | eq =>
          simp only [MstNode.findAux, hc] at h ⊢
          exact h
        | gt =>
          simp only [MstNode.findAux, hc] at h ⊢
          exact ih h
        | lt =>
          cases prev with
          | none =>
            simp only [MstNode.findAux, hc] at h ⊢
            exact h
          | some it2 =>
            cases it2 with
            | payload k2 v2 =>
              simp only [MstNode.findAux, hc] at h ⊢
              exact h
            | ref h2 =>
              cases hget : getNode repo h2 with
              | none =>
                simp only [MstNode.findAux, hc, hget] at h
                exact absurd h (by simp)
              | some child =>
                simp only [MstNode.findAux, hc, hget] at h ⊢
                exact ih h
      | ref h2 =>
        simp only [MstNode.findAux] at h ⊢
        exact ih h

/-- Every result of the find graph is reached by the fueled scan with
enough fuel. -/
theorem findr_complete {repo : NodeRepo H (MstNode K V H)} {key : K} :
    ∀ {prev : Option (MstItem K V H)} {node : MstNode K V H} {r : Option V},
      FindR repo key prev node r →
      ∃ fuel, MstNode.findAux repo key fuel prev node = .ok r := by
  intro prev node r h
  induction h with
  | nil_plain prev hnr =>
    refine ⟨1, ?_⟩
    cases prev with
    | none => rfl
    | some it =>
      cases it with
      | payload k v => rfl
      | ref h2 => exact Bool.noConfusion hnr
  | nil_ref h2 child r hget hrec ih =>
    obtain ⟨fuel, hf⟩ := ih
    refine ⟨fuel + 1, ?_⟩
    simp only [MstNode.findAux, hget]
    exact hf
  | pay_eq prev k v rest hcmp =>
    refine ⟨1, ?_⟩
    simp only [MstNode.findAux, hcmp]
  | pay_lt_ref h2 child k v rest r hcmp hget hrec ih =>
    obtain ⟨fuel, hf⟩ := ih
    refine ⟨fuel + 1, ?_⟩
    simp only [MstNode.findAux, hcmp, hget]
    exact hf
  | pay_lt_plain prev k v rest hcmp hnr =>
    refine ⟨1, ?_⟩
    cases prev with
    | none => simp only [MstNode.findAux, hcmp]
    | some it =>
      cases it with
      | payload k2 v2 => simp only [MstNode.findAux, hcmp]
      | ref h2 => exact Bool.noConfusion hnr
  | pay_gt prev k v rest r hcmp hrec ih =>
    obtain ⟨fuel, hf⟩ := ih
    refine ⟨fuel + 1, ?_⟩
    simp only [MstNode.findAux, hcmp]
    exact hf
  | step_ref prev h2 rest r hrec ih =>
    obtain ⟨fuel, hf⟩ := ih
    refine ⟨fuel + 1, ?_⟩
    simp only [MstNode.findAux]
    exact hf

end MstFindComplete

section DbInvariant

variable {H : Type} [DecidableEq H]

/-- A table upsert makes the upserted key resolve to the new value. -/
theorem getNode_tableInsert_self {κ ω : Type} [DecidableEq κ] (k : κ) (w : ω) :
    ∀ l : List (κ × ω), getNode (tableInsert l k w) k = some w := by
  have hmap : ∀ l : List (κ × ω),
      (l.find? fun p => decide (p.1 = k)).isSome = true →
      getNode (l.map fun p => if p.1 = k then (k, w) else p) k = some w := by
    intro l
    induction l with
    | nil => intro hf; simp [List.find?] at hf
    | cons p t ih =>
      intro hf
      obtain ⟨pk, pv⟩ := p
      by_cases hp : pk = k
      · simp only [List.map_cons]
        rw [show (if (pk, pv).1 = k then (k, w) else (pk, pv)) = (k, w) from if_pos hp]
        rw [getNode_cons, if_pos rfl]
      · simp only [List.map_cons]
        rw [show (if (pk, pv).1 = k then (k, w) else (pk, pv)) = (pk, pv) from if_neg hp]
        rw [getNode_cons, if_neg hp]
        apply ih
        rw [List.find?] at hf
        rw [show (decide ((pk, pv).1 = k)) = false from by simp [hp]] at hf
        exact hf
  intro l
  unfold tableInsert
  by_cases hf : (l.find? fun p => decide (p.1 = k)).isSome = true
  · rw [if_pos hf]
    exact hmap l hf
  · rw [if_neg hf]
    rw [getNode_cons, if_pos rfl]

/-- A table upsert leaves every other key's resolution unchanged. -/
theorem getNode_tableInsert_ne {κ ω : Type} [DecidableEq κ] (k k' : κ) (w : ω)
    (hne : k' ≠ k) :
    ∀ l : List (κ × ω), getNode (tableInsert l k w) k' = getNode l k' := by
  have hmap : ∀ l : List (κ × ω),
      getNode (l.map fun p => if p.1 = k then (k, w) else p) k' = getNode l k' := by
    intro l
    induction l with
    | nil => rfl
    | cons p t ih =>
      obtain ⟨pk, pv⟩ := p
      by_cases hp : pk = k
      · simp only [List.map_cons]
        rw [show (if (pk, pv).1 = k then (k, w) else (pk, pv)) = (k, w) from if_pos hp]
        rw [getNode_cons, if_neg (fun hc => hne hc.symm), getNode_cons,
          if_neg (fun hc => hne (hc.symm.trans hp))]
        exact ih
      · simp only [List.map_cons]
        rw [show (if (pk, pv).1 = k then (k, w) else (pk, pv)) = (pk, pv) from if_neg hp]
        rw [getNode_cons, getNode_cons]
        by_cases hk : pk = k'
        · rw [if_pos hk, if_pos hk]
        · rw [if_neg hk, if_neg hk]
          exact ih
  intro l
  unfold tableInsert
  by_cases hf : (l.find? fun p => decide (p.1 = k)).isSome = true
  · rw [if_pos hf]
    exact hmap l
  · rw [if_neg hf]
    rw [getNode_cons, if_neg (fun hc => hne hc.symm)]

/-- The most recent write after appending one more write. -/
theorem lastWrite_snoc (ws : List (String × String × String)) (e a v e' a' : String) :
    lastWrite (ws ++ [(e, a, v)]) e' a' =
      if e = e' ∧ a = a' then some v else lastWrite ws e' a' := by
  unfold lastWrite
  rw [List.foldl_append]
  rfl

/-- An empty item list represents no entries. -/
theorem fent_nil_inv {K V : Type} [LinearOrder K]
    {repo : NodeRepo H (PtNode K V H)} {ents : List (K × V)}
    (h : FEnt repo ([] : PtNode K V H) ents) : ents = [] := by
  cases h
  rfl

/-- A freshly initialized MST store satisfies the facade invariant with
the empty history. -/
theorem mstInv_init (lev : DbKey → Nat) (hashM : MstNode DbKey String H → H) :
    MstInv lev hashM (Db.init .mst) [] := by
  refine ⟨rfl, fun e a => rfl, fun p hp => absurd hp (List.not_mem_nil p),
    fun p hp => absurd hp (List.not_mem_nil p), ?_⟩
  exact fun e a => rfl

/-- A freshly initialized PT store satisfies the facade invariant with
the empty history. -/
theorem ptInv_init (hashP : PtNode DbKey String H → H) :
    PtInv hashP (Db.init .pt) [] := by
  refine ⟨rfl, fun e a => rfl, fun p hp => absurd hp (List.not_mem_nil p), ?_⟩
  exact fun e a => rfl

end DbInvariant

section DbInvariantMst

variable {H : Type} [DecidableEq H]

/-- Core of the MST write step: a successful upsert of the current root
extends the facade invariant to the snoc'd history. -/
theorem mstInv_write_core (lev : DbKey → Nat) (hashM : MstNode DbKey String H → H)
    (hinj : Function.Injective hashM) (fuel : Nat)
    {st : DbState H} {ws : List (String × String × String)} {e a v : String}
    {node node1 : MstNode DbKey String H} {repo1 : NodeRepo H (MstNode DbKey String H)}
    {h1 : H}
    (hup : MstNode.upsert lev hashM fuel st.repoM node (toLex (e, a)) v =
      .ok (repo1, node1, h1))
    (heng : st.engine = .mst)
    (heav : ∀ e' a', getNode st.eav (e', a') = lastWrite ws e' a')
    (hrh : repoHashed hashM st.repoM)
    (hrlh : repoLevelHomog lev st.repoM)
    (hlh : node.levelHomog lev)
    (hwf : Wf st.repoM none none node)
    (hfind : ∀ e' a', FindR st.repoM (toLex (e', a')) none node (lastWrite ws e' a')) :
    MstInv lev hashM
      { st with eav := tableInsert st.eav (e, a) v, repoM := repo1,
                refs := tableInsert st.refs ROOT_REF_NAME h1 }
      (ws ++ [(e, a, v)]) := by
  have hspec := (mst_ops_frame lev hashM fuel).1 st.repoM node (toLex (e, a)) v
    repo1 node1 h1 none none hup hinj hrh hrlh hlh hwf
    (fun x hx => by cases hx) (fun x hx => by cases hx)
  obtain ⟨hwf1, hg1, hfound, hframe⟩ := hspec
  have hhom := (mst_ops_homog lev hashM fuel).1 st.repoM node (toLex (e, a)) v
    repo1 node1 h1 hup hrlh hlh
  refine ⟨heng, ?_, ?_, hhom.1, ?_⟩
  · intro e' a'
    show getNode (tableInsert st.eav (e, a) v) (e', a') = _
    rw [lastWrite_snoc]
    by_cases hea : e = e' ∧ a = a'
    · rw [if_pos hea]
      obtain ⟨he, ha⟩ := hea
      subst he
      subst ha
      exact getNode_tableInsert_self (e, a) v st.eav
    · rw [if_neg hea]
      rw [getNode_tableInsert_ne (e, a) (e', a') v
        (fun hc => hea ⟨(congrArg Prod.fst hc).symm, (congrArg Prod.snd hc).symm⟩) st.eav]
      exact heav e' a'
  · show repoHashed hashM repo1
    exact ((mst_ops_evolve lev hashM fuel).1 _ _ _ _ _ _ _ hup).repoHashed_mono hrh
  · show match getNode (tableInsert st.refs ROOT_REF_NAME h1) ROOT_REF_NAME with
      | none => ∀ e' a', lastWrite (ws ++ [(e, a, v)]) e' a' = none
      | some h => ∃ root, getNode repo1 h = some root ∧ Wf repo1 none none root ∧
          MstNode.levelHomog lev root ∧
          ∀ e' a', FindR repo1 (toLex (e', a')) none root
            (lastWrite (ws ++ [(e, a, v)]) e' a')
    rw [getNode_tableInsert_self ROOT_REF_NAME h1 st.refs]
    refine ⟨node1, hg1, hwf1, ?_, ?_⟩
    · obtain ⟨h2m, hmem⟩ := getNode_mem hg1
      exact hhom.1 (h2m, node1) hmem
    · intro e' a'
      rw [lastWrite_snoc]
      by_cases hea : e = e' ∧ a = a'
      · rw [if_pos hea]
        obtain ⟨he, ha⟩ := hea
        subst he
        subst ha
        exact hfound
      · rw [if_neg hea]
        refine hframe (toLex (e', a')) (lastWrite ws e' a') ?_ (hfind e' a')
        intro hc
        have hc2 : (e', a') = (e, a) := toLex_inj.mp hc
        exact hea ⟨(congrArg Prod.fst hc2).symm, (congrArg Prod.snd hc2).symm⟩

/-- Db::write preserves the MST facade invariant. -/
theorem mstInv_write (lev : DbKey → Nat) (kb : DbKey → List Nat)
    (hashM : MstNode DbKey String H → H) (hashP : PtNode DbKey String H → H)
    (hinj : Function.Injective hashM) (fuel fuelC : Nat)
    {st st' : DbState H} {ws : List (String × String × String)} {e a v : String}
    (hm : MstInv lev hashM st ws)
    (hw : Db.write lev kb hashM hashP fuel fuelC st e a v = .ok st') :
    MstInv lev hashM st' (ws ++ [(e, a, v)]) := by
  obtain ⟨heng, heav, hrh, hrlh, hroot⟩ := hm
  simp only [Db.write, heng] at hw
  simp only [bind, Except.bind] at hw
  cases hrootg : getNode st.refs ROOT_REF_NAME with
  | none =>
    simp only [hrootg] at hw hroot
    cases hup : MstNode.upsert lev hashM fuel st.repoM [] (toLex (e, a)) v with
    | error e2 => rw [hup] at hw; simp only [Except.mapError] at hw; cases hw
    | ok res =>
      obtain ⟨repo1, node1, h1⟩ := res
      rw [hup] at hw
      simp only [Except.mapError, Except.ok.injEq] at hw
      subst hw
      rw [← heng]
      refine mstInv_write_core lev hashM hinj fuel hup heng heav hrh hrlh ?_ (.nil none none) ?_
      · intro k1 v1 k2 v2 h1m h2m
        exact absurd h1m (List.not_mem_nil _)
      · intro e' a'
        rw [hroot e' a']
        exact .nil_plain none rfl
  | some h0 =>
    simp only [hrootg] at hw hroot
    obtain ⟨root, hg, hwf, hlh, hfind⟩ := hroot
    simp only [MstNode.load, hg, Except.mapError, Except.bind] at hw
    cases hup : MstNode.upsert lev hashM fuel st.repoM root (toLex (e, a)) v with
    | error e2 => rw [hup] at hw; simp only [Except.mapError] at hw; cases hw
    | ok res =>
      obtain ⟨repo1, node1, h1⟩ := res
      rw [hup] at hw
      simp only [Except.mapError, Except.ok.injEq] at hw
      subst hw
      rw [← heng]
      exact mstInv_write_core lev hashM hinj fuel hup heng heav hrh hrlh hlh hwf hfind

end DbInvariantMst

section DbInvariantPt

variable {H : Type} [DecidableEq H]

/-- Core of the PT write step: a successful upsert followed by the
root-collapse loop yields a single root reference and extends the facade
invariant to the snoc'd history. -/
theorem ptInv_write_core (kb : DbKey → List Nat) (hashP : PtNode DbKey String H → H)
    (hinj : Function.Injective hashP) (fuel fuelC : Nat)
    {st : DbState H} {ws : List (String × String × String)} {e a v : String}
    {node : PtNode DbKey String H} {ents : List (DbKey × String)}
    (heng : st.engine = .pt)
    (heav : ∀ e' a', getNode st.eav (e', a') = lastWrite ws e' a')
    (hrh : repoHashed hashP st.repoP)
    (hf : FEnt st.repoP node ents) (hu : UniformNode node) (hs : EntSorted ents)
    (hlook : ∀ e' a', plookup (toLex (e', a')) ents = lastWrite ws e' a')
    {repo1 : NodeRepo H (PtNode DbKey String H)} {rs : PtNode DbKey String H}
    (hup : PtNode.upsert kb hashP fuel st.repoP node (toLex (e, a)) v = .ok (repo1, rs))
    {repo2 : NodeRepo H (PtNode DbKey String H)} {rs2 : PtNode DbKey String H}
    (hcol : PtNode.collapse kb hashP fuelC repo1 rs = .ok (repo2, rs2)) :
    ∃ k2 h2, rs2 = [PtItem.ref k2 h2] ∧
      PtInv hashP
        { st with eav := tableInsert st.eav (e, a) v, repoP := repo2,
                  refs := tableInsert st.refs ROOT_REF_NAME h2 }
        (ws ++ [(e, a, v)]) := by
  obtain ⟨hf1, hall1⟩ := pt_upsert_fent kb hashP hinj fuel hup hrh hf hu hs
  have hrh1 : repoHashed hashP repo1 :=
    (pt_upsert_evolves kb hashP fuel st.repoP node (toLex (e, a)) v repo1 rs hup).repoHashed_mono hrh
  obtain ⟨hf2, hall2, hlen⟩ := pt_collapse_fent kb hashP hinj fuelC hcol hrh1 hf1 hall1
  have hrh2 : repoHashed hashP repo2 :=
    (pt_collapse_evolves kb hashP fuelC repo1 rs repo2 rs2 hcol).repoHashed_mono hrh1
  cases hrs2 : rs2 with
  | nil =>
    rw [hrs2] at hf2
    exact absurd (fent_nil_inv hf2) (upEnts_ne_nil (toLex (e, a)) v ents)
  | cons it t =>
    have ht : t = [] := by
      rw [hrs2] at hlen
      simp only [List.length_cons] at hlen
      exact List.eq_nil_of_length_eq_zero (by omega)
    subst ht
    obtain ⟨k2, h2, hit⟩ := hall2 it (by rw [hrs2]; exact List.mem_cons_self it [])
    subst hit
    refine ⟨k2, h2, rfl, ?_⟩
    rw [hrs2] at hf2
    generalize hE : upEnts (toLex (e, a)) v ents = ents1 at hf2
    cases hf2 with
    | ref k h child cents rents rest hget huc hfc hhead hfr =>
      have hrents : rents = [] := fent_nil_inv hfr
      subst hrents
      rw [List.append_nil] at hE
      refine ⟨heng, ?_, hrh2, ?_⟩
      · intro e' a'
        show getNode (tableInsert st.eav (e, a) v) (e', a') = _
        rw [lastWrite_snoc]
        by_cases hea : e = e' ∧ a = a'
        · rw [if_pos hea]
          obtain ⟨he, ha⟩ := hea
          subst he
          subst ha
          exact getNode_tableInsert_self (e, a) v st.eav
        · rw [if_neg hea]
          rw [getNode_tableInsert_ne (e, a) (e', a') v
            (fun hc => hea ⟨(congrArg Prod.fst hc).symm, (congrArg Prod.snd hc).symm⟩) st.eav]
          exact heav e' a'
      · show match getNode (tableInsert st.refs ROOT_REF_NAME h2) ROOT_REF_NAME with
          | none => ∀ e' a', lastWrite (ws ++ [(e, a, v)]) e' a' = none
          | some h => ∃ root rents2, getNode repo2 h = some root ∧
              FEnt repo2 root rents2 ∧ UniformNode root ∧ EntSorted rents2 ∧
              ∀ e' a', plookup (toLex (e', a')) rents2 =
                lastWrite (ws ++ [(e, a, v)]) e' a'
        rw [getNode_tableInsert_self ROOT_REF_NAME h2 st.refs]
        refine ⟨child, cents, hget, hfc, huc, ?_, ?_⟩
        · rw [← hE]
          exact upEnts_sorted (toLex (e, a)) v ents hs
        · intro e' a'
          rw [lastWrite_snoc, ← hE]
          by_cases hea : e = e' ∧ a = a'
          · rw [if_pos hea]
            obtain ⟨he, ha⟩ := hea
            subst he
            subst ha
            exact plookup_upEnts_eq (toLex (e, a)) v ents
          · rw [if_neg hea]
            rw [plookup_upEnts_ne (toLex (e, a)) (toLex (e', a')) v ?_ ents]
            · exact hlook e' a'
            · intro hc
              have hc2 : (e', a') = (e, a) := toLex_inj.mp hc
              exact hea ⟨(congrArg Prod.fst hc2).symm, (congrArg Prod.snd hc2).symm⟩

/-- Db::write preserves the PT facade invariant. -/
theorem ptInv_write (lev : DbKey → Nat) (kb : DbKey → List Nat)
    (hashM : MstNode DbKey String H → H) (hashP : PtNode DbKey String H → H)
    (hinj : Function.Injective hashP) (fuel fuelC : Nat)
    {st st' : DbState H} {ws : List (String × String × String)} {e a v : String}
    (hm : PtInv hashP st ws)
    (hw : Db.write lev kb hashM hashP fuel fuelC st e a v = .ok st') :
    PtInv hashP st' (ws ++ [(e, a, v)]) := by
  obtain ⟨heng, heav, hrh, hroot⟩ := hm
  simp only [Db.write, heng] at hw
  simp only [bind, Except.bind] at hw
  cases hrootg : getNode st.refs ROOT_REF_NAME with
  | none =>
    simp only [hrootg] at hw hroot
    cases hup : PtNode.upsert kb hashP fuel st.repoP [] (toLex (e, a)) v with
    | error e2 => rw [hup] at hw; simp only [Except.mapError] at hw; cases hw
    | ok res =>
      obtain ⟨repo1, rs⟩ := res
      rw [hup] at hw
      simp only [Except.mapError, Except.bind] at hw
      cases hcol : PtNode.collapse kb hashP fuelC repo1 rs with
      | error e2 =>
        rw [show Db.collapse kb hashP fuelC repo1 rs =
          PtNode.collapse kb hashP fuelC repo1 rs from rfl, hcol] at hw
        simp only [Except.mapError] at hw
        cases hw
      | ok res2 =>
        obtain ⟨repo2, rs2⟩ := res2
        rw [show Db.collapse kb hashP fuelC repo1 rs =
          PtNode.collapse kb hashP fuelC repo1 rs from rfl, hcol] at hw
        simp only [Except.mapError] at hw
        obtain ⟨k2, h2, hrs2, hinv⟩ := ptInv_write_core kb hashP hinj fuel fuelC heng heav
          hrh (.nil) (Or.inl fun it hm2 => absurd hm2 (List.not_mem_nil it))
          List.Pairwise.nil (fun e' a' => by rw [hroot e' a']; rfl) hup hcol
        rw [hrs2] at hw
        simp only [List.head?] at hw
        simp only [Except.ok.injEq] at hw
        subst hw
        rw [← heng]
        exact hinv
  | some h0 =>
    simp only [hrootg] at hw hroot
    obtain ⟨root, ents, hg, hfe, hu, hs, hlook⟩ := hroot
    simp only [PtNode.load, hg, Except.mapError, Except.bind] at hw
    cases hup : PtNode.upsert kb hashP fuel st.repoP root (toLex (e, a)) v with
    | error e2 => rw [hup] at hw; simp only [Except.mapError] at hw; cases hw
    | ok res =>
      obtain ⟨repo1, rs⟩ := res
      rw [hup] at hw
      simp only [Except.mapError, Except.bind] at hw
      cases hcol : PtNode.collapse kb hashP fuelC repo1 rs with
      | error e2 =>
        rw [show Db.collapse kb hashP fuelC repo1 rs =
          PtNode.collapse kb hashP fuelC repo1 rs from rfl, hcol] at hw
        simp only [Except.mapError] at hw
        cases hw
      | ok res2 =>
        obtain ⟨repo2, rs2⟩ := res2
        rw [show Db.collapse kb hashP fuelC repo1 rs =
          PtNode.collapse kb hashP fuelC repo1 rs from rfl, hcol] at hw
        simp only [Except.mapError] at hw
        obtain ⟨k2, h2, hrs2, hinv⟩ := ptInv_write_core kb hashP hinj fuel fuelC heng heav
          hrh hfe hu hs hlook hup hcol
        rw [hrs2] at hw
        simp only [List.head?] at hw
        simp only [Except.ok.injEq] at hw
        subst hw
        rw [← heng]
        exact hinv

end DbInvariantPt

section DbInvariantAll

variable {H : Type} [DecidableEq H]

/-- A write sequence preserves the MST facade invariant. -/
theorem mstInv_writeAll (lev : DbKey → Nat) (kb : DbKey → List Nat)
    (hashM : MstNode DbKey String H → H) (hashP : PtNode DbKey String H → H)
    (hinj : Function.Injective hashM) (fuel fuelC : Nat) :
    ∀ (ws2 : List (String × String × String)) {st st' : DbState H}
      {ws : List (String × String × String)},
      MstInv lev hashM st ws →
      Db.writeAll lev kb hashM hashP fuel fuelC st ws2 = .ok st' →
      MstInv lev hashM st' (ws ++ ws2) := by
  intro ws2
  induction ws2 with
  | nil =>
    intro st st' ws hm h
    simp only [Db.writeAll, Except.ok.injEq] at h
    subst h
    rw [List.append_nil]
    exact hm
  | cons w rest ih =>
    intro st st' ws hm h
    obtain ⟨e, a, v⟩ := w
    simp only [Db.writeAll, bind, Except.bind] at h
    cases hw : Db.write lev kb hashM hashP fuel fuelC st e a v with
    | error e2 => rw [hw] at h; cases h
    | ok st1 =>
      rw [hw] at h
      have hm1 := mstInv_write lev kb hashM hashP hinj fuel fuelC hm hw
      have hm2 := ih hm1 h
      rw [List.append_assoc] at hm2
      exact hm2

/-- A write sequence preserves the PT facade invariant. -/
theorem ptInv_writeAll (lev : DbKey → Nat) (kb : DbKey → List Nat)
    (hashM : MstNode DbKey String H → H) (hashP : PtNode DbKey String H → H)
    (hinj : Function.Injective hashP) (fuel fuelC : Nat) :
    ∀ (ws2 : List (String × String × String)) {st st' : DbState H}
      {ws : List (String × String × String)},
      PtInv hashP st ws →
      Db.writeAll lev kb hashM hashP fuel fuelC st ws2 = .ok st' →
      PtInv hashP st' (ws ++ ws2) := by
  intro ws2
  induction ws2 with
  | nil =>
    intro st st' ws hm h
    simp only [Db.writeAll, Except.ok.injEq] at h
    subst h
    rw [List.append_nil]
    exact hm
  | cons w rest ih =>
    intro st st' ws hm h
    obtain ⟨e, a, v⟩ := w
    simp only [Db.writeAll, bind, Except.bind] at h
    cases hw : Db.write lev kb hashM hashP fuel fuelC st e a v with
    | error e2 => rw [hw] at h; cases h
    | ok st1 =>
      rw [hw] at h
      have hm1 := ptInv_write lev kb hashM hashP hinj fuel fuelC hm hw
      have hm2 := ih hm1 h
      rw [List.append_assoc] at hm2
      exact hm2

/-- After a non-empty history the most recent write of the final pair is
set. -/
theorem lastWrite_concat_self (ws : List (String × String × String)) (e a v : String) :
    lastWrite (ws ++ [(e, a, v)]) e a = some v := by
  rw [lastWrite_snoc, if_pos ⟨rfl, rfl⟩]

/-- Running Db::read_ref on an MST store with resolvable root and a
successful scan. -/
theorem read_ref_run_mst {st : DbState H} (heng : st.engine = .mst)
    {h0 : H} (hroot : getNode st.refs ROOT_REF_NAME = some h0)
    {root : MstNode DbKey String H} (hg : getNode st.repoM h0 = some root)
    {e a : String} {fuelR : Nat} {r : Option String}
    (hfind : MstNode.findAux st.repoM (toLex (e, a)) fuelR none root = .ok r) :
    Db.read_ref fuelR st ROOT_REF_NAME e a = .ok r := by
  simp only [Db.read_ref, hroot, heng, bind, Except.bind, MstNode.load, hg,
    Except.mapError, MstNode.find, hfind]

/-- Running Db::read_ref on a PT store with resolvable root and a
successful scan. -/
theorem read_ref_run_pt {st : DbState H} (heng : st.engine = .pt)
    {h0 : H} (hroot : getNode st.refs ROOT_REF_NAME = some h0)
    {root : PtNode DbKey String H} (hg : getNode st.repoP h0 = some root)
    {e a : String} {fuelR : Nat} {r : Option String}
    (hfind : PtNode.find fuelR st.repoP root (toLex (e, a)) = .ok r) :
    Db.read_ref fuelR st ROOT_REF_NAME e a = .ok r := by
  simp only [Db.read_ref, hroot, heng, bind, Except.bind, PtNode.load, hg,
    Except.mapError, hfind]

/-- Db::read_ref fails with RootHashNotFound exactly when the named ref
is absent: with the ref present, every failure of the engine walk is
wrapped as an engine error instead. -/
theorem read_ref_root_missing_iff (fuelR : Nat) (st : DbState H)
    (ref_name e a : String) :
    (Db.read_ref fuelR st ref_name e a = .error .rootHashNotFound) ↔
      getNode st.refs ref_name = none := by
  cases hroot : getNode st.refs ref_name with
  | none =>
    simp only [Db.read_ref, hroot]
  | some h0 =>
    simp only [Db.read_ref, hroot]
    constructor
    · intro hc
      exfalso
      cases heng : st.engine with
      | mst =>
        rw [heng] at hc
        simp only [bind, Except.bind] at hc
        cases hload : MstNode.load (V := String) st.repoM h0 with
        | error e2 =>
          rw [hload] at hc
          simp only [Except.mapError] at hc
          cases hc
        | ok root =>
          rw [hload] at hc
          simp only [Except.mapError] at hc
          cases hfind : MstNode.find fuelR st.repoM root (toLex (e, a)) with
          | error e2 =>
            rw [hfind] at hc
            simp only [Except.mapError] at hc
            cases hc
          | ok r =>
            rw [hfind] at hc
            simp only [Except.mapError] at hc
            cases hc
      | pt =>
        rw [heng] at hc
        simp only [bind, Except.bind] at hc
        cases hload : PtNode.load (V := String) st.repoP h0 with
        | error e2 =>
          rw [hload] at hc
          simp only [Except.mapError] at hc
          cases hc
        | ok root =>
          rw [hload] at hc
          simp only [Except.mapError] at hc
          cases hfind : PtNode.find fuelR st.repoP root (toLex (e, a)) with
          | error e2 =>
            rw [hfind] at hc
            simp only [Except.mapError] at hc
            cases hc
          | ok r =>
            rw [hfind] at hc
            simp only [Except.mapError] at hc
            cases hc
    · intro hc
      exact Option.noConfusion hc

end DbInvariantAll

section DbRoundTrip

/-- The EAV index of any store reached by a successful write sequence
holds exactly the most recent writes. -/
theorem db_writeAll_read (lev : DbKey → Nat) (kb : DbKey → List Nat)
    (engine : Engine) (fuel fuelC : Nat) (ws : List (String × String × String))
    (st : DbState Nat)
    (hrun : Db.writeAll lev kb mhashN phashN fuel fuelC (Db.init engine) ws = .ok st)
    (e a : String) : Db.read st e a = lastWrite ws e a := by
  cases engine with
  | mst =>
    have hm := mstInv_writeAll lev kb mhashN phashN
      (fun x y hxy => Encodable.encode_injective hxy) fuel fuelC ws
      (mstInv_init lev mhashN) hrun
    exact hm.2.1 e a
  | pt =>
    have hm := ptInv_writeAll lev kb mhashN phashN
      (fun x y hxy => Encodable.encode_injective hxy) fuel fuelC ws
      (ptInv_init phashN) hrun
    exact hm.2.1 e a

/-- After a non-empty successful write sequence, read_ref "root" resolves
every pair to its most recent write with enough fuel. -/
theorem db_writeAll_read_ref (lev : DbKey → Nat) (kb : DbKey → List Nat)
    (engine : Engine) (fuel fuelC : Nat) (ws : List (String × String × String))
    (st : DbState Nat)
    (hrun : Db.writeAll lev kb mhashN phashN fuel fuelC (Db.init engine) ws = .ok st)
    (e a : String) (hne : ws ≠ []) :
    ∃ fuelR, Db.read_ref fuelR st ROOT_REF_NAME e a = .ok (lastWrite ws e a) := by
  obtain ⟨ws0, w0, hws⟩ : ∃ L b, ws = L ++ [b] := by
    rcases List.eq_nil_or_concat ws with h | ⟨L, b, hcon⟩
    · exact absurd h hne
    · exact ⟨L, b, by rw [hcon, List.concat_eq_append]⟩
  obtain ⟨e0, a0, v0⟩ := w0
  have hsome : lastWrite ws e0 a0 = some v0 := by
    rw [hws]
    exact lastWrite_concat_self ws0 e0 a0 v0
  cases engine with
  | mst =>
    have hm := mstInv_writeAll lev kb mhashN phashN
      (fun x y hxy => Encodable.encode_injective hxy) fuel fuelC ws
      (mstInv_init lev mhashN) hrun
    obtain ⟨heng, heav, hrh, hrlh, hroot⟩ := hm
    cases hrootg : getNode st.refs ROOT_REF_NAME with
    | none =>
      simp only [hrootg, List.nil_append] at hroot
      rw [hroot e0 a0] at hsome
      cases hsome
    | some h0 =>
      simp only [hrootg, List.nil_append] at hroot
      obtain ⟨root, hg, hwf, hlh, hfind⟩ := hroot
      obtain ⟨fuelR, hAux⟩ := findr_complete (hfind e a)
      exact ⟨fuelR, read_ref_run_mst heng hrootg hg hAux⟩
  | pt =>
    have hm := ptInv_writeAll lev kb mhashN phashN
      (fun x y hxy => Encodable.encode_injective hxy) fuel fuelC ws
      (ptInv_init phashN) hrun
    obtain ⟨heng, heav, hrh, hroot⟩ := hm
    cases hrootg : getNode st.refs ROOT_REF_NAME with
    | none =>
      simp only [hrootg, List.nil_append] at hroot
      rw [hroot e0 a0] at hsome
      cases hsome
    | some h0 =>
      simp only [hrootg, List.nil_append] at hroot
      obtain ⟨root, ents, hg, hfe, hu, hs, hlook⟩ := hroot
      obtain ⟨fuelR, hfindP⟩ :=
        (pfind_complete hfe hu hs :
          ∃ fuelF, PtNode.find fuelF st.repoP root (toLex (e, a)) =
            .ok (plookup (toLex (e, a)) ents))
      rw [hlook e a] at hfindP
      exact ⟨fuelR, read_ref_run_pt heng hrootg hg hfindP⟩

end DbRoundTrip

/-- C2: on a store initialized with either engine (run with the injective
encoding hash), after any successful sequence of writes, Db::read returns
the most recent value written under the pair -- absent when the pair was
never written -- and once at least one write has happened, Db::read_ref
on the root ref returns that same most recent value with enough fuel. -/
theorem c2_round_trip (lev : DbKey → Nat) (kb : DbKey → List Nat)
    (engine : Engine) (fuel fuelC : Nat) (ws : List (String × String × String))
    (st : DbState Nat)
    (hrun : Db.writeAll lev kb mhashN phashN fuel fuelC (Db.init engine) ws = .ok st)
    (e a : String) :
    Db.read st e a = lastWrite ws e a ∧
    (ws ≠ [] → ∃ fuelR, Db.read_ref fuelR st ROOT_REF_NAME e a =
      .ok (lastWrite ws e a)) :=
  ⟨db_writeAll_read lev kb engine fuel fuelC ws st hrun e a,
   fun hne => db_writeAll_read_ref lev kb engine fuel fuelC ws st hrun e a hne⟩

/-- C2 witness: one concrete write on a fresh MST store; the round trip
holds at the resulting state. -/
theorem c2_round_trip_witness :
    Db.writeAll (fun _ => 0) (fun _ => []) mhashN phashN 10 10
      (Db.init .mst) [("a", "n", "1")] = .ok dbWitSt ∧
    (Db.read dbWitSt "a" "n" = lastWrite [("a", "n", "1")] "a" "n" ∧
      ([("a", "n", "1")] ≠ ([] : List (String × String × String)) →
        ∃ fuelR, Db.read_ref fuelR dbWitSt ROOT_REF_NAME "a" "n" =
          .ok (lastWrite [("a", "n", "1")] "a" "n"))) :=
  ⟨rfl, c2_round_trip (fun _ => 0) (fun _ => []) .mst 10 10 [("a", "n", "1")]
    dbWitSt rfl "a" "n"⟩

/-- C9: Db::read_ref fails with RootHashNotFound exactly when the named
ref is absent from the REFS table -- with the ref present, every failure
of the engine walk is wrapped as an engine error instead -- and on a
store reached by at least one successful write, a pair that was never
written reads back through the root ref as Ok none, not an error. -/
theorem c9_read_ref_errors (lev : DbKey → Nat) (kb : DbKey → List Nat)
    (engine : Engine) (fuel fuelC : Nat) (ws : List (String × String × String))
    (st : DbState Nat)
    (hrun : Db.writeAll lev kb mhashN phashN fuel fuelC (Db.init engine) ws = .ok st)
    (ref_name e a : String) (fuelR : Nat) :
    ((Db.read_ref fuelR st ref_name e a = .error .rootHashNotFound) ↔
      getNode st.refs ref_name = none) ∧
    (ws ≠ [] → lastWrite ws e a = none →
      ∃ fuelR2, Db.read_ref fuelR2 st ROOT_REF_NAME e a = .ok none) := by
  refine ⟨read_ref_root_missing_iff fuelR st ref_name e a, fun hne hnone => ?_⟩
  obtain ⟨fuelR2, hr⟩ := db_writeAll_read_ref lev kb engine fuel fuelC ws st hrun e a hne
  rw [hnone] at hr
  exact ⟨fuelR2, hr⟩

/-- C9 witness: after writing ("a","n","1"), a missing ref name errors
with RootHashNotFound exactly because it is absent, and the unwritten
pair ("a","m") reads back through the root as Ok none. -/
theorem c9_read_ref_errors_witness :
    ((Db.read_ref 10 dbWitSt "noroot" "a" "m" = .error .rootHashNotFound) ↔
      getNode dbWitSt.refs "noroot" = none) ∧
    (∃ fuelR2, Db.read_ref fuelR2 dbWitSt ROOT_REF_NAME "a" "m" = .ok none) :=
  ⟨(c9_read_ref_errors (fun _ => 0) (fun _ => []) .mst 10 10 [("a", "n", "1")]
      dbWitSt rfl "noroot" "a" "m" 10).1,
   (c9_read_ref_errors (fun _ => 0) (fun _ => []) .mst 10 10 [("a", "n", "1")]
      dbWitSt rfl "noroot" "a" "m" 10).2 (List.cons_ne_nil _ _) rfl⟩

set_option maxRecDepth 1000000 in
/-- C1: history independence fails on the code for both engines.  The
two MST orders insert the same two (key, final value) pairs into an
initially empty store (key levels 0 and 1, values distinct per key) and
produce different root hashes: inserting the level-1 key first yields a
root without the trailing reference to an empty right split node that
the other order produces.  The two PT orders insert the same four
single-byte keys and produce different roots: one collapses to a single
leaf, the other to an internal node over two chunks, because re-chunking
after an upsert restarts the rolling hash at the modified node's first
item instead of reproducing the boundaries of a bulk chunking pass.
Hashing is modelled by the injective encode of the node, so unequal
hashes are exactly unequal encoded nodes. -/
theorem c1_history_dependence :
    ([((1 : Nat), (10 : Nat)), (0, 20)].Perm [(0, 20), (1, 10)]) ∧
    (mstRootHash c1MstA).isSome = true ∧
    (mstRootHash c1MstB).isSome = true ∧
    mstRootHash c1MstA ≠ mstRootHash c1MstB ∧
    ([((8 : Nat), (1 : Nat)), (96, 1), (112, 1), (150, 1)].Perm
      [(8, 1), (112, 1), (150, 1), (96, 1)]) ∧
    (ptRootHash c1PtA).isSome = true ∧
    (ptRootHash c1PtB).isSome = true ∧
    ptRootHash c1PtA ≠ ptRootHash c1PtB := by
  refine ⟨by decide, by decide, by decide, by decide, by decide, ?_, ?_, ?_⟩
  · decide
  · decide
  · decide

set_option maxRecDepth 1000000 in
/-- C3: in-place equal-key update fails on the code.  In the base state
key 2 (level 0) is stored with value 0 under a payload-free intermediate
node; re-upserting the very same pair (2, 0) descends to that node,
splits its child reference and inserts a second payload for key 2 beside
it instead of replacing in place, so the root hash changes although the
new value equals the stored value, refuting the claimed equivalence.
Reads still return the unchanged value 0 before and after.  Hashing is
the injective encode of the node, so unequal hashes are exactly unequal
trees. -/
theorem c3_inplace_hash_stability :
    c3stored = some (some 0) ∧
    c3storedAfter = some (some 0) ∧
    (mstRootHash c3base).isSome = true ∧
    (mstRootHash c3rewrite).isSome = true ∧
    mstRootHash c3rewrite ≠ mstRootHash c3base := by
  refine ⟨by decide, by decide, by decide, by decide, ?_⟩
  decide

end Pika
